import Mathlib

/-!
# Bean container: definition merge and definition registry

A verification development for `src/bean/context.go`.

The Go code works on pointers, slices and maps, all of which are references
into mutable memory.  The embedding therefore passes an explicit `Heap`
around: backing arrays of slices, map objects, `BeanDefinition` records and
`ApplicationContext` records live in the heap and are named by addresses.
Allocation appends to the corresponding store, so a fresh address is the
current length of that store.

Run-time panics of Go (explicit `panic`, nil dereference, index out of range)
are results of type `Except Panic`.

The type declarations `BeanDefinition`, `ConstructorArgs` and `Fields` are not
part of `context.go`; their shape is fixed by the way the code uses them:
`ConstructorArgs` is appended to and spread with `...`, so it is a slice whose
keys are positions, and `Fields{}` is written by key, so it is a map.
-/

namespace Bean

/-- Go `interface{}` value: the nil interface, or a non-nil value with payload `V`. -/
inductive Value (V : Type) where
  | nil : Value V
  | val : V → Value V
deriving DecidableEq, Repr

/-- The test `v == nil` on an `interface{}` value. -/
def Value.isNil {V : Type} : Value V → Bool
  | Value.nil => true
  | Value.val _ => false

/-- Addresses of heap objects. -/
abbrev Addr := Nat

/-- Go run-time panics that the code can raise. -/
inductive Panic where
  | message (s : String)
  | nilDereference
  | indexOutOfRange
deriving DecidableEq, Repr

/-- Go slice header: backing array, offset of the first element in it, length and capacity.
The zero-capacity header `⟨0, 0, 0, 0⟩` never reads or writes its array. -/
structure Slice where
  arr : Addr
  off : Nat
  len : Nat
  cap : Nat
deriving DecidableEq, Repr

/-- The literal `ConstructorArgs{}`: an empty slice without capacity. -/
def Slice.empty : Slice := ⟨0, 0, 0, 0⟩

/-- Go map object with `string` keys and `interface{}` values (keys are unique). -/
abbrev GoMap (V : Type) := AList (fun _ : String => Value V)

/-- The type `ConstructorArgs`, a slice of `interface{}`: a slice header. -/
abbrev ConstructorArgs := Slice

/-- The type `Fields`, a map from `string` to `interface{}`: a reference to a map object
in the heap, `none` being the nil map. -/
abbrev Fields := Option Addr

/-- The record `BeanDefinition`.  `ConstructorArgs` is a slice header, `Fields` a map
reference (`none` is the nil map) and `context` a pointer to the owning context.
`R` is the type of the `Reflect` descriptor and `S` the type of `Scope`. -/
structure BeanDefinition (R S : Type) where
  Name : String
  Reflect : R
  Scope : S
  InitMethod : String
  ConstructorArgs : ConstructorArgs
  Fields : Fields
  context : Option Addr

/-- The record `ApplicationContext`; both `sync.Map`s are keyed by bean name. -/
structure ApplicationContext (V R S : Type) where
  Definitions : List (BeanDefinition R S)
  tidyDefinitions : AList (fun _ : String => Addr)
  instances : AList (fun _ : String => Value V)

/-- Mutable memory: backing arrays, map objects, definitions and contexts. -/
structure Heap (V R S : Type) where
  arrays : List (List (Value V))
  maps : List (GoMap V)
  defs : List (BeanDefinition R S)
  ctxs : List (ApplicationContext V R S)

variable {V R S : Type}

/-- The elements a slice currently denotes: `len` cells of its backing array from `off`. -/
def Heap.contents (h : Heap V R S) (s : Slice) : List (Value V) :=
  ((h.arrays.getD s.arr []).drop s.off).take s.len

/-- A slice header is valid in a heap when its capacity lies inside its backing array. -/
def Slice.Valid (h : Heap V R S) (s : Slice) : Prop :=
  s.len ≤ s.cap ∧ s.off + s.cap ≤ (h.arrays.getD s.arr []).length

/-- The element read `s[i]` performed by `range s` at position `i < len(s)`. -/
def Heap.elem (h : Heap V R S) (s : Slice) (i : Nat) : Value V :=
  ((h.arrays.getD s.arr []).getD (s.off + i) Value.nil)

/-- The assignment `s[i] = v`, bounds-checked against `len(s)`. -/
def Heap.setIndex (h : Heap V R S) (s : Slice) (i : Nat) (v : Value V) :
    Except Panic (Heap V R S) :=
  if i < s.len then
    Except.ok { h with arrays := h.arrays.set s.arr ((h.arrays.getD s.arr []).set (s.off + i) v) }
  else
    Except.error Panic.indexOutOfRange

/-- Overwrite the cells of `a` from position `p` on with `vs`. -/
def writeAt (a : List (Value V)) (p : Nat) (vs : List (Value V)) : List (Value V) :=
  a.take p ++ vs ++ a.drop (p + vs.length)

/-- Go `append(s, vs...)`.  When the result fits the capacity the cells after the
length are overwritten in the same backing array; otherwise a new backing array is
allocated, of capacity `len(s) + len(vs) + slack cap(s) (len(s) + len(vs))` (the growth
policy of the run time is the parameter `slack`), and receives the old elements and `vs`. -/
def Heap.append (slack : Nat → Nat → Nat) (h : Heap V R S) (s : Slice) (vs : List (Value V)) :
    Heap V R S × Slice :=
  if s.len + vs.length ≤ s.cap then
    let cells := writeAt (h.arrays.getD s.arr []) (s.off + s.len) vs
    ({ h with arrays := h.arrays.set s.arr cells }, { s with len := s.len + vs.length })
  else
    let need := s.len + vs.length
    let newcap := need + slack s.cap need
    let cells := h.contents s ++ vs ++ List.replicate (newcap - need) Value.nil
    ({ h with arrays := h.arrays ++ [cells] }, ⟨h.arrays.length, 0, need, newcap⟩)

/-- The entries of a map reference; the nil map has none. -/
def Heap.mapEntries (h : Heap V R S) (m : Option Addr) : List (Sigma fun _ : String => Value V) :=
  match m with
  | none => []
  | some a => (h.maps.getD a ∅).entries

/-- Go `len(m)` of a map reference. -/
def Heap.mapLen (h : Heap V R S) (m : Option Addr) : Nat :=
  (h.mapEntries m).length

/-- Go `m[k]` with the comma-ok result: `none` when the key is missing. -/
def Heap.mapGet (h : Heap V R S) (m : Option Addr) (k : String) : Option (Value V) :=
  match m with
  | none => none
  | some a => (h.maps.getD a ∅).lookup k

/-- The literal `Fields{}`: allocate a new empty map object. -/
def Heap.makeMap (h : Heap V R S) : Heap V R S × Addr :=
  ({ h with maps := h.maps ++ [∅] }, h.maps.length)

/-- The assignment `m[k] = v` on a non-nil map object. -/
def Heap.mapStore (h : Heap V R S) (m : Addr) (k : String) (v : Value V) : Heap V R S :=
  { h with maps := h.maps.set m ((h.maps.getD m ∅).insert k v) }

/-- Dereference a `*BeanDefinition`; a pointer to no record panics. -/
def Heap.deref (h : Heap V R S) (p : Addr) : Except Panic (BeanDefinition R S) :=
  match h.defs[p]? with
  | some d => Except.ok d
  | none => Except.error Panic.nilDereference

/-- Update the record behind a `*BeanDefinition` obtained from `&BeanDefinition{...}`. -/
def Heap.setDef (h : Heap V R S) (p : Addr) (g : BeanDefinition R S → BeanDefinition R S) :
    Heap V R S :=
  match h.defs[p]? with
  | some d => { h with defs := h.defs.set p (g d) }
  | none => h

/-- The inner loop of `merge`: `ok` becomes true when some index `sk` of the base
arguments equals `k`. -/
def keyExists (n k : Nat) : Bool :=
  (List.range n).foldl (fun ok sk => if sk = k then true else ok) false

/-- One iteration of `for k, v := range args` in `merge` (lines 106-121). -/
def argStep (slack : Nat → Nat → Nat) (bd : Addr) (args : ConstructorArgs)
    (st : Heap V R S × ConstructorArgs) (k : Nat) :
    Except Panic (Heap V R S × ConstructorArgs) :=
  let h := st.1
  let tmp := st.2
  let v := h.elem args k
  if v.isNil then
    Except.ok (h, tmp)
  else do
    let b ← h.deref bd
    if keyExists b.ConstructorArgs.len k then do
      let h1 ← h.setIndex tmp k v
      Except.ok (h1, tmp)
    else
      Except.ok (h.append slack tmp [v])

/-- The block `if a { ... }` of `merge` (lines 102-123). -/
def mergeArgs (slack : Nat → Nat → Nat) (h : Heap V R S) (bd nbd : Addr)
    (args : ConstructorArgs) :
    Except Panic (Heap V R S) := do
  let b ← h.deref bd
  let st0 := h.append slack Slice.empty (h.contents b.ConstructorArgs)
  let st ← (List.range args.len).foldlM (argStep slack bd args) st0
  Except.ok (st.1.setDef nbd (fun d => { d with ConstructorArgs := st.2 }))

/-- The block `if f { ... }` of `merge` (lines 124-133).  Each `range` loop runs over the
entries its map holds when the loop starts, in the order of the entry list; the loop
bodies write `tmp` only, and the map they build does not depend on the order
(`foldl_insert_order`). -/
def mergeFields (h : Heap V R S) (bd nbd : Addr) (fields : Fields) :
    Except Panic (Heap V R S) := do
  let (h1, tmp) := h.makeMap
  let b ← h1.deref bd
  let h2 := (h1.mapEntries b.Fields).foldl (fun g e => g.mapStore tmp e.1 e.2) h1
  let h3 := (h2.mapEntries fields).foldl (fun g e => g.mapStore tmp e.1 e.2) h2
  Except.ok (h3.setDef nbd (fun d => { d with Fields := some tmp }))

/-- The function `merge` (lines 87-135): returns the heap after the call and the
returned pointer. -/
def merge (slack : Nat → Nat → Nat) (h : Heap V R S) (bd : Addr) (fields : Fields)
    (args : ConstructorArgs) : Except Panic (Heap V R S × Addr) :=
  let f := decide (h.mapLen fields > 0)
  let a := decide (args.len > 0)
  if !(f || a) then
    Except.ok (h, bd)
  else do
    let b ← h.deref bd
    let nbd := h.defs.length
    let h1 : Heap V R S := { h with defs := h.defs ++ [
      { Name := b.Name, Scope := b.Scope, Reflect := b.Reflect, InitMethod := b.InitMethod,
        ConstructorArgs := b.ConstructorArgs, Fields := b.Fields, context := b.context }] }
    let h2 ← if a then mergeArgs slack h1 bd nbd args else Except.ok h1
    let h3 ← if f then mergeFields h2 bd nbd fields else Except.ok h2
    Except.ok (h3, nbd)

/-- Dereference a `*ApplicationContext`. -/
def Heap.derefCtx (h : Heap V R S) (t : Addr) : Except Panic (ApplicationContext V R S) :=
  match h.ctxs[t]? with
  | some c => Except.ok c
  | none => Except.error Panic.nilDereference

/-- Update the record behind a `*ApplicationContext`. -/
def Heap.setCtx (h : Heap V R S) (t : Addr)
    (g : ApplicationContext V R S → ApplicationContext V R S) : Except Panic (Heap V R S) :=
  match h.ctxs[t]? with
  | some c => Except.ok { h with ctxs := h.ctxs.set t (g c) }
  | none => Except.error Panic.nilDereference

/-- One iteration of `for _, d := range t.Definitions` in `Init` (lines 27-38): allocate
the copy `ptr` and store it under `d.Name`. -/
def initStep (t : Addr) (h : Heap V R S) (d : BeanDefinition R S) :
    Except Panic (Heap V R S) :=
  let ptr := h.defs.length
  let h1 : Heap V R S := { h with defs := h.defs ++ [
    { Name := d.Name, Reflect := d.Reflect, Scope := d.Scope, InitMethod := d.InitMethod,
      ConstructorArgs := d.ConstructorArgs, Fields := d.Fields, context := some t }] }
  h1.setCtx t (fun c => { c with tidyDefinitions := c.tidyDefinitions.insert d.Name ptr })

/-- The method `Init` (lines 25-39). -/
def Init (h : Heap V R S) (t : Addr) : Except Panic (Heap V R S) := do
  let h0 ← h.setCtx t (fun c => { c with tidyDefinitions := ∅ })
  let c ← h0.derefCtx t
  c.Definitions.foldlM (initStep t) h0

/-- The constructor `NewApplicationContext` (lines 9-15): returns the heap after the call
and the pointer to the new context. -/
def NewApplicationContext (h : Heap V R S) (definitions : List (BeanDefinition R S)) :
    Except Panic (Heap V R S × Addr) := do
  let context := h.ctxs.length
  let h1 : Heap V R S := { h with ctxs := h.ctxs ++ [
    { Definitions := definitions, tidyDefinitions := ∅, instances := ∅ }] }
  let h2 ← Init h1 context
  Except.ok (h2, context)

/-- The method `GetBeanDefinition` (lines 42-51); `fmt.Sprintf("Bean not found: %s", name)`
is the concatenation of the literal and `name`. -/
def GetBeanDefinition (h : Heap V R S) (t : Addr) (name : String) : Except Panic Addr := do
  let c ← h.derefCtx t
  match c.tidyDefinitions.lookup name with
  | some inf => Except.ok inf
  | none => Except.error (Panic.message ("Bean not found: " ++ name))

/-- The method `Has` (lines 73-82): the deferred function recovers any panic of
`GetBeanDefinition` and sets the result to `false`. -/
def Has (h : Heap V R S) (t : Addr) (name : String) : Except Panic Bool :=
  let ok := true
  match GetBeanDefinition h t name with
  | Except.error _ => Except.ok false
  | Except.ok _ => Except.ok ok

/-- Observation: the constructor arguments of the definition a call of `merge` returns,
read in the heap after the call (`none` when the call panics). -/
def mergedArgs (slack : Nat → Nat → Nat) (h : Heap V R S) (bd : Addr) (fields : Option Addr)
    (args : Slice) : Option (List (Value V)) :=
  match merge slack h bd fields args with
  | Except.ok (h1, p) => (h1.defs[p]?).map (fun nd => h1.contents nd.ConstructorArgs)
  | Except.error _ => none

/-- Observation: the lookup of key `k` in the fields of the definition a call of `merge`
returns, read in the heap after the call (outer `none` when the call panics). -/
def mergedField (slack : Nat → Nat → Nat) (h : Heap V R S) (bd : Addr) (fields : Option Addr)
    (args : Slice) (k : String) : Option (Option (Value V)) :=
  match merge slack h bd fields args with
  | Except.ok (h1, p) => (h1.defs[p]?).map (fun nd => h1.mapGet nd.Fields k)
  | Except.error _ => none

/-- The constructor-argument rule in the words of the specification, on the element
lists `base` and `over` (keys are positions): every base position keeps its order and
carries the override when the override has a non-nil value there, then follow the
non-nil overrides at positions that do not exist in `base`, in iteration order. -/
def argRule (base over : List (Value V)) : List (Value V) :=
  (List.range base.length).map
      (fun k => if (over.getD k Value.nil).isNil then base.getD k Value.nil
                else over.getD k Value.nil)
    ++ (over.drop base.length).filter (fun v => !v.isNil)

/-- The field rule in the words of the specification, as a lookup: a key of the
overrides maps to the override's value, every other key to base's value. -/
def fieldRule (base over : Option (Value V)) : Option (Value V) :=
  match over with
  | some v => some v
  | none => base

/-- Relation between the heap `h0` at the start of the argument block of `merge` and a
later heap `h` with the local slice `tmp`: `h` extends the arrays of `h0`, agrees with it
elsewhere, and `tmp` is valid and, unless it has no capacity, lives in a new array. -/
def Owned (h0 h : Heap V R S) (tmp : Slice) : Prop :=
  (∃ extra, h.arrays = h0.arrays ++ extra) ∧ h.maps = h0.maps ∧ h.defs = h0.defs ∧
  h.ctxs = h0.ctxs ∧ tmp.Valid h ∧ (tmp.cap = 0 ∨ h0.arrays.length ≤ tmp.arr)

/-- A map reference is valid in a heap when it is nil or names an allocated map. -/
def MapValid (h : Heap V R S) (m : Option Addr) : Prop :=
  ∀ a, m = some a → a < h.maps.length

/-- Validity of a slice header is decidable. -/
instance Slice.decidableValid (h : Heap V R S) (s : Slice) : Decidable (s.Valid h) := by
  unfold Slice.Valid
  infer_instance

/-- The container state together with a record of the construction calls: `built` lists,
in call order, the pointers on which `GetBean` has invoked `instance()`.  The record is
not a field of the code; it is kept to state how often construction is invoked. -/
structure World (V R S : Type) where
  heap : Heap V R S
  built : List Addr

/-- The call `t.instances.Load(name)` with its comma-ok result. -/
def Heap.load (h : Heap V R S) (t : Addr) (name : String) :
    Except Panic (Option (Value V)) :=
  match h.ctxs[t]? with
  | some c => Except.ok (c.instances.lookup name)
  | none => Except.error Panic.nilDereference

/-- The heap in which the context record `c` at `t` has `val` stored under `name` in its
instance cache. -/
def Heap.withCached (h : Heap V R S) (t : Addr) (c : ApplicationContext V R S)
    (name : String) (val : Value V) : Heap V R S :=
  { h with ctxs := h.ctxs.set t { c with instances := c.instances.insert name val } }

/-- The call `t.instances.LoadOrStore(name, val)`: the value already present under `name`
is returned and `val` is dropped; otherwise `val` is stored and returned. -/
def Heap.loadOrStore (h : Heap V R S) (t : Addr) (name : String) (val : Value V) :
    Except Panic (Heap V R S × Value V) :=
  match h.ctxs[t]? with
  | none => Except.error Panic.nilDereference
  | some c =>
    match c.instances.lookup name with
    | some ins => Except.ok (h, ins)
    | none => Except.ok (h.withCached t c name val, val)

/-- The method `GetBean` (lines 54-65).  The method `instance()` of `BeanDefinition` is
not part of `context.go`; it is the parameter `construct`, which receives the heap and
the pointer and yields the heap it leaves behind and the instance or its panic.
`SINGLETON` is the scope constant the code compares with.  The result is the world when
the call ends, by return or by panic, and the returned instance or the panic.  A panic
inside `merge` leaves behind only objects that `merge` allocated itself; they are
dropped. -/
def GetBean [DecidableEq S]
    (construct : Heap V R S → Addr → Heap V R S × Except Panic (Value V))
    (slack : Nat → Nat → Nat) (SINGLETON : S) (w : World V R S) (t : Addr) (name : String)
    (fields : Fields) (args : ConstructorArgs) : World V R S × Except Panic (Value V) :=
  match GetBeanDefinition w.heap t name with
  | Except.error e => (w, Except.error e)
  | Except.ok p =>
    match merge slack w.heap p fields args with
    | Except.error e => (w, Except.error e)
    | Except.ok (h1, bd) =>
      match h1.deref bd with
      | Except.error e => ({ w with heap := h1 }, Except.error e)
      | Except.ok b =>
        if b.Scope = SINGLETON then
          match h1.load t name with
          | Except.error e => ({ w with heap := h1 }, Except.error e)
          | Except.ok (some ins) => ({ w with heap := h1 }, Except.ok ins)
          | Except.ok none =>
            match construct h1 bd with
            | (h2, Except.error e) =>
              ({ heap := h2, built := w.built ++ [bd] }, Except.error e)
            | (h2, Except.ok val) =>
              match h2.loadOrStore t name val with
              | Except.error e => ({ heap := h2, built := w.built ++ [bd] }, Except.error e)
              | Except.ok (h3, ins) =>
                ({ heap := h3, built := w.built ++ [bd] }, Except.ok ins)
        else
          match construct h1 bd with
          | (h2, r) => ({ heap := h2, built := w.built ++ [bd] }, r)

/-- The method `Get` (lines 68-70): `GetBean` with the new empty map `Fields{}` and the
empty slice `ConstructorArgs{}`. -/
def Get [DecidableEq S]
    (construct : Heap V R S → Addr → Heap V R S × Except Panic (Value V))
    (slack : Nat → Nat → Nat) (SINGLETON : S) (w : World V R S) (t : Addr) (name : String) :
    World V R S × Except Panic (Value V) :=
  let made := w.heap.makeMap
  GetBean construct slack SINGLETON { w with heap := made.1 } t name (some made.2) Slice.empty

/-- A call of one of the public methods of a context. -/
inductive Call where
  | getBean (name : String) (fields : Fields) (args : ConstructorArgs)
  | get (name : String)
  | has (name : String)

/-- The world after a call on the context `t`, whether the call returns or panics.  `Has`
returns a boolean and writes nothing. -/
def exec [DecidableEq S]
    (construct : Heap V R S → Addr → Heap V R S × Except Panic (Value V))
    (slack : Nat → Nat → Nat) (SINGLETON : S) (t : Addr) (w : World V R S) :
    Call → World V R S
  | Call.getBean name fields args => (GetBean construct slack SINGLETON w t name fields args).1
  | Call.get name => (Get construct slack SINGLETON w t name).1
  | Call.has _ => w

/-- The instance cached under `name` in the context `t`, if any. -/
def Heap.cached (h : Heap V R S) (t : Addr) (name : String) : Option (Value V) :=
  match h.ctxs[t]? with
  | some c => c.instances.lookup name
  | none => none

/-- The definition registered under `name` in the context `t`, if any. -/
def Heap.registered (h : Heap V R S) (t : Addr) (name : String) :
    Option (BeanDefinition R S) :=
  match h.ctxs[t]? with
  | some c =>
    match c.tidyDefinitions.lookup name with
    | some p => h.defs[p]?
    | none => none
  | none => none

/-- Where a concurrent caller of `GetBean` stands.  Between two positions the caller
performs one operation of the method: the evaluation of line 55 and of the scope test
(which reads the registry and writes only objects the caller allocates itself), the
atomic `Load` of line 57, the call of `instance()` of line 60 or 64, and the atomic
`LoadOrStore` of line 61. -/
inductive Caller (V : Type) where
  | start (name : String) (fields : Fields) (args : ConstructorArgs)
  | probe (name : String) (bd : Addr)
  | build (name : String) (bd : Addr)
  | commit (name : String) (val : Value V)
  | buildOnly (bd : Addr)
  | done (r : Except Panic (Value V))

/-- The next operation of one caller of `GetBean` on the shared world: the new world and
the caller's new position. -/
def callerStep [DecidableEq S]
    (construct : Heap V R S → Addr → Heap V R S × Except Panic (Value V))
    (slack : Nat → Nat → Nat) (SINGLETON : S) (t : Addr) (w : World V R S) :
    Caller V → World V R S × Caller V
  | Caller.start name fields args =>
    match GetBeanDefinition w.heap t name with
    | Except.error e => (w, Caller.done (Except.error e))
    | Except.ok p =>
      match merge slack w.heap p fields args with
      | Except.error e => (w, Caller.done (Except.error e))
      | Except.ok (h1, bd) =>
        match h1.deref bd with
        | Except.error e => ({ w with heap := h1 }, Caller.done (Except.error e))
        | Except.ok b =>
          if b.Scope = SINGLETON then ({ w with heap := h1 }, Caller.probe name bd)
          else ({ w with heap := h1 }, Caller.buildOnly bd)
  | Caller.probe name bd =>
    match w.heap.load t name with
    | Except.error e => (w, Caller.done (Except.error e))
    | Except.ok (some ins) => (w, Caller.done (Except.ok ins))
    | Except.ok none => (w, Caller.build name bd)
  | Caller.build name bd =>
    match construct w.heap bd with
    | (h2, Except.error e) =>
      ({ heap := h2, built := w.built ++ [bd] }, Caller.done (Except.error e))
    | (h2, Except.ok val) => ({ heap := h2, built := w.built ++ [bd] }, Caller.commit name val)
  | Caller.commit name val =>
    match w.heap.loadOrStore t name val with
    | Except.error e => (w, Caller.done (Except.error e))
    | Except.ok (h3, ins) => ({ w with heap := h3 }, Caller.done (Except.ok ins))
  | Caller.buildOnly bd =>
    match construct w.heap bd with
    | (h2, r) => ({ heap := h2, built := w.built ++ [bd] }, Caller.done r)
  | Caller.done r => (w, Caller.done r)

/-- One step of the concurrent system: the scheduler picks caller `i`, which performs its
next operation on the shared world. -/
def sysStep [DecidableEq S]
    (construct : Heap V R S → Addr → Heap V R S × Except Panic (Value V))
    (slack : Nat → Nat → Nat) (SINGLETON : S) (t : Addr)
    (s : World V R S × List (Caller V)) (i : Nat) : World V R S × List (Caller V) :=
  match s.2[i]? with
  | none => s
  | some c =>
    ((callerStep construct slack SINGLETON t s.1 c).1,
     s.2.set i (callerStep construct slack SINGLETON t s.1 c).2)

/-- The concurrent system after a schedule, the list of the callers picked in turn. -/
def runSchedule [DecidableEq S]
    (construct : Heap V R S → Addr → Heap V R S × Except Panic (Value V))
    (slack : Nat → Nat → Nat) (SINGLETON : S) (t : Addr)
    (s : World V R S × List (Caller V)) (schedule : List Nat) :
    World V R S × List (Caller V) :=
  schedule.foldl (sysStep construct slack SINGLETON t) s

/-- What holds of a caller resolving the singleton `n` at every position: it is not on
the path of the other scopes, it works on `n`, and when it has returned an instance
that instance is the one cached under `n`. -/
def CallerOk (n : String) (t : Addr) (h : Heap V R S) : Caller V → Prop
  | Caller.start name _ _ => name = n
  | Caller.probe name _ => name = n
  | Caller.build name _ => name = n
  | Caller.commit name _ => name = n
  | Caller.buildOnly _ => False
  | Caller.done (Except.ok ins) => h.cached t n = some ins
  | Caller.done (Except.error _) => True

/-- The number of operations a caller of `GetBean` has at most still to perform. -/
def Caller.rank : Caller V → Nat
  | Caller.start _ _ _ => 4
  | Caller.probe _ _ => 3
  | Caller.build _ _ => 2
  | Caller.commit _ _ => 1
  | Caller.buildOnly _ => 1
  | Caller.done _ => 0

/-- What holds of a caller resolving the singleton `n` at every position when no
operation panics: it works on `n` with override slices valid in the heap, it is not on
the path of the other scopes, and when it has ended it has returned the instance cached
under `n`. -/
def CallerGood (n : String) (t : Addr) (h : Heap V R S) : Caller V → Prop
  | Caller.start name _ args => name = n ∧ args.Valid h
  | Caller.probe name _ => name = n
  | Caller.build name _ => name = n
  | Caller.commit name _ => name = n
  | Caller.buildOnly _ => False
  | Caller.done (Except.ok ins) => h.cached t n = some ins
  | Caller.done (Except.error _) => False

/-- Frame of a step with respect to the context `t`: the definitions of `h` are still
there in `h2`, the context still exists with the same registry, and every instance cached
in `h` is cached in `h2` under the same name. -/
def Grows (t : Addr) (h h2 : Heap V R S) : Prop :=
  h.defs <+: h2.defs ∧
  ∀ c, h.ctxs[t]? = some c → ∃ c2, h2.ctxs[t]? = some c2 ∧
    c2.tidyDefinitions = c.tidyDefinitions ∧
    ∀ n v, c.instances.lookup n = some v → c2.instances.lookup n = some v

/-- Every instance cached in `h` under a name is cached in `h2` under that name. -/
def KeepsCache (t : Addr) (h h2 : Heap V R S) : Prop :=
  ∀ n v, h.cached t n = some v → h2.cached t n = some v

/-- Every name with a cached instance is registered with a definition of scope
`SINGLETON`. -/
def CacheInv (SINGLETON : S) (t : Addr) (h : Heap V R S) : Prop :=
  ∀ n v, h.cached t n = some v → ∃ d, h.registered t n = some d ∧ d.Scope = SINGLETON

/-- Growth policy without spare capacity. -/
def exactGrowth : Nat → Nat → Nat := fun _ _ => 0

/-- Growth policy that doubles the requested length. -/
def doubling : Nat → Nat → Nat := fun _ need => need

/-- Example base definition: arguments in array 0, fields in map 0. -/
def exBase : BeanDefinition Unit String :=
  { Name := "db", Reflect := (), Scope := "singleton", InitMethod := "Init",
    ConstructorArgs := ⟨0, 0, 2, 2⟩, Fields := some 0, context := none }

/-- Example heap: `exBase` at address 0 with arguments `[1, 2]` (array 0) and fields
`{x: 1, y: 2}` (map 0); array 1 holds the overrides `[nil, 20, 3, nil]`, array 2 the
overrides `[nil, nil, nil, 7]`; map 1 holds the field overrides `{y: nil, z: 3}`. -/
def exHeap : Heap Nat Unit String :=
  { arrays := [[Value.val 1, Value.val 2],
               [Value.nil, Value.val 20, Value.val 3, Value.nil],
               [Value.nil, Value.nil, Value.nil, Value.val 7]],
    maps := [((∅ : GoMap Nat).insert "x" (Value.val 1)).insert "y" (Value.val 2),
             ((∅ : GoMap Nat).insert "y" Value.nil).insert "z" (Value.val 3)],
    defs := [exBase],
    ctxs := [] }

/-- The override slice `[nil, 20, 3, nil]` of `exHeap`. -/
def exArgs : Slice := ⟨1, 0, 4, 4⟩

/-- The override slice `[nil, nil, nil, 7]` of `exHeap`. -/
def exArgsGap : Slice := ⟨2, 0, 4, 4⟩

/-- An empty override slice (the nil slice). -/
def exNoArgs : Slice := ⟨0, 0, 0, 0⟩

/-- Example definition: the first entry named `db`. -/
def exFirst : BeanDefinition Unit String :=
  { Name := "db", Reflect := (), Scope := "singleton", InitMethod := "",
    ConstructorArgs := ⟨0, 0, 2, 2⟩, Fields := none, context := none }

/-- Example definition: the last entry named `db`. -/
def exLast : BeanDefinition Unit String :=
  { Name := "db", Reflect := (), Scope := "prototype", InitMethod := "Open",
    ConstructorArgs := ⟨1, 0, 4, 4⟩, Fields := some 1, context := none }

/-- Example definition with another name. -/
def exLog : BeanDefinition Unit String :=
  { Name := "log", Reflect := (), Scope := "prototype", InitMethod := "",
    ConstructorArgs := ⟨0, 0, 0, 0⟩, Fields := none, context := none }

/-- Example heap with one context whose registry holds the name `db`. -/
def exCtxHeap : Heap Nat Unit String :=
  { exHeap with
    ctxs := [{ Definitions := [exBase],
               tidyDefinitions := (∅ : AList (fun _ : String => Addr)).insert "db" 0,
               instances := ∅ }] }

/-- Example construction: allocates a new object (an empty array) and returns its
address as the instance, so every call yields a new identity. -/
def exConstruct (h : Heap Nat Unit String) (_p : Addr) :
    Heap Nat Unit String × Except Panic (Value Nat) :=
  ({ h with arrays := h.arrays ++ [[]] }, Except.ok (Value.val h.arrays.length))

/-- Example construction that always panics. -/
def exFailing (h : Heap Nat Unit String) (_p : Addr) :
    Heap Nat Unit String × Except Panic (Value Nat) :=
  (h, Except.error (Panic.message "construction failed"))

/-- Example world: the context built from `[exFirst, exLog]` on `exHeap` (its address
is 0), before any construction. -/
def exWorld : World Nat Unit String :=
  match NewApplicationContext exHeap [exFirst, exLog] with
  | Except.ok (h, _) => { heap := h, built := [] }
  | Except.error _ => { heap := exHeap, built := [] }

/-- The copy of `exFirst` that `Init` registers in the context at address 0. -/
def exDb : BeanDefinition Unit String := { exFirst with context := some 0 }

/-- The copy of `exLog` that `Init` registers in the context at address 0. -/
def exLogCopy : BeanDefinition Unit String := { exLog with context := some 0 }

/-- The world after the first resolution of the singleton `db` in `exWorld`. -/
def exWorldDb : World Nat Unit String :=
  (GetBean exConstruct doubling "singleton" exWorld 0 "db" none exNoArgs).1

/-- Example schedule for two callers: both miss the probe, both construct, and the
second loses the commit. -/
def exSchedule : List Nat := [0, 1, 0, 1, 0, 1, 0, 1]

/-! ## Lists -/

theorem keyExists_eq (n k : Nat) : keyExists n k = decide (k < n) := by
  unfold keyExists
  induction n with
  | zero => simp
  | succ n ih =>
    rw [List.range_succ, List.foldl_append, ih]
    by_cases h1 : n = k
    · subst h1; simp
    · by_cases h2 : k < n
      · have : k < n + 1 := by omega
        simp [h1, h2, this]
      · have : ¬ k < n + 1 := by omega
        simp [h1, h2, this]

theorem argRule_nil (B : List (Value V)) : argRule B [] = B := by
  unfold argRule
  apply List.ext_getElem?
  intro n
  simp only [List.drop_nil, List.filter_nil, List.append_nil, List.getElem?_map]
  by_cases hn : n < B.length
  · simp [List.getElem?_range hn, Value.isNil, List.getD_eq_getElem?_getD,
      List.getElem?_eq_getElem hn]
  · have h1 : B.length ≤ n := by omega
    simpa [List.getElem?_eq_none h1] using h1

theorem argRule_length (B A : List (Value V)) : B.length ≤ (argRule B A).length := by
  simp [argRule]

theorem argRule_getElem?_lt (B A : List (Value V)) (k : Nat) (hk : k < B.length) :
    (argRule B A)[k]? =
      some (if (A.getD k Value.nil).isNil then B.getD k Value.nil else A.getD k Value.nil) := by
  unfold argRule
  rw [List.getElem?_append_left (by simpa using hk)]
  simp [List.getElem?_map, List.getElem?_range hk]

theorem getD_snoc (P : List (Value V)) (v : Value V) (k : Nat) :
    (P ++ [v]).getD k Value.nil =
      if k < P.length then P.getD k Value.nil else if k = P.length then v else Value.nil := by
  simp only [List.getD_eq_getElem?_getD, List.getElem?_append]
  by_cases h1 : k < P.length
  · simp [h1]
  · by_cases h2 : k = P.length
    · subst h2; simp
    · have h3 : k - P.length ≠ 0 := by omega
      obtain ⟨j, hj⟩ := Nat.exists_eq_succ_of_ne_zero h3
      simp [h1, h2, hj]

theorem isNil_eq_true {v : Value V} (h : v.isNil = true) : v = Value.nil := by
  cases v with
  | nil => rfl
  | val x => simp [Value.isNil] at h

theorem filter_drop_snoc (P : List (Value V)) (v : Value V) (n : Nat) :
    ((P ++ [v]).drop n).filter (fun w => !w.isNil) =
      (P.drop n).filter (fun w => !w.isNil) ++
        (if n ≤ P.length then [v].filter (fun w => !w.isNil) else []) := by
  rw [List.drop_append_eq_append_drop, List.filter_append]
  by_cases h : n ≤ P.length
  · have : n - P.length = 0 := by omega
    simp [h, this]
  · have h3 : n - P.length ≠ 0 := by omega
    obtain ⟨j, hj⟩ := Nat.exists_eq_succ_of_ne_zero h3
    simp [h, hj]

theorem argRule_snoc_nil (B P : List (Value V)) (v : Value V) (hv : v.isNil = true) :
    argRule B (P ++ [v]) = argRule B P := by
  have hv2 := isNil_eq_true hv
  subst hv2
  unfold argRule
  rw [filter_drop_snoc]
  have hg : ∀ k, (P ++ [Value.nil]).getD k Value.nil = P.getD k Value.nil := by
    intro k
    rw [getD_snoc]
    by_cases h1 : k < P.length
    · simp [h1]
    · have : P.length ≤ k := by omega
      simp [h1, List.getD_eq_getElem?_getD, List.getElem?_eq_none this]
  simp only [hg]
  simp [Value.isNil]

theorem argRule_snoc_append (B P : List (Value V)) (v : Value V) (hv : v.isNil = false)
    (hlen : B.length ≤ P.length) : argRule B (P ++ [v]) = argRule B P ++ [v] := by
  unfold argRule
  rw [filter_drop_snoc]
  have hg : ∀ k ∈ List.range B.length,
      (P ++ [v]).getD k Value.nil = P.getD k Value.nil := by
    intro k hk
    have hk2 : k < P.length := by
      have := List.mem_range.mp hk
      omega
    rw [getD_snoc]; simp [hk2]
  have hm : (List.range B.length).map
      (fun k => if ((P ++ [v]).getD k Value.nil).isNil then B.getD k Value.nil
                else (P ++ [v]).getD k Value.nil) =
      (List.range B.length).map
      (fun k => if (P.getD k Value.nil).isNil then B.getD k Value.nil
                else P.getD k Value.nil) := by
    apply List.map_congr_left
    intro k hk
    rw [hg k hk]
  rw [hm]
  simp [hlen, hv]

theorem argRule_snoc_set (B P : List (Value V)) (v : Value V) (hv : v.isNil = false)
    (hlen : P.length < B.length) :
    argRule B (P ++ [v]) = (argRule B P).set P.length v := by
  apply List.ext_getElem?
  intro n
  have hdrop : ∀ Q : List (Value V), Q.length ≤ B.length → 
      argRule B Q = (List.range B.length).map
      (fun k => if (Q.getD k Value.nil).isNil then B.getD k Value.nil
                else Q.getD k Value.nil) := by
    intro Q hQ
    unfold argRule
    rw [List.drop_eq_nil_of_le hQ]; simp
  rw [hdrop (P ++ [v]) (by simp; omega), hdrop P (by omega)]
  rw [List.getElem?_set]
  by_cases hn : n < B.length
  · simp only [List.getElem?_map, List.getElem?_range hn, Option.map_some', List.length_map,
      List.length_range, getD_snoc]
    by_cases h1 : P.length = n
    · subst h1; simp [hv, hn]
    · by_cases h2 : n < P.length
      · simp [h1, h2]
      · have h3 : ¬ n = P.length := fun h => h1 h.symm
        have h4 : P.length ≤ n := by omega
        simp [h1, h2, h3, Value.isNil, List.getD_eq_getElem?_getD, List.getElem?_eq_none h4]
  · have h1 : B.length ≤ n := by omega
    have h2 : P.length ≠ n := by omega
    simp [List.getElem?_eq_none, h1, h2]

/-! ## Slices in the heap -/

theorem contents_length (h : Heap V R S) (s : Slice) (hv : s.Valid h) :
    (h.contents s).length = s.len := by
  unfold Slice.Valid at hv
  unfold Heap.contents
  simp only [List.length_take, List.length_drop]
  omega

theorem elem_eq_contents (h : Heap V R S) (s : Slice) (i : Nat) (hi : i < s.len) :
    h.elem s i = (h.contents s).getD i Value.nil := by
  unfold Heap.elem Heap.contents
  simp [List.getD_eq_getElem?_getD, List.getElem?_take, hi, List.getElem?_drop]

theorem set_getD_self {α : Type} (l : List α) (i : Nat) (d : α) : l.set i (l.getD i d) = l := by
  apply List.ext_getElem?
  intro n
  rw [List.getElem?_set]
  by_cases h1 : i = n
  · subst h1
    by_cases h2 : i < l.length
    · simp [h2, List.getD_eq_getElem?_getD, List.getElem?_eq_getElem h2]
    · have : l.length ≤ i := by omega
      simp [h2, List.getElem?_eq_none this]
  · simp [h1]

theorem getD_append_lt {α : Type} (l e : List α) (i : Nat) (d : α) (hi : i < l.length) :
    (l ++ e).getD i d = l.getD i d := by
  simp [List.getD_eq_getElem?_getD, List.getElem?_append_left hi]

theorem valid_arr_lt (h : Heap V R S) (s : Slice) (hv : s.Valid h) (hc : 0 < s.cap) :
    s.arr < h.arrays.length := by
  unfold Slice.Valid at hv
  by_contra hcon
  have h1 : h.arrays.length ≤ s.arr := Nat.le_of_not_lt hcon
  have h2 : h.arrays.getD s.arr [] = [] := by
    simp [List.getD_eq_getElem?_getD, List.getElem?_eq_none h1]
  rw [h2] at hv
  simp at hv
  omega

theorem owned_contents (h0 h : Heap V R S) (tmp s : Slice) (ho : Owned h0 h tmp)
    (hv : s.Valid h0) : h.contents s = h0.contents s := by
  obtain ⟨⟨extra, he⟩, -⟩ := ho
  by_cases hc : 0 < s.cap
  · have hlt := valid_arr_lt h0 s hv hc
    unfold Heap.contents
    rw [he, getD_append_lt _ _ _ _ hlt]
  · have h1 : s.len = 0 := by
      unfold Slice.Valid at hv
      omega
    unfold Heap.contents
    simp [h1]

theorem owned_elem (h0 h : Heap V R S) (tmp s : Slice) (i : Nat) (ho : Owned h0 h tmp)
    (hv : s.Valid h0) (hi : i < s.len) : h.elem s i = h0.elem s i := by
  rw [elem_eq_contents h s i hi, elem_eq_contents h0 s i hi, owned_contents h0 h tmp s ho hv]

theorem owned_refl (h0 : Heap V R S) : Owned h0 h0 Slice.empty := by
  refine ⟨⟨[], by simp⟩, rfl, rfl, rfl, ?_, Or.inl rfl⟩
  simp [Slice.Valid, Slice.empty]

theorem writeAt_length (a vs : List (Value V)) (p : Nat) (hp : p + vs.length ≤ a.length) :
    (writeAt a p vs).length = a.length := by
  unfold writeAt
  simp only [List.length_append, List.length_take, List.length_drop]
  omega

theorem writeAt_window (a vs : List (Value V)) (off len : Nat)
    (hp : off + len + vs.length ≤ a.length) :
    ((writeAt a (off + len) vs).drop off).take (len + vs.length) =
      (a.drop off).take len ++ vs := by
  unfold writeAt
  have h1 : a.take (off + len) = a.take off ++ (a.drop off).take len := List.take_add _ _ _
  have h2 : (a.take off).length = off := by simp; omega
  have h3 : ((a.drop off).take len).length = len := by simp; omega
  rw [h1, List.append_assoc, List.append_assoc, List.drop_left' h2, ← List.append_assoc]
  apply List.take_left'
  simp only [List.length_append, h3]

theorem getD_set_self {α : Type} (l : List α) (i : Nat) (x d : α) (hi : i < l.length) :
    (l.set i x).getD i d = x := by
  simp [List.getD_eq_getElem?_getD, List.getElem?_set, hi]

theorem extends_set (l0 e : List (List (Value V))) (i : Nat) (x : List (Value V))
    (hi : l0.length ≤ i) : ∃ e2, (l0 ++ e).set i x = l0 ++ e2 := by
  refine ⟨e.set (i - l0.length) x, ?_⟩
  rw [List.set_append]
  have : ¬ i < l0.length := by omega
  simp [this]

theorem append_owned (slack : Nat → Nat → Nat) (h0 h : Heap V R S) (tmp : Slice)
    (vs : List (Value V)) (ho : Owned h0 h tmp) :
    Owned h0 (h.append slack tmp vs).1 (h.append slack tmp vs).2 ∧
    (h.append slack tmp vs).1.contents (h.append slack tmp vs).2 = h.contents tmp ++ vs := by
  obtain ⟨⟨extra, he⟩, hm, hd, hc, hv, hf⟩ := ho
  have hlen := contents_length h tmp hv
  unfold Heap.append
  by_cases hfit : tmp.len + vs.length ≤ tmp.cap
  · simp only [hfit, if_true]
    by_cases hcap : tmp.cap = 0
    · have hl : tmp.len = 0 := by
        unfold Slice.Valid at hv
        omega
      have hvs : vs = [] := by
        apply List.eq_nil_of_length_eq_zero
        omega
      subst hvs
      have hw : writeAt (h.arrays.getD tmp.arr []) (tmp.off + tmp.len) [] =
          h.arrays.getD tmp.arr [] := by
        unfold writeAt
        simp
      simp only [hw, set_getD_self, List.length_nil, Nat.add_zero, List.append_nil]
      exact ⟨⟨⟨extra, he⟩, hm, hd, hc, hv, hf⟩, trivial⟩
    · have hpos : 0 < tmp.cap := Nat.pos_of_ne_zero hcap
      have hlt := valid_arr_lt h tmp hv hpos
      have hge : h0.arrays.length ≤ tmp.arr := by
        cases hf with
        | inl h1 => exact absurd h1 hcap
        | inr h1 => exact h1
      have hbound : tmp.off + tmp.len + vs.length ≤ (h.arrays.getD tmp.arr []).length := by
        unfold Slice.Valid at hv
        omega
      refine ⟨⟨?_, hm, hd, hc, ?_, hf⟩, ?_⟩
      · simp only [he]
        exact extends_set _ _ _ _ hge
      · unfold Slice.Valid
        simp only [getD_set_self _ _ _ _ hlt]
        rw [writeAt_length _ _ _ (by omega)]
        unfold Slice.Valid at hv
        exact ⟨hfit, hv.2⟩
      · unfold Heap.contents
        simp only [getD_set_self _ _ _ _ hlt]
        exact writeAt_window _ _ _ _ hbound
  · simp only [hfit, if_false]
    refine ⟨⟨⟨extra ++ [h.contents tmp ++ vs ++ List.replicate
        (tmp.len + vs.length + slack tmp.cap (tmp.len + vs.length) - (tmp.len + vs.length))
        Value.nil], ?_⟩, hm, hd, hc, ?_, Or.inr ?_⟩, ?_⟩
    · simp only [he, List.append_assoc]
    · unfold Slice.Valid
      simp only [List.getD_eq_getElem?_getD, List.getElem?_concat_length, Option.getD_some,
        List.length_append, List.length_replicate, hlen]
      omega
    · simp only [he, List.length_append]
      omega
    · have hl2 : (h.contents tmp ++ vs).length = tmp.len + vs.length := by
        simp [hlen]
      generalize h.contents tmp = c at hl2
      unfold Heap.contents
      simp only [List.getD_eq_getElem?_getD, List.getElem?_concat_length, Option.getD_some,
        List.drop_zero]
      exact List.take_left' hl2

theorem setIndex_owned (h0 h : Heap V R S) (tmp : Slice) (k : Nat) (v : Value V)
    (ho : Owned h0 h tmp) (hk : k < tmp.len) :
    ∃ h1, h.setIndex tmp k v = Except.ok h1 ∧ Owned h0 h1 tmp ∧
      h1.contents tmp = (h.contents tmp).set k v := by
  obtain ⟨⟨extra, he⟩, hm, hd, hc, hv, hf⟩ := ho
  have hv2 := hv
  unfold Slice.Valid at hv2
  have hpos : 0 < tmp.cap := by omega
  have hlt := valid_arr_lt h tmp hv hpos
  have hge : h0.arrays.length ≤ tmp.arr := by
    cases hf with
    | inl h1 => omega
    | inr h1 => exact h1
  unfold Heap.setIndex
  simp only [hk, if_true]
  refine ⟨_, rfl, ⟨?_, hm, hd, hc, ?_, hf⟩, ?_⟩
  · simp only [he]
    exact extends_set _ _ _ _ hge
  · unfold Slice.Valid
    simp only [getD_set_self _ _ _ _ hlt, List.length_set]
    exact hv2
  · unfold Heap.contents
    simp only [getD_set_self _ _ _ _ hlt]
    apply List.ext_getElem?
    intro n
    simp only [List.getElem?_take, List.getElem?_drop, List.getElem?_set, List.length_take,
      List.length_drop]
    by_cases h1 : k = n
    · subst h1
      have h2 : tmp.off + k < (h.arrays.getD tmp.arr []).length := by omega
      have h3 : k < min tmp.len ((h.arrays.getD tmp.arr []).length - tmp.off) := by
        simp only [Nat.lt_min]
        omega
      have h4 : k < (h.arrays.getD tmp.arr []).length - tmp.off := by omega
      simp only [List.getD_eq_getElem?_getD] at h2 h3 h4
      simp [hk, h2, h3, h4]
    · have h2 : ¬ tmp.off + k = tmp.off + n := by omega
      simp [h1, h2]

/-! ## The argument block of `merge` -/

theorem deref_of_get (h : Heap V R S) (p : Addr) (d : BeanDefinition R S)
    (hp : h.defs[p]? = some d) : h.deref p = Except.ok d := by
  unfold Heap.deref
  rw [hp]

theorem argStep_spec (slack : Nat → Nat → Nat) (h0 h : Heap V R S) (bd : Addr)
    (b : BeanDefinition R S) (args tmp : Slice) (m : Nat)
    (hb : h0.defs[bd]? = some b) (hvb : b.ConstructorArgs.Valid h0) (hva : args.Valid h0)
    (ho : Owned h0 h tmp) (hm : m < args.len)
    (hc : h.contents tmp =
      argRule (h0.contents b.ConstructorArgs) ((h0.contents args).take m)) :
    ∃ h1 tmp1, argStep slack bd args (h, tmp) m = Except.ok (h1, tmp1) ∧ Owned h0 h1 tmp1 ∧
      h1.contents tmp1 =
        argRule (h0.contents b.ConstructorArgs) ((h0.contents args).take (m + 1)) := by
  have hA := contents_length h0 args hva
  have hB := contents_length h0 b.ConstructorArgs hvb
  have hmA : m < (h0.contents args).length := by omega
  have hv : h.elem args m = (h0.contents args)[m] := by
    rw [owned_elem h0 h tmp args m ho hva hm, elem_eq_contents h0 args m hm,
      List.getD_eq_getElem?_getD, List.getElem?_eq_getElem hmA]
    rfl
  have htake : (h0.contents args).take (m + 1) =
      (h0.contents args).take m ++ [(h0.contents args)[m]] := by
    rw [List.take_succ, List.getElem?_eq_getElem hmA]
    rfl
  have hPlen : ((h0.contents args).take m).length = m := by
    rw [List.length_take]
    omega
  have hdefs : h.defs = h0.defs := ho.2.2.1
  have hderef : h.deref bd = Except.ok b := deref_of_get h bd b (by rw [hdefs]; exact hb)
  unfold argStep
  simp only [hv]
  rw [htake]
  generalize (h0.contents args)[m] = v
  cases hnil : v.isNil with
  | true =>
    refine ⟨h, tmp, by simp, ho, ?_⟩
    rw [hc, argRule_snoc_nil _ _ _ hnil]
  | false =>
    simp only [hderef, keyExists_eq, bind, Except.bind]
    by_cases hk : m < b.ConstructorArgs.len
    · have hlen : m < tmp.len := by
        have h1 := contents_length h tmp ho.2.2.2.2.1
        have h2 := argRule_length (h0.contents b.ConstructorArgs) ((h0.contents args).take m)
        rw [← hc, h1, hB] at h2
        omega
      obtain ⟨h1, hset, ho1, hc1⟩ := setIndex_owned h0 h tmp m v ho hlen
      refine ⟨h1, tmp, by simp [hk, hset], ho1, ?_⟩
      rw [hc1, hc]
      have h3 := argRule_snoc_set (h0.contents b.ConstructorArgs)
        ((h0.contents args).take m) v hnil (by rw [hPlen, hB]; exact hk)
      rw [hPlen] at h3
      exact h3.symm
    · have hap := append_owned slack h0 h tmp [v] ho
      refine ⟨(h.append slack tmp [v]).1, (h.append slack tmp [v]).2, by simp [hk],
        hap.1, ?_⟩
      rw [hap.2, hc]
      exact (argRule_snoc_append _ _ v hnil (by rw [hPlen, hB]; omega)).symm

theorem argLoop_spec (slack : Nat → Nat → Nat) (h0 : Heap V R S) (bd : Addr)
    (b : BeanDefinition R S) (args : Slice)
    (hb : h0.defs[bd]? = some b) (hvb : b.ConstructorArgs.Valid h0) (hva : args.Valid h0)
    (m : Nat) (hm : m ≤ args.len) :
    ∃ h tmp, (List.range m).foldlM (argStep slack bd args)
        (h0.append slack Slice.empty (h0.contents b.ConstructorArgs)) = Except.ok (h, tmp) ∧
      Owned h0 h tmp ∧
      h.contents tmp =
        argRule (h0.contents b.ConstructorArgs) ((h0.contents args).take m) := by
  induction m with
  | zero =>
    have hap := append_owned slack h0 h0 Slice.empty (h0.contents b.ConstructorArgs)
      (owned_refl h0)
    refine ⟨_, _, by simp [List.foldlM, pure, Except.pure], hap.1, ?_⟩
    rw [hap.2, List.take_zero, argRule_nil]
    simp [Heap.contents, Slice.empty]
  | succ m ih =>
    obtain ⟨h, tmp, hrun, ho, hc⟩ := ih (by omega)
    obtain ⟨h1, tmp1, hstep, ho1, hc1⟩ :=
      argStep_spec slack h0 h bd b args tmp m hb hvb hva ho (by omega) hc
    refine ⟨h1, tmp1, ?_, ho1, hc1⟩
    rw [List.range_succ, List.foldlM_append, hrun]
    simp [List.foldlM, bind, Except.bind, hstep, pure, Except.pure]

/-! ## The field block of `merge` -/

theorem foldl_insert_lookup (es : List (Sigma fun _ : String => Value V))
    (hn : es.NodupKeys) (M : GoMap V) (k : String) :
    (es.foldl (fun (M : GoMap V) e => M.insert e.1 e.2) M).lookup k =
      fieldRule (M.lookup k) (es.dlookup k) := by
  induction es generalizing M with
  | nil => simp [fieldRule]
  | cons e es ih =>
    rw [List.foldl_cons, ih (List.nodupKeys_cons.mp hn).2]
    obtain ⟨a, v⟩ := e
    by_cases hk : a = k
    · subst hk
      have hnot : a ∉ es.keys := (List.nodupKeys_cons.mp hn).1
      have h1 : es.dlookup a = none := List.dlookup_eq_none.mpr hnot
      simp [h1, fieldRule, AList.lookup_insert]
    · have hk2 : k ≠ a := fun h => hk h.symm
      rw [List.dlookup_cons_ne _ _ hk2, AList.lookup_insert_ne hk2]

theorem foldl_insert_order (es es2 : List (Sigma fun _ : String => Value V))
    (hp : es.Perm es2) (hn : es.NodupKeys) (M : GoMap V) (k : String) :
    (es2.foldl (fun (M : GoMap V) e => M.insert e.1 e.2) M).lookup k =
      (es.foldl (fun (M : GoMap V) e => M.insert e.1 e.2) M).lookup k := by
  have hn2 : es2.NodupKeys := (List.perm_nodupKeys hp).mp hn
  rw [foldl_insert_lookup es2 hn2, foldl_insert_lookup es hn, List.perm_dlookup k hn hn2 hp]

theorem foldl_mapStore (es : List (Sigma fun _ : String => Value V)) (g : Heap V R S)
    (pre : List (GoMap V)) (M : GoMap V) (hg : g.maps = pre ++ [M]) :
    (es.foldl (fun (g : Heap V R S) e => g.mapStore pre.length e.1 e.2) g) =
      { g with maps := pre ++ [es.foldl (fun (M : GoMap V) e => M.insert e.1 e.2) M] } := by
  induction es generalizing g M with
  | nil => simp [← hg]
  | cons e es ih =>
    rw [List.foldl_cons, List.foldl_cons]
    have h1 : (g.mapStore pre.length e.1 e.2).maps = pre ++ [M.insert e.1 e.2] := by
      unfold Heap.mapStore
      simp [hg, List.getD_eq_getElem?_getD]
    rw [ih _ _ h1]
    simp [Heap.mapStore]

theorem mapGet_eq_dlookup (h : Heap V R S) (m : Option Addr) (k : String) :
    h.mapGet m k = (h.mapEntries m).dlookup k := by
  cases m with
  | none => rfl
  | some a => rfl

theorem mapEntries_nodupKeys (h : Heap V R S) (m : Option Addr) :
    (h.mapEntries m).NodupKeys := by
  cases m with
  | none => exact List.nodupKeys_nil
  | some a => exact (h.maps.getD a ∅).nodupKeys

theorem mapEntries_alloc_empty (h : Heap V R S) (m : Option Addr) :
    Heap.mapEntries ({ h with maps := h.maps ++ [∅] } : Heap V R S) m = h.mapEntries m := by
  cases m with
  | none => rfl
  | some a =>
    unfold Heap.mapEntries
    simp only [List.getD_eq_getElem?_getD]
    by_cases h1 : a < h.maps.length
    · rw [List.getElem?_append_left h1]
    · have h3 : h.maps.length ≤ a := Nat.le_of_not_lt h1
      rw [List.getElem?_eq_none h3, List.getElem?_append_right h3]
      cases hsub : a - h.maps.length with
      | zero => simp
      | succ j => simp

theorem mapEntries_of_lt (h g : Heap V R S) (m : Option Addr) (e : List (GoMap V))
    (hg : g.maps = h.maps ++ e) (hm : MapValid h m) : g.mapEntries m = h.mapEntries m := by
  cases m with
  | none => rfl
  | some a =>
    have h1 : a < h.maps.length := hm a rfl
    unfold Heap.mapEntries
    simp only [List.getD_eq_getElem?_getD, hg, List.getElem?_append_left h1]

theorem mapValid_of_len (h : Heap V R S) (m : Option Addr) (hf : 0 < h.mapLen m) :
    MapValid h m := by
  intro a ha
  subst ha
  by_contra hcon
  have h1 : h.maps.length ≤ a := Nat.le_of_not_lt hcon
  unfold Heap.mapLen Heap.mapEntries at hf
  simp [List.getD_eq_getElem?_getD, List.getElem?_eq_none h1] at hf

theorem mapGet_of_len_zero (h : Heap V R S) (m : Option Addr) (hf : h.mapLen m = 0)
    (k : String) : h.mapGet m k = none := by
  rw [mapGet_eq_dlookup]
  unfold Heap.mapLen at hf
  rw [List.eq_nil_of_length_eq_zero hf]
  rfl

theorem mergeFields_spec (h : Heap V R S) (bd nbd : Addr) (b nb : BeanDefinition R S)
    (fields : Option Addr) (hb : h.defs[bd]? = some b) (hnb : h.defs[nbd]? = some nb)
    (hf : 0 < h.mapLen fields) :
    ∃ h3 M, mergeFields h bd nbd fields = Except.ok h3 ∧ h3.arrays = h.arrays ∧
      h3.ctxs = h.ctxs ∧ h3.maps = h.maps ++ [M] ∧
      (∀ k, M.lookup k = fieldRule (h.mapGet b.Fields k) (h.mapGet fields k)) ∧
      h3.defs = h.defs.set nbd { nb with Fields := some h.maps.length } := by
  have hvalid := mapValid_of_len h fields hf
  unfold mergeFields Heap.makeMap
  have hd1 : Heap.deref ({ h with maps := h.maps ++ [∅] } : Heap V R S) bd = Except.ok b :=
    deref_of_get _ bd b hb
  simp only [hd1, bind, Except.bind, mapEntries_alloc_empty]
  rw [foldl_mapStore (h.mapEntries b.Fields) _ h.maps ∅ rfl]
  simp only []
  rw [mapEntries_of_lt h _ fields [_] rfl hvalid]
  rw [foldl_mapStore (h.mapEntries fields) _ h.maps _ rfl]
  refine ⟨_, (List.foldl (fun (M : GoMap V) e => M.insert e.1 e.2)
      (List.foldl (fun (M : GoMap V) e => M.insert e.1 e.2) ∅ (h.mapEntries b.Fields))
      (h.mapEntries fields)), rfl, ?_, ?_, ?_, ?_, ?_⟩
  · simp [Heap.setDef, hnb]
  · simp [Heap.setDef, hnb]
  · simp [Heap.setDef, hnb]
  · intro k
    rw [foldl_insert_lookup _ (mapEntries_nodupKeys h fields),
      foldl_insert_lookup _ (mapEntries_nodupKeys h b.Fields),
      mapGet_eq_dlookup, mapGet_eq_dlookup]
    cases List.dlookup k (h.mapEntries fields) with
    | some v => rfl
    | none =>
      cases List.dlookup k (h.mapEntries b.Fields) with
      | some v => rfl
      | none => rfl
  · simp [Heap.setDef, hnb]

theorem mergeArgs_spec (slack : Nat → Nat → Nat) (h1 : Heap V R S) (bd nbd : Addr)
    (b nb : BeanDefinition R S) (args : Slice)
    (hb : h1.defs[bd]? = some b) (hnb : h1.defs[nbd]? = some nb)
    (hvb : b.ConstructorArgs.Valid h1) (hva : args.Valid h1) :
    ∃ h2 tmp, mergeArgs slack h1 bd nbd args = Except.ok h2 ∧
      (∃ extra, h2.arrays = h1.arrays ++ extra) ∧ h2.maps = h1.maps ∧ h2.ctxs = h1.ctxs ∧
      h2.defs = h1.defs.set nbd { nb with ConstructorArgs := tmp } ∧
      (tmp.cap = 0 ∨ h1.arrays.length ≤ tmp.arr) ∧ tmp.Valid h2 ∧
      h2.contents tmp = argRule (h1.contents b.ConstructorArgs) (h1.contents args) := by
  obtain ⟨h, tmp, hrun, ho, hc⟩ :=
    argLoop_spec slack h1 bd b args hb hvb hva args.len (Nat.le_refl _)
  have hA := contents_length h1 args hva
  rw [← hA, List.take_length] at hc
  obtain ⟨hext, hm, hd, hcx, hv, hfresh⟩ := ho
  have hnb2 : h.defs[nbd]? = some nb := by rw [hd]; exact hnb
  refine ⟨h.setDef nbd (fun d => { d with ConstructorArgs := tmp }), tmp, ?_, ?_, ?_, ?_, ?_,
    hfresh, ?_, ?_⟩
  · unfold mergeArgs
    simp only [deref_of_get h1 bd b hb, bind, Except.bind, hrun]
  · simpa [Heap.setDef, hnb2] using hext
  · simpa [Heap.setDef, hnb2] using hm
  · simpa [Heap.setDef, hnb2] using hcx
  · simp [Heap.setDef, hnb, hd]
  · simpa [Heap.setDef, hnb2, Slice.Valid] using hv
  · simpa [Heap.setDef, hnb2, Heap.contents] using hc

/-! ## The whole of `merge` -/

theorem contents_congr (h g : Heap V R S) (s : Slice) (he : g.arrays = h.arrays) :
    g.contents s = h.contents s := by
  unfold Heap.contents
  rw [he]

theorem mapGet_congr (h g : Heap V R S) (m : Option Addr) (k : String)
    (he : g.maps = h.maps) : g.mapGet m k = h.mapGet m k := by
  unfold Heap.mapGet
  rw [he]

theorem mapLen_congr (h g : Heap V R S) (m : Option Addr) (he : g.maps = h.maps) :
    g.mapLen m = h.mapLen m := by
  unfold Heap.mapLen Heap.mapEntries
  rw [he]

theorem valid_congr (h g : Heap V R S) (s : Slice) (he : g.arrays = h.arrays)
    (hv : s.Valid h) : s.Valid g := by
  unfold Slice.Valid at hv ⊢
  rw [he]
  exact hv

theorem merge_identity (slack : Nat → Nat → Nat) (h : Heap V R S) (bd : Addr)
    (fields : Option Addr) (args : Slice) (hf : h.mapLen fields = 0) (ha : args.len = 0) :
    merge slack h bd fields args = Except.ok (h, bd) := by
  unfold merge
  simp [hf, ha]

theorem merge_unfold (slack : Nat → Nat → Nat) (h : Heap V R S) (bd : Addr)
    (b : BeanDefinition R S) (fields : Option Addr) (args : Slice)
    (hb : h.defs[bd]? = some b) (hne : 0 < h.mapLen fields ∨ 0 < args.len)
    (h1 : Heap V R S)
    (hh1 : h1 = { h with defs := h.defs ++ [
      { Name := b.Name, Scope := b.Scope, Reflect := b.Reflect, InitMethod := b.InitMethod,
        ConstructorArgs := b.ConstructorArgs, Fields := b.Fields, context := b.context }] }) :
    merge slack h bd fields args =
      match (if 0 < args.len then mergeArgs slack h1 bd h.defs.length args
             else Except.ok h1) with
      | Except.error e => Except.error e
      | Except.ok h2 =>
        match (if 0 < h.mapLen fields then mergeFields h2 bd h.defs.length fields
               else Except.ok h2) with
        | Except.error e => Except.error e
        | Except.ok h3 => Except.ok (h3, h.defs.length) := by
  subst hh1
  unfold merge
  have hcond : (!(decide (h.mapLen fields > 0) || decide (args.len > 0))) = false := by
    cases hne with
    | inl h1 => simp [h1]
    | inr h1 => simp [h1]
  simp only [hcond, deref_of_get h bd b hb, bind, Except.bind]
  by_cases ha : 0 < args.len <;> by_cases hf : 0 < h.mapLen fields <;>
    simp [ha, hf] <;> (repeat' split) <;> simp_all

theorem contents_of_len_zero (h : Heap V R S) (s : Slice) (hs : s.len = 0) :
    h.contents s = [] := by
  unfold Heap.contents
  simp [hs]

theorem set_length_snoc {α : Type} (l : List α) (x y : α) :
    (l ++ [x]).set l.length y = l ++ [y] := by
  rw [List.set_append]
  simp

theorem merge_spec (slack : Nat → Nat → Nat) (h : Heap V R S) (bd : Addr)
    (b : BeanDefinition R S) (fields : Option Addr) (args : Slice)
    (hb : h.defs[bd]? = some b) (hvb : b.ConstructorArgs.Valid h) (hva : args.Valid h)
    (hne : 0 < h.mapLen fields ∨ 0 < args.len) :
    ∃ h3 nd, merge slack h bd fields args = Except.ok (h3, h.defs.length) ∧
      h3.defs = h.defs ++ [nd] ∧ (∃ e, h3.arrays = h.arrays ++ e) ∧
      (∃ e, h3.maps = h.maps ++ e) ∧ h3.ctxs = h.ctxs ∧
      nd.Name = b.Name ∧ nd.Scope = b.Scope ∧ nd.Reflect = b.Reflect ∧
      nd.InitMethod = b.InitMethod ∧ nd.context = b.context ∧
      h3.contents nd.ConstructorArgs =
        argRule (h.contents b.ConstructorArgs) (h.contents args) ∧
      (∀ k, h3.mapGet nd.Fields k = fieldRule (h.mapGet b.Fields k) (h.mapGet fields k)) ∧
      (args.len = 0 → nd.ConstructorArgs = b.ConstructorArgs) ∧
      (h.mapLen fields = 0 → nd.Fields = b.Fields) ∧
      (0 < args.len →
        nd.ConstructorArgs.cap = 0 ∨ h.arrays.length ≤ nd.ConstructorArgs.arr) ∧
      (0 < h.mapLen fields → nd.Fields = some h.maps.length) := by
  -- the heap after `nbd := &BeanDefinition{...}`
  obtain ⟨nb, hnbdef⟩ : ∃ nb : BeanDefinition R S, nb =
      { Name := b.Name, Scope := b.Scope, Reflect := b.Reflect, InitMethod := b.InitMethod,
        ConstructorArgs := b.ConstructorArgs, Fields := b.Fields, context := b.context } :=
    ⟨_, rfl⟩
  obtain ⟨h1, hh1⟩ : ∃ h1 : Heap V R S, h1 = { h with defs := h.defs ++ [nb] } := ⟨_, rfl⟩
  have hbd_lt : bd < h.defs.length := by
    have := List.getElem?_eq_some.mp hb
    exact this.1
  have h1arr : h1.arrays = h.arrays := by rw [hh1]
  have h1maps : h1.maps = h.maps := by rw [hh1]
  have h1ctxs : h1.ctxs = h.ctxs := by rw [hh1]
  have h1defs : h1.defs = h.defs ++ [nb] := by rw [hh1]
  have hb1 : h1.defs[bd]? = some b := by
    rw [h1defs, List.getElem?_append_left hbd_lt]
    exact hb
  have hnb1 : h1.defs[h.defs.length]? = some nb := by
    rw [h1defs]
    simp
  rw [merge_unfold slack h bd b fields args hb hne h1 (by rw [hh1, hnbdef])]
  -- the argument block
  obtain ⟨h2, nb2, hrun2, h2defs, h2arr, h2maps, h2ctxs, hnbeq, hcont2, hcas, hfresh⟩ :
      ∃ h2 nb2, (if 0 < args.len then mergeArgs slack h1 bd h.defs.length args
          else Except.ok h1) = Except.ok h2 ∧
        h2.defs = h.defs ++ [nb2] ∧ (∃ e, h2.arrays = h.arrays ++ e) ∧ h2.maps = h.maps ∧
        h2.ctxs = h.ctxs ∧ nb2 = { nb with ConstructorArgs := nb2.ConstructorArgs } ∧
        h2.contents nb2.ConstructorArgs =
          argRule (h.contents b.ConstructorArgs) (h.contents args) ∧
        (args.len = 0 → nb2.ConstructorArgs = b.ConstructorArgs) ∧
        (0 < args.len →
          nb2.ConstructorArgs.cap = 0 ∨ h.arrays.length ≤ nb2.ConstructorArgs.arr) := by
    by_cases ha : 0 < args.len
    · obtain ⟨h2, tmp, hrun, hext, hm, hcx, hd, hfr, -, hc⟩ :=
        mergeArgs_spec slack h1 bd h.defs.length b nb args hb1 hnb1
          (valid_congr h h1 _ h1arr hvb) (valid_congr h h1 _ h1arr hva)
      refine ⟨h2, { nb with ConstructorArgs := tmp }, by simp [ha, hrun], ?_, ?_, ?_, ?_, rfl,
        ?_, ?_, ?_⟩
      · rw [hd, h1defs, set_length_snoc]
      · rw [h1arr] at hext
        exact hext
      · rw [hm, h1maps]
      · rw [hcx, h1ctxs]
      · rw [hc, contents_congr h h1 _ h1arr, contents_congr h h1 _ h1arr]
      · intro h0
        omega
      · intro _
        rw [h1arr] at hfr
        exact hfr
    · have ha0 : args.len = 0 := by omega
      refine ⟨h1, nb, by simp [ha], h1defs, ⟨[], by simp [h1arr]⟩, h1maps, h1ctxs, rfl,
        ?_, ?_, ?_⟩
      · rw [contents_congr h h1 _ h1arr, contents_of_len_zero h args ha0, argRule_nil, hnbdef]
      · intro _
        rw [hnbdef]
      · intro h0
        omega
  rw [hrun2]
  simp only []
  have hb2 : h2.defs[bd]? = some b := by
    rw [h2defs, List.getElem?_append_left hbd_lt]
    exact hb
  have hnb2 : h2.defs[h.defs.length]? = some nb2 := by
    rw [h2defs]
    simp
  have hnbName : nb2.Name = b.Name := by rw [hnbeq, hnbdef]
  have hnbScope : nb2.Scope = b.Scope := by rw [hnbeq, hnbdef]
  have hnbReflect : nb2.Reflect = b.Reflect := by rw [hnbeq, hnbdef]
  have hnbInit : nb2.InitMethod = b.InitMethod := by rw [hnbeq, hnbdef]
  have hnbCtx : nb2.context = b.context := by rw [hnbeq, hnbdef]
  have hnbFields : nb2.Fields = b.Fields := by rw [hnbeq, hnbdef]
  -- the field block
  by_cases hf : 0 < h.mapLen fields
  · have hf2 : 0 < h2.mapLen fields := by
      rw [mapLen_congr h h2 fields h2maps]
      exact hf
    obtain ⟨h3, M, hrun3, h3arr, h3ctxs, h3maps, hM, h3defs⟩ :=
      mergeFields_spec h2 bd h.defs.length b nb2 fields hb2 hnb2 hf2
    refine ⟨h3, { nb2 with Fields := some h2.maps.length }, by simp [hf, hrun3], ?_, ?_, ?_, ?_,
      hnbName, hnbScope, hnbReflect, hnbInit, hnbCtx, ?_, ?_, hcas, ?_, hfresh, ?_⟩
    · rw [h3defs, h2defs, set_length_snoc]
    · rw [h3arr]
      exact h2arr
    · exact ⟨[M], by rw [h3maps, h2maps]⟩
    · rw [h3ctxs, h2ctxs]
    · rw [contents_congr h2 h3 _ h3arr]
      exact hcont2
    · intro k
      have hget : h3.mapGet (some h2.maps.length) k = M.lookup k := by
        unfold Heap.mapGet
        simp [h3maps, List.getD_eq_getElem?_getD]
      show h3.mapGet (some h2.maps.length) k = _
      rw [hget, hM k, mapGet_congr h h2 _ k h2maps, mapGet_congr h h2 _ k h2maps]
    · intro h0
      omega
    · intro _
      show some h2.maps.length = some h.maps.length
      rw [h2maps]
  · have hf0 : h.mapLen fields = 0 := by omega
    refine ⟨h2, nb2, by simp [hf], h2defs, h2arr, ⟨[], by simp [h2maps]⟩, h2ctxs,
      hnbName, hnbScope, hnbReflect, hnbInit, hnbCtx, hcont2, ?_, hcas, ?_, hfresh, ?_⟩
    · intro k
      rw [hnbFields, mapGet_congr h h2 _ k h2maps, mapGet_of_len_zero h fields hf0 k]
      rfl
    · intro _
      exact hnbFields
    · intro h0
      omega

/-! ## What `merge` returns -/

theorem mergedArgs_eq (slack : Nat → Nat → Nat) (h : Heap V R S) (bd : Addr)
    (b : BeanDefinition R S) (fields : Option Addr) (args : Slice)
    (hb : h.defs[bd]? = some b) (hvb : b.ConstructorArgs.Valid h) (hva : args.Valid h) :
    mergedArgs slack h bd fields args =
      some (argRule (h.contents b.ConstructorArgs) (h.contents args)) := by
  unfold mergedArgs
  by_cases hne : 0 < h.mapLen fields ∨ 0 < args.len
  · obtain ⟨h3, nd, hrun, hdefs, -, -, -, -, -, -, -, -, hc, -⟩ :=
      merge_spec slack h bd b fields args hb hvb hva hne
    rw [hrun]
    simp [hdefs, hc]
  · have hf : h.mapLen fields = 0 := by omega
    have ha : args.len = 0 := by omega
    rw [merge_identity slack h bd fields args hf ha]
    simp [hb, contents_of_len_zero h args ha, argRule_nil]

theorem mergedField_eq (slack : Nat → Nat → Nat) (h : Heap V R S) (bd : Addr)
    (b : BeanDefinition R S) (fields : Option Addr) (args : Slice)
    (hb : h.defs[bd]? = some b) (hvb : b.ConstructorArgs.Valid h) (hva : args.Valid h)
    (k : String) :
    mergedField slack h bd fields args k =
      some (fieldRule (h.mapGet b.Fields k) (h.mapGet fields k)) := by
  unfold mergedField
  by_cases hne : 0 < h.mapLen fields ∨ 0 < args.len
  · obtain ⟨h3, nd, hrun, hdefs, -, -, -, -, -, -, -, -, -, hfl, -⟩ :=
      merge_spec slack h bd b fields args hb hvb hva hne
    rw [hrun]
    simp [hdefs, hfl]
  · have hf : h.mapLen fields = 0 := by omega
    have ha : args.len = 0 := by omega
    rw [merge_identity slack h bd fields args hf ha]
    simp [hb, mapGet_of_len_zero h fields hf k, fieldRule]

/-! ## Claims about `merge` -/

/-- C1: for every base definition and every non-empty argument override slice, the
constructor arguments of the definition returned by `merge` are the base arguments in
their original order, the entry at key `k` carrying the override's value when the
override has a non-nil value at `k` and base's value otherwise, followed by the non-nil
override values whose key does not exist in base, in iteration order. -/
theorem merge_args_rule (slack : Nat → Nat → Nat) (h : Heap V R S) (bd : Addr)
    (b : BeanDefinition R S) (fields : Option Addr) (args : Slice)
    (hb : h.defs[bd]? = some b) (hvb : b.ConstructorArgs.Valid h) (hva : args.Valid h)
    (hne : 0 < args.len) :
    mergedArgs slack h bd fields args =
      some ((List.range (h.contents b.ConstructorArgs).length).map
              (fun k => if ((h.contents args).getD k Value.nil).isNil
                        then (h.contents b.ConstructorArgs).getD k Value.nil
                        else (h.contents args).getD k Value.nil)
            ++ ((h.contents args).drop (h.contents b.ConstructorArgs).length).filter
                (fun v => !v.isNil)) := by
  have _ := hne
  rw [mergedArgs_eq slack h bd b fields args hb hvb hva]
  rfl

/-- Witness of C1: base `[1, 2]` with overrides `[nil, 20, 3, nil]` gives `[1, 20, 3]`. -/
theorem merge_args_rule_witness :
    (exHeap.defs[0]? = some exBase ∧ exBase.ConstructorArgs.Valid exHeap ∧
      exArgs.Valid exHeap ∧ 0 < exArgs.len) ∧
    mergedArgs exactGrowth exHeap 0 none exArgs =
      some [Value.val 1, Value.val 20, Value.val 3] :=
  ⟨⟨rfl, by decide, by decide, by decide⟩,
   (merge_args_rule exactGrowth exHeap 0 exBase none exArgs rfl (by decide) (by decide)
      (by decide)).trans (by decide)⟩

/-- C2: for every base definition and every argument override slice, the merged
constructor arguments are at least as long as base's, and at every key of base for which
the override has no value or a nil value the merged argument is base's argument. -/
theorem merge_nil_override_keeps_base (slack : Nat → Nat → Nat) (h : Heap V R S) (bd : Addr)
    (b : BeanDefinition R S) (fields : Option Addr) (args : Slice)
    (hb : h.defs[bd]? = some b) (hvb : b.ConstructorArgs.Valid h) (hva : args.Valid h) :
    ∃ merged, mergedArgs slack h bd fields args = some merged ∧
      (h.contents b.ConstructorArgs).length ≤ merged.length ∧
      ∀ k, k < (h.contents b.ConstructorArgs).length →
        ((h.contents args)[k]? = none ∨ (h.contents args)[k]? = some Value.nil) →
        merged[k]? = (h.contents b.ConstructorArgs)[k]? := by
  refine ⟨_, mergedArgs_eq slack h bd b fields args hb hvb hva, argRule_length _ _, ?_⟩
  intro k hk hnil
  rw [argRule_getElem?_lt _ _ k hk]
  have h1 : ((h.contents args).getD k Value.nil).isNil = true := by
    rw [List.getD_eq_getElem?_getD]
    cases hnil with
    | inl h2 => rw [h2]; rfl
    | inr h2 => rw [h2]; rfl
  rw [h1, if_pos rfl, List.getD_eq_getElem?_getD, List.getElem?_eq_getElem hk]
  rfl

/-- Witness of C2: key 0 of base `[1, 2]` has the nil override in `[nil, 20, 3, nil]`
and keeps the base value `1`. -/
theorem merge_nil_override_keeps_base_witness :
    (exHeap.defs[0]? = some exBase ∧ exBase.ConstructorArgs.Valid exHeap ∧
      exArgs.Valid exHeap) ∧
    ∃ merged, mergedArgs doubling exHeap 0 (some 1) exArgs = some merged ∧
      (exHeap.contents exBase.ConstructorArgs).length ≤ merged.length ∧
      ∀ k, k < (exHeap.contents exBase.ConstructorArgs).length →
        ((exHeap.contents exArgs)[k]? = none ∨ (exHeap.contents exArgs)[k]? = some Value.nil) →
        merged[k]? = (exHeap.contents exBase.ConstructorArgs)[k]? :=
  ⟨⟨rfl, by decide, by decide⟩,
   merge_nil_override_keeps_base doubling exHeap 0 exBase (some 1) exArgs rfl (by decide)
     (by decide)⟩

theorem argRule_new_key (B A : List (Value V)) (k : Nat) (v : Value V)
    (hk : A[k]? = some v) (hv : v.isNil = false) (hnew : B.length ≤ k) :
    (argRule B A)[B.length + ((A.take k).drop B.length).countP (fun w => !w.isNil)]? =
      some v := by
  have hklt : k < A.length := by
    by_contra hcon
    rw [List.getElem?_eq_none (Nat.le_of_not_lt hcon)] at hk
    exact Option.noConfusion hk
  have hsplit : A.drop B.length =
      (A.take k).drop B.length ++ v :: A.drop (k + 1) := by
    have h1 : A.drop k = v :: A.drop (k + 1) := by
      rw [List.drop_eq_getElem_cons hklt]
      rw [List.getElem?_eq_getElem hklt] at hk
      rw [Option.some.inj hk]
    have h2 : (A.take k).length = k := by
      rw [List.length_take]
      omega
    conv_lhs => rw [← List.take_append_drop k A]
    rw [List.drop_append_of_le_length (by omega), h1]
  unfold argRule
  rw [List.getElem?_append_right (by simp)]
  simp only [List.length_map, List.length_range, Nat.add_sub_cancel_left]
  rw [hsplit, List.filter_append, List.countP_eq_length_filter,
    List.getElem?_append_right (Nat.le_refl _), Nat.sub_self]
  simp [hv]

/-- C3, as the code has it: for every base definition and every argument override
`(key, value)` with a non-nil value whose key does not exist in base, the value is
appended as a trailing entry: it is found after all base entries, at position
`len(base)` plus the number of non-nil overrides at the keys from `len(base)` up to
`key`; that position is `key` itself when all those overrides are non-nil. -/
theorem merge_new_key_appended (slack : Nat → Nat → Nat) (h : Heap V R S) (bd : Addr)
    (b : BeanDefinition R S) (fields : Option Addr) (args : Slice)
    (hb : h.defs[bd]? = some b) (hvb : b.ConstructorArgs.Valid h) (hva : args.Valid h)
    (key : Nat) (value : Value V) (hk : (h.contents args)[key]? = some value)
    (hv : value.isNil = false) (hnew : (h.contents b.ConstructorArgs).length ≤ key) :
    ∃ merged, mergedArgs slack h bd fields args = some merged ∧
      merged[(h.contents b.ConstructorArgs).length +
        (((h.contents args).take key).drop (h.contents b.ConstructorArgs).length).countP
          (fun w => !w.isNil)]? = some value ∧
      ((∀ j, (h.contents b.ConstructorArgs).length ≤ j → j < key →
          ∃ w, (h.contents args)[j]? = some w ∧ w.isNil = false) →
        merged[key]? = some value) := by
  refine ⟨_, mergedArgs_eq slack h bd b fields args hb hvb hva,
    argRule_new_key _ _ key value hk hv hnew, ?_⟩
  intro hall
  have hcount : (((h.contents args).take key).drop
      (h.contents b.ConstructorArgs).length).countP (fun w => !w.isNil) =
      key - (h.contents b.ConstructorArgs).length := by
    have hklt : key < (h.contents args).length := by
      by_contra hcon
      rw [List.getElem?_eq_none (Nat.le_of_not_lt hcon)] at hk
      exact Option.noConfusion hk
    have hlen : (((h.contents args).take key).drop
        (h.contents b.ConstructorArgs).length).length =
        key - (h.contents b.ConstructorArgs).length := by
      rw [List.length_drop, List.length_take]
      omega
    rw [← hlen]
    apply List.countP_eq_length.mpr
    intro a ha
    obtain ⟨n, hn⟩ := List.mem_iff_getElem?.mp ha
    rw [List.getElem?_drop, List.getElem?_take] at hn
    by_cases hlt : (h.contents b.ConstructorArgs).length + n < key
    · rw [if_pos hlt] at hn
      obtain ⟨w, hw, hwnil⟩ := hall _ (Nat.le_add_right _ _) hlt
      rw [hw] at hn
      rw [← Option.some.inj hn]
      simp [hwnil]
    · rw [if_neg hlt] at hn
      exact Option.noConfusion hn
  have hpos := argRule_new_key (h.contents b.ConstructorArgs) (h.contents args) key value
    hk hv hnew
  rw [hcount] at hpos
  have hidx : (h.contents b.ConstructorArgs).length +
      (key - (h.contents b.ConstructorArgs).length) = key := by omega
  rw [hidx] at hpos
  exact hpos

/-- Witness of the amended C3: the override `7` at key 3 of `[nil, nil, nil, 7]` is new
for base `[1, 2]` and is found at position 2. -/
theorem merge_new_key_appended_witness :
    (exHeap.defs[0]? = some exBase ∧ exBase.ConstructorArgs.Valid exHeap ∧
      exArgsGap.Valid exHeap ∧ (exHeap.contents exArgsGap)[3]? = some (Value.val 7) ∧
      (Value.val 7 : Value Nat).isNil = false ∧
      (exHeap.contents exBase.ConstructorArgs).length ≤ 3) ∧
    ∃ merged, mergedArgs exactGrowth exHeap 0 none exArgsGap = some merged ∧
      merged[(exHeap.contents exBase.ConstructorArgs).length +
        (((exHeap.contents exArgsGap).take 3).drop
          (exHeap.contents exBase.ConstructorArgs).length).countP
          (fun w => !w.isNil)]? = some (Value.val 7) ∧
      ((∀ j, (exHeap.contents exBase.ConstructorArgs).length ≤ j → j < 3 →
          ∃ w, (exHeap.contents exArgsGap)[j]? = some w ∧ w.isNil = false) →
        merged[3]? = some (Value.val 7)) :=
  ⟨⟨rfl, by decide, by decide, by decide, rfl, by decide⟩,
   merge_new_key_appended exactGrowth exHeap 0 exBase none exArgsGap rfl (by decide)
     (by decide) 3 (Value.val 7) (by decide) rfl (by decide)⟩

/-- Counterexample to C3 as stated: with base `[1, 2]` and overrides `[nil, nil, nil, 7]`
the non-nil override `7` has key 3, which does not exist in base, yet the merged
arguments are `[1, 2, 7]`: the value is under key 2 and there is no entry at key 3. -/
theorem merge_new_key_shifted :
    (exHeap.contents exBase.ConstructorArgs = [Value.val 1, Value.val 2] ∧
     exHeap.contents exArgsGap = [Value.nil, Value.nil, Value.nil, Value.val 7] ∧
     mergedArgs exactGrowth exHeap 0 none exArgsGap =
       some [Value.val 1, Value.val 2, Value.val 7]) ∧
    ¬ (∃ merged, mergedArgs exactGrowth exHeap 0 none exArgsGap = some merged ∧
        merged[3]? = some (Value.val 7)) := by
  refine ⟨by decide, ?_⟩
  intro hex
  obtain ⟨merged, hm, h3⟩ := hex
  have hval : mergedArgs exactGrowth exHeap 0 none exArgsGap =
      some [Value.val 1, Value.val 2, Value.val 7] := by decide
  rw [hval] at hm
  rw [← Option.some.inj hm] at h3
  exact absurd h3 (by decide)

/-- C4: for every base definition and every non-empty field override map, the fields of
the definition returned by `merge` map each key of the overrides to the override's value
(a nil value included), every other key of base's fields to base's value, and hold no
other key. -/
theorem merge_fields_rule (slack : Nat → Nat → Nat) (h : Heap V R S) (bd : Addr)
    (b : BeanDefinition R S) (fields : Option Addr) (args : Slice)
    (hb : h.defs[bd]? = some b) (hvb : b.ConstructorArgs.Valid h) (hva : args.Valid h)
    (hne : 0 < h.mapLen fields) (k : String) :
    mergedField slack h bd fields args k =
      some (match h.mapGet fields k with
            | some v => some v
            | none => h.mapGet b.Fields k) := by
  have _ := hne
  rw [mergedField_eq slack h bd b fields args hb hvb hva k]
  rfl

/-- Witness of C4: base fields `{x: 1, y: 2}` with overrides `{y: nil, z: 3}` give
`{x: 1, y: nil, z: 3}`; the key `w` is absent. -/
theorem merge_fields_rule_witness :
    (exHeap.defs[0]? = some exBase ∧ exBase.ConstructorArgs.Valid exHeap ∧
      exNoArgs.Valid exHeap ∧ 0 < exHeap.mapLen (some 1)) ∧
    mergedField exactGrowth exHeap 0 (some 1) exNoArgs "x" = some (some (Value.val 1)) ∧
    mergedField exactGrowth exHeap 0 (some 1) exNoArgs "y" = some (some Value.nil) ∧
    mergedField exactGrowth exHeap 0 (some 1) exNoArgs "z" = some (some (Value.val 3)) ∧
    mergedField exactGrowth exHeap 0 (some 1) exNoArgs "w" = some none :=
  ⟨⟨rfl, by decide, by decide, by decide⟩,
   (merge_fields_rule exactGrowth exHeap 0 exBase (some 1) exNoArgs rfl (by decide)
      (by decide) (by decide) "x").trans (by decide),
   (merge_fields_rule exactGrowth exHeap 0 exBase (some 1) exNoArgs rfl (by decide)
      (by decide) (by decide) "y").trans (by decide),
   (merge_fields_rule exactGrowth exHeap 0 exBase (some 1) exNoArgs rfl (by decide)
      (by decide) (by decide) "z").trans (by decide),
   (merge_fields_rule exactGrowth exHeap 0 exBase (some 1) exNoArgs rfl (by decide)
      (by decide) (by decide) "w").trans (by decide)⟩

/-- C5: with both override sets empty `merge` returns the pointer `bd` it was given and
leaves the heap as it is: nothing is allocated or copied. -/
theorem merge_empty_returns_base (slack : Nat → Nat → Nat) (h : Heap V R S) (bd : Addr)
    (fields : Option Addr) (args : Slice) (hf : h.mapLen fields = 0) (ha : args.len = 0) :
    merge slack h bd fields args = Except.ok (h, bd) :=
  merge_identity slack h bd fields args hf ha

/-- Witness of C5: the nil map and the nil slice as overrides. -/
theorem merge_empty_returns_base_witness :
    (exHeap.mapLen none = 0 ∧ exNoArgs.len = 0) ∧
    merge doubling exHeap 0 none exNoArgs = Except.ok (exHeap, 0) :=
  ⟨⟨rfl, rfl⟩, merge_empty_returns_base doubling exHeap 0 none exNoArgs rfl rfl⟩

/-- C6: for every base definition and every pair of override sets, `merge` returns a
pointer to a definition with the name, scope, type descriptor, initializer name and
owning context of base. -/
theorem merge_keeps_identity_fields (slack : Nat → Nat → Nat) (h : Heap V R S) (bd : Addr)
    (b : BeanDefinition R S) (fields : Option Addr) (args : Slice)
    (hb : h.defs[bd]? = some b) (hvb : b.ConstructorArgs.Valid h) (hva : args.Valid h) :
    ∃ h1 p nd, merge slack h bd fields args = Except.ok (h1, p) ∧ h1.defs[p]? = some nd ∧
      nd.Name = b.Name ∧ nd.Scope = b.Scope ∧ nd.Reflect = b.Reflect ∧
      nd.InitMethod = b.InitMethod ∧ nd.context = b.context := by
  by_cases hne : 0 < h.mapLen fields ∨ 0 < args.len
  · obtain ⟨h3, nd, hrun, hdefs, -, -, -, h1, h2, h3', h4, h5, -⟩ :=
      merge_spec slack h bd b fields args hb hvb hva hne
    exact ⟨h3, h.defs.length, nd, hrun, by simp [hdefs], h1, h2, h3', h4, h5⟩
  · have hf : h.mapLen fields = 0 := by omega
    have ha : args.len = 0 := by omega
    exact ⟨h, bd, b, merge_identity slack h bd fields args hf ha, hb, rfl, rfl, rfl, rfl, rfl⟩

/-- Witness of C6: overriding arguments and fields of `exBase`. -/
theorem merge_keeps_identity_fields_witness :
    (exHeap.defs[0]? = some exBase ∧ exBase.ConstructorArgs.Valid exHeap ∧
      exArgs.Valid exHeap) ∧
    ∃ h1 p nd, merge doubling exHeap 0 (some 1) exArgs = Except.ok (h1, p) ∧
      h1.defs[p]? = some nd ∧
      nd.Name = exBase.Name ∧ nd.Scope = exBase.Scope ∧ nd.Reflect = exBase.Reflect ∧
      nd.InitMethod = exBase.InitMethod ∧ nd.context = exBase.context :=
  ⟨⟨rfl, by decide, by decide⟩,
   merge_keeps_identity_fields doubling exHeap 0 exBase (some 1) exArgs rfl (by decide)
     (by decide)⟩

/-- C7: for every base definition and non-empty overrides, `merge` does not mutate base:
after the call the record behind `bd`, the elements of its constructor arguments and the
entries of its fields are what they were before, the returned pointer is a new record,
and every array, map and definition of the old heap is still there unchanged (the heap
only grows by new objects). -/
theorem merge_does_not_mutate_base (slack : Nat → Nat → Nat) (h : Heap V R S) (bd : Addr)
    (b : BeanDefinition R S) (fields : Option Addr) (args : Slice)
    (hb : h.defs[bd]? = some b) (hvb : b.ConstructorArgs.Valid h) (hva : args.Valid h)
    (hmb : MapValid h b.Fields) (hne : 0 < h.mapLen fields ∨ 0 < args.len) :
    ∃ h1 p, merge slack h bd fields args = Except.ok (h1, p) ∧
      h1.defs[bd]? = some b ∧
      h1.contents b.ConstructorArgs = h.contents b.ConstructorArgs ∧
      h1.mapEntries b.Fields = h.mapEntries b.Fields ∧
      p = h.defs.length ∧
      h.arrays <+: h1.arrays ∧ h.maps <+: h1.maps ∧ h.defs <+: h1.defs ∧
      h1.ctxs = h.ctxs := by
  obtain ⟨h3, nd, hrun, hdefs, ⟨ea, harr⟩, ⟨em, hmaps⟩, hctx, -⟩ :=
    merge_spec slack h bd b fields args hb hvb hva hne
  have hbd_lt : bd < h.defs.length := (List.getElem?_eq_some.mp hb).1
  refine ⟨h3, h.defs.length, hrun, ?_, ?_, ?_, rfl, ⟨ea, harr.symm⟩, ⟨em, hmaps.symm⟩,
    ⟨[nd], hdefs.symm⟩, hctx⟩
  · rw [hdefs, List.getElem?_append_left hbd_lt]
    exact hb
  · by_cases hc : 0 < b.ConstructorArgs.cap
    · have hlt := valid_arr_lt h _ hvb hc
      unfold Heap.contents
      rw [harr, getD_append_lt _ _ _ _ hlt]
    · have h0 : b.ConstructorArgs.len = 0 := by
        unfold Slice.Valid at hvb
        omega
      rw [contents_of_len_zero _ _ h0, contents_of_len_zero _ _ h0]
  · exact mapEntries_of_lt h h3 b.Fields em hmaps hmb

/-- Witness of C7: overriding arguments and fields of `exBase`. -/
theorem merge_does_not_mutate_base_witness :
    (exHeap.defs[0]? = some exBase ∧ exBase.ConstructorArgs.Valid exHeap ∧
      exArgs.Valid exHeap ∧ MapValid exHeap exBase.Fields ∧
      (0 < exHeap.mapLen (some 1) ∨ 0 < exArgs.len)) ∧
    ∃ h1 p, merge doubling exHeap 0 (some 1) exArgs = Except.ok (h1, p) ∧
      h1.defs[0]? = some exBase ∧
      h1.contents exBase.ConstructorArgs = exHeap.contents exBase.ConstructorArgs ∧
      h1.mapEntries exBase.Fields = exHeap.mapEntries exBase.Fields ∧
      p = exHeap.defs.length ∧
      exHeap.arrays <+: h1.arrays ∧ exHeap.maps <+: h1.maps ∧ exHeap.defs <+: h1.defs ∧
      h1.ctxs = exHeap.ctxs :=
  ⟨⟨rfl, by decide, by decide, fun a ha => by cases ha; decide, Or.inr (by decide)⟩,
   merge_does_not_mutate_base doubling exHeap 0 exBase (some 1) exArgs rfl (by decide)
     (by decide) (fun a ha => by cases ha; decide) (Or.inr (by decide))⟩

/-! ## The definition registry -/

theorem initStep_eq (t : Addr) (g : Heap V R S) (c : ApplicationContext V R S)
    (d : BeanDefinition R S) (hc : g.ctxs[t]? = some c) :
    initStep t g d = Except.ok
      { g with
        defs := g.defs ++ [
          { Name := d.Name, Reflect := d.Reflect, Scope := d.Scope, InitMethod := d.InitMethod,
            ConstructorArgs := d.ConstructorArgs, Fields := d.Fields, context := some t }],
        ctxs := g.ctxs.set t
          { c with tidyDefinitions := c.tidyDefinitions.insert d.Name g.defs.length } } := by
  unfold initStep Heap.setCtx
  simp [hc]

theorem initLoop_spec (t : Addr) (ds : List (BeanDefinition R S)) :
    ∀ (g : Heap V R S) (c : ApplicationContext V R S), g.ctxs[t]? = some c →
    ∃ g1 c1, ds.foldlM (initStep t) g = Except.ok g1 ∧ g1.ctxs[t]? = some c1 ∧
      g1.arrays = g.arrays ∧ g1.maps = g.maps ∧
      c1.Definitions = c.Definitions ∧ c1.instances = c.instances ∧
      g1.defs = g.defs ++ ds.map (fun d =>
        { Name := d.Name, Reflect := d.Reflect, Scope := d.Scope, InitMethod := d.InitMethod,
          ConstructorArgs := d.ConstructorArgs, Fields := d.Fields, context := some t }) ∧
      (∀ name, (∀ e ∈ ds, e.Name ≠ name) →
        c1.tidyDefinitions.lookup name = c.tidyDefinitions.lookup name) ∧
      (∀ pre d post, ds = pre ++ d :: post → (∀ e ∈ post, e.Name ≠ d.Name) →
        c1.tidyDefinitions.lookup d.Name = some (g.defs.length + pre.length)) := by
  induction ds with
  | nil =>
    intro g c hc
    refine ⟨g, c, rfl, hc, rfl, rfl, rfl, rfl, by simp, fun _ _ => rfl, ?_⟩
    intro pre d post hsplit
    exact absurd hsplit (by simp)
  | cons d0 ds ih =>
    intro g c hc
    have ht : t < g.ctxs.length := (List.getElem?_eq_some.mp hc).1
    obtain ⟨g0, hg0⟩ : ∃ g0 : Heap V R S, g0 =
      { g with
        defs := g.defs ++ [
          { Name := d0.Name, Reflect := d0.Reflect, Scope := d0.Scope,
            InitMethod := d0.InitMethod, ConstructorArgs := d0.ConstructorArgs,
            Fields := d0.Fields, context := some t }],
        ctxs := g.ctxs.set t
          { c with tidyDefinitions := c.tidyDefinitions.insert d0.Name g.defs.length } } :=
      ⟨_, rfl⟩
    have hstep : initStep t g d0 = Except.ok g0 := by
      rw [hg0]
      exact initStep_eq t g c d0 hc
    have hc0 : g0.ctxs[t]? =
        some { c with tidyDefinitions := c.tidyDefinitions.insert d0.Name g.defs.length } := by
      rw [hg0]
      simp [List.getElem?_set, ht]
    obtain ⟨g1, c1, hrun, hc1, harr, hmaps, hdefn, hinst, hdefs, hP2, hP3⟩ := ih g0 _ hc0
    refine ⟨g1, c1, ?_, hc1, ?_, ?_, ?_, ?_, ?_, ?_, ?_⟩
    · rw [List.foldlM_cons, hstep]
      exact hrun
    · rw [harr, hg0]
    · rw [hmaps, hg0]
    · rw [hdefn]
    · rw [hinst]
    · rw [hdefs, hg0]
      simp
    · intro name hall
      rw [hP2 name (fun e he => hall e (List.mem_cons_of_mem _ he))]
      have hne : name ≠ d0.Name := fun heq => hall d0 (List.mem_cons_self _ _) heq.symm
      exact AList.lookup_insert_ne hne
    · intro pre d post hsplit hlast
      cases pre with
      | nil =>
        simp only [List.nil_append, List.cons.injEq] at hsplit
        obtain ⟨hd, hpost⟩ := hsplit
        subst hd hpost
        rw [hP2 d0.Name hlast]
        simp [AList.lookup_insert]
      | cons p0 pre1 =>
        simp only [List.cons_append, List.cons.injEq] at hsplit
        obtain ⟨-, hrest⟩ := hsplit
        rw [hP3 pre1 d post hrest hlast, hg0]
        simp only [List.length_append, List.length_nil, List.length_cons,
          Option.some.injEq]
        omega

theorem exists_last_named (ds : List (BeanDefinition R S)) (name : String)
    (hex : ∃ d ∈ ds, d.Name = name) :
    ∃ pre d post, ds = pre ++ d :: post ∧ d.Name = name ∧ ∀ e ∈ post, e.Name ≠ d.Name := by
  induction ds with
  | nil =>
    obtain ⟨d, hd, -⟩ := hex
    exact absurd hd (List.not_mem_nil d)
  | cons d0 ds ih =>
    by_cases htail : ∃ d ∈ ds, d.Name = name
    · obtain ⟨pre, d, post, hsplit, hname, hlast⟩ := ih htail
      exact ⟨d0 :: pre, d, post, by rw [hsplit]; rfl, hname, hlast⟩
    · obtain ⟨d, hd, hname⟩ := hex
      have hd0 : d0.Name = name := by
        cases List.mem_cons.mp hd with
        | inl h1 => rw [← h1]; exact hname
        | inr h1 => exact absurd ⟨d, h1, hname⟩ htail
      refine ⟨[], d0, ds, rfl, hd0, ?_⟩
      intro e he heq
      exact htail ⟨e, he, heq.trans hd0⟩

theorem newContext_spec (h : Heap V R S) (definitions : List (BeanDefinition R S)) :
    ∃ h1 c1, NewApplicationContext h definitions = Except.ok (h1, h.ctxs.length) ∧
      h1.ctxs[h.ctxs.length]? = some c1 ∧ h1.arrays = h.arrays ∧ h1.maps = h.maps ∧
      c1.Definitions = definitions ∧ c1.instances = ∅ ∧
      h1.defs = h.defs ++ definitions.map (fun d =>
        { Name := d.Name, Reflect := d.Reflect, Scope := d.Scope, InitMethod := d.InitMethod,
          ConstructorArgs := d.ConstructorArgs, Fields := d.Fields,
          context := some h.ctxs.length }) ∧
      (∀ name, (∀ e ∈ definitions, e.Name ≠ name) → c1.tidyDefinitions.lookup name = none) ∧
      (∀ pre d post, definitions = pre ++ d :: post → (∀ e ∈ post, e.Name ≠ d.Name) →
        c1.tidyDefinitions.lookup d.Name = some (h.defs.length + pre.length)) := by
  obtain ⟨c0, hc0⟩ : ∃ c0 : ApplicationContext V R S, c0 =
    { Definitions := definitions, tidyDefinitions := ∅, instances := ∅ } := ⟨_, rfl⟩
  obtain ⟨g, hg⟩ : ∃ g : Heap V R S, g =
    { h with ctxs := (h.ctxs ++ [c0]).set h.ctxs.length ({ c0 with tidyDefinitions := ∅ }) } :=
    ⟨_, rfl⟩
  have hgc : g.ctxs[h.ctxs.length]? = some { c0 with tidyDefinitions := ∅ } := by
    rw [hg]
    simp [List.getElem?_set]
  obtain ⟨g1, c1, hrun, hc1, harr, hmaps, hdefn, hinst, hdefs, hP2, hP3⟩ :=
    initLoop_spec h.ctxs.length definitions g _ hgc
  refine ⟨g1, c1, ?_, hc1, ?_, ?_, ?_, ?_, ?_, ?_, ?_⟩
  · unfold NewApplicationContext Init
    have hset : Heap.setCtx ({ h with ctxs := h.ctxs ++ [c0] } : Heap V R S) h.ctxs.length
        (fun c => { c with tidyDefinitions := ∅ }) = Except.ok g := by
      unfold Heap.setCtx
      rw [hg]
      simp
    have hderef : g.derefCtx h.ctxs.length = Except.ok { c0 with tidyDefinitions := ∅ } := by
      unfold Heap.derefCtx
      rw [hgc]
    rw [← hc0]
    simp only [hset, hderef, bind, Except.bind]
    have hd : ({ c0 with tidyDefinitions := ∅ } : ApplicationContext V R S).Definitions =
        definitions := by rw [hc0]
    rw [hd, hrun]
  · rw [harr, hg]
  · rw [hmaps, hg]
  · rw [hdefn, hc0]
  · rw [hinst, hc0]
  · rw [hdefs, hg]
  · intro name hall
    rw [hP2 name hall]
    rfl
  · intro pre d post hsplit hlast
    rw [hP3 pre d post hsplit hlast, hg]

theorem getBeanDefinition_of_lookup (h : Heap V R S) (t : Addr)
    (c : ApplicationContext V R S) (name : String) (hc : h.ctxs[t]? = some c) :
    GetBeanDefinition h t name =
      match c.tidyDefinitions.lookup name with
      | some inf => Except.ok inf
      | none => Except.error (Panic.message ("Bean not found: " ++ name)) := by
  unfold GetBeanDefinition Heap.derefCtx
  rw [hc]
  rfl

/-! ## Claims about the registry -/

/-- C8: for the context built by `NewApplicationContext` from a sequence of definitions
and every name, `GetBeanDefinition` succeeds exactly when some definition of the
sequence has that name, and otherwise panics with the message `Bean not found: <name>`. -/
theorem getBeanDefinition_iff_registered (h : Heap V R S)
    (definitions : List (BeanDefinition R S)) (name : String) :
    ∃ h1 t, NewApplicationContext h definitions = Except.ok (h1, t) ∧
      ((∃ p, GetBeanDefinition h1 t name = Except.ok p) ↔
        ∃ d ∈ definitions, d.Name = name) ∧
      ((¬ ∃ d ∈ definitions, d.Name = name) →
        GetBeanDefinition h1 t name =
          Except.error (Panic.message ("Bean not found: " ++ name))) := by
  obtain ⟨h1, c1, hrun, hc1, -, -, -, -, -, hP2, hP3⟩ := newContext_spec h definitions
  have hget := getBeanDefinition_of_lookup h1 h.ctxs.length c1 name hc1
  have hmiss : (¬ ∃ d ∈ definitions, d.Name = name) →
      GetBeanDefinition h1 h.ctxs.length name =
        Except.error (Panic.message ("Bean not found: " ++ name)) := by
    intro hno
    have hnone := hP2 name (fun e he heq => hno ⟨e, he, heq⟩)
    rw [hget, hnone]
  refine ⟨h1, h.ctxs.length, hrun, ⟨?_, ?_⟩, hmiss⟩
  · intro hok
    by_contra hno
    obtain ⟨p, hp⟩ := hok
    rw [hmiss hno] at hp
    exact Except.noConfusion hp
  · intro hex
    obtain ⟨pre, d, post, hsplit, hname, hlast⟩ := exists_last_named definitions name hex
    have hsome := hP3 pre d post hsplit hlast
    rw [hname] at hsome
    exact ⟨_, by rw [hget, hsome]⟩

/-- Witness of C8: in the context built from `[exFirst, exLog]` the name `missing` is
not found. -/
theorem getBeanDefinition_iff_registered_witness :
    ∃ h1 t, NewApplicationContext exHeap [exFirst, exLog] = Except.ok (h1, t) ∧
      ((∃ p, GetBeanDefinition h1 t "missing" = Except.ok p) ↔
        ∃ d ∈ [exFirst, exLog], d.Name = "missing") ∧
      ((¬ ∃ d ∈ [exFirst, exLog], d.Name = "missing") →
        GetBeanDefinition h1 t "missing" =
          Except.error (Panic.message ("Bean not found: " ++ "missing"))) :=
  getBeanDefinition_iff_registered exHeap [exFirst, exLog] "missing"

/-- C9: for every context and every name, `Has` returns a boolean and never panics; the
boolean is true exactly when `GetBeanDefinition` succeeds, and false exactly when it
panics, which for an allocated context is when the registry has no entry for the name. -/
theorem has_never_raises (h : Heap V R S) (t : Addr) (name : String) :
    ∃ ok, Has h t name = Except.ok ok ∧
      (ok = true ↔ ∃ p, GetBeanDefinition h t name = Except.ok p) ∧
      (ok = false ↔ ∃ e, GetBeanDefinition h t name = Except.error e) ∧
      (∀ c, h.ctxs[t]? = some c → (ok = false ↔ c.tidyDefinitions.lookup name = none)) := by
  unfold Has
  cases hres : GetBeanDefinition h t name with
  | error e =>
    refine ⟨false, rfl, by simp, by simp, ?_⟩
    intro c hc
    rw [getBeanDefinition_of_lookup h t c name hc] at hres
    cases hl : c.tidyDefinitions.lookup name with
    | none => simp
    | some p =>
      rw [hl] at hres
      exact Except.noConfusion hres
  | ok p =>
    refine ⟨true, rfl, by simp, by simp, ?_⟩
    intro c hc
    rw [getBeanDefinition_of_lookup h t c name hc] at hres
    cases hl : c.tidyDefinitions.lookup name with
    | none =>
      rw [hl] at hres
      exact Except.noConfusion hres
    | some p => simp

/-- Witness of C9: a name that is not registered in the context of `exCtxHeap`. -/
theorem has_never_raises_witness :
    ∃ ok, Has exCtxHeap 0 "missing" = Except.ok ok ∧
      (ok = true ↔ ∃ p, GetBeanDefinition exCtxHeap 0 "missing" = Except.ok p) ∧
      (ok = false ↔ ∃ e, GetBeanDefinition exCtxHeap 0 "missing" = Except.error e) ∧
      (∀ c, exCtxHeap.ctxs[0]? = some c →
        (ok = false ↔ c.tidyDefinitions.lookup "missing" = none)) :=
  has_never_raises exCtxHeap 0 "missing"

/-- C10: when a name occurs several times in the input sequence, the definition that
`GetBeanDefinition` returns for it after initialization carries the scope, type
descriptor, initializer name, constructor arguments and fields of the last entry with
that name (`d` is an entry after which no entry has its name). -/
theorem init_last_entry_wins (h : Heap V R S) (pre post : List (BeanDefinition R S))
    (d : BeanDefinition R S) (hlast : ∀ e ∈ post, e.Name ≠ d.Name) :
    ∃ h1 t p nd, NewApplicationContext h (pre ++ d :: post) = Except.ok (h1, t) ∧
      GetBeanDefinition h1 t d.Name = Except.ok p ∧ h1.defs[p]? = some nd ∧
      nd.Name = d.Name ∧ nd.Scope = d.Scope ∧ nd.Reflect = d.Reflect ∧
      nd.InitMethod = d.InitMethod ∧ nd.ConstructorArgs = d.ConstructorArgs ∧
      nd.Fields = d.Fields ∧
      h1.contents nd.ConstructorArgs = h.contents d.ConstructorArgs ∧
      h1.mapEntries nd.Fields = h.mapEntries d.Fields := by
  obtain ⟨h1, c1, hrun, hc1, harr, hmaps, -, -, hdefs, -, hP3⟩ :=
    newContext_spec h (pre ++ d :: post)
  have hsome := hP3 pre d post rfl hlast
  have hget := getBeanDefinition_of_lookup h1 h.ctxs.length c1 d.Name hc1
  rw [hsome] at hget
  refine ⟨h1, h.ctxs.length, h.defs.length + pre.length,
    { Name := d.Name, Reflect := d.Reflect, Scope := d.Scope, InitMethod := d.InitMethod,
      ConstructorArgs := d.ConstructorArgs, Fields := d.Fields,
      context := some h.ctxs.length },
    hrun, hget, ?_, rfl, rfl, rfl, rfl, rfl, rfl, ?_, ?_⟩
  · rw [hdefs, List.getElem?_append_right (Nat.le_add_right _ _), Nat.add_sub_cancel_left,
      List.map_append, List.getElem?_append_right (by simp)]
    simp
  · exact contents_congr h h1 _ harr
  · unfold Heap.mapEntries
    rw [hmaps]

/-- Witness of C10: `db` occurs twice in `[exFirst, exLast, exLog]`; the last entry wins. -/
theorem init_last_entry_wins_witness :
    (∀ e ∈ [exLog], e.Name ≠ exLast.Name) ∧
    ∃ h1 t p nd, NewApplicationContext exHeap ([exFirst] ++ exLast :: [exLog]) =
        Except.ok (h1, t) ∧
      GetBeanDefinition h1 t exLast.Name = Except.ok p ∧ h1.defs[p]? = some nd ∧
      nd.Name = exLast.Name ∧ nd.Scope = exLast.Scope ∧ nd.Reflect = exLast.Reflect ∧
      nd.InitMethod = exLast.InitMethod ∧ nd.ConstructorArgs = exLast.ConstructorArgs ∧
      nd.Fields = exLast.Fields ∧
      h1.contents nd.ConstructorArgs = exHeap.contents exLast.ConstructorArgs ∧
      h1.mapEntries nd.Fields = exHeap.mapEntries exLast.Fields :=
  ⟨by decide, init_last_entry_wins exHeap [exFirst] [exLog] exLast (by decide)⟩

/-! ## Totality of `merge` and independence of its overrides -/

/-- C18: `merge` is total on well-formed inputs: for every base definition, every field
override map and every argument override slice, of any length and with nil values
anywhere, the call returns a heap and a pointer; in particular the write `tmp[k] = v`
never panics with an index out of range. -/
theorem merge_never_out_of_range (slack : Nat → Nat → Nat) (h : Heap V R S) (bd : Addr)
    (b : BeanDefinition R S) (fields : Fields) (args : ConstructorArgs)
    (hb : h.defs[bd]? = some b) (hvb : b.ConstructorArgs.Valid h) (hva : args.Valid h) :
    (∃ h1 p, merge slack h bd fields args = Except.ok (h1, p)) ∧
      merge slack h bd fields args ≠ Except.error Panic.indexOutOfRange := by
  have hok : ∃ h1 p, merge slack h bd fields args = Except.ok (h1, p) := by
    by_cases hne : 0 < h.mapLen fields ∨ 0 < args.len
    · obtain ⟨h3, nd, hrun, -⟩ := merge_spec slack h bd b fields args hb hvb hva hne
      exact ⟨h3, _, hrun⟩
    · have hf : h.mapLen fields = 0 := by omega
      have ha : args.len = 0 := by omega
      exact ⟨h, bd, merge_identity slack h bd fields args hf ha⟩
  refine ⟨hok, ?_⟩
  obtain ⟨h1, p, hrun⟩ := hok
  rw [hrun]
  exact fun hcon => Except.noConfusion hcon

/-- Witness of C18: overrides `[nil, 20, 3, nil]`, longer than base `[1, 2]`. -/
theorem merge_never_out_of_range_witness :
    (exHeap.defs[0]? = some exBase ∧ exBase.ConstructorArgs.Valid exHeap ∧
      exArgs.Valid exHeap) ∧
    (∃ h1 p, merge doubling exHeap 0 (some 1) exArgs = Except.ok (h1, p)) ∧
      merge doubling exHeap 0 (some 1) exArgs ≠ Except.error Panic.indexOutOfRange :=
  ⟨⟨rfl, by decide, by decide⟩,
   merge_never_out_of_range doubling exHeap 0 exBase (some 1) exArgs rfl (by decide)
     (by decide)⟩

/-- C19: the two override kinds do not interfere.  With non-empty field overrides and
empty argument overrides the returned definition has base's constructor arguments (the
same slice, with the same elements); with non-empty argument overrides and empty field
overrides it has base's fields (the same map, with the same lookups). -/
theorem merge_overrides_independent (slack : Nat → Nat → Nat) (h : Heap V R S) (bd : Addr)
    (b : BeanDefinition R S) (fields : Fields) (args : ConstructorArgs)
    (hb : h.defs[bd]? = some b) (hvb : b.ConstructorArgs.Valid h) (hva : args.Valid h) :
    (0 < h.mapLen fields → args.len = 0 →
      ∃ h1 p nd, merge slack h bd fields args = Except.ok (h1, p) ∧ h1.defs[p]? = some nd ∧
        nd.ConstructorArgs = b.ConstructorArgs ∧
        h1.contents nd.ConstructorArgs = h.contents b.ConstructorArgs) ∧
    (0 < args.len → h.mapLen fields = 0 →
      ∃ h1 p nd, merge slack h bd fields args = Except.ok (h1, p) ∧ h1.defs[p]? = some nd ∧
        nd.Fields = b.Fields ∧
        ∀ k, h1.mapGet nd.Fields k = h.mapGet b.Fields k) := by
  constructor
  · intro hf ha
    obtain ⟨h3, nd, hrun, hdefs, -, -, -, -, -, -, -, -, hc, -, hca, -⟩ :=
      merge_spec slack h bd b fields args hb hvb hva (Or.inl hf)
    refine ⟨h3, h.defs.length, nd, hrun, by simp [hdefs], hca ha, ?_⟩
    rw [hc, contents_of_len_zero h args ha, argRule_nil]
  · intro ha hf
    obtain ⟨h3, nd, hrun, hdefs, -, -, -, -, -, -, -, -, -, hfl, -, hfs, -⟩ :=
      merge_spec slack h bd b fields args hb hvb hva (Or.inr ha)
    refine ⟨h3, h.defs.length, nd, hrun, by simp [hdefs], hfs hf, ?_⟩
    intro k
    rw [hfl k, mapGet_of_len_zero h fields hf k]
    rfl

/-- Witness of C19: field overrides `{y: nil, z: 3}` without argument overrides keep the
arguments, and argument overrides `[nil, 20, 3, nil]` without field overrides keep the
fields. -/
theorem merge_overrides_independent_witness :
    (exHeap.defs[0]? = some exBase ∧ exBase.ConstructorArgs.Valid exHeap ∧
      exNoArgs.Valid exHeap ∧ exArgs.Valid exHeap) ∧
    (∃ h1 p nd, merge doubling exHeap 0 (some 1) exNoArgs = Except.ok (h1, p) ∧
      h1.defs[p]? = some nd ∧ nd.ConstructorArgs = exBase.ConstructorArgs ∧
      h1.contents nd.ConstructorArgs = exHeap.contents exBase.ConstructorArgs) ∧
    (∃ h1 p nd, merge doubling exHeap 0 none exArgs = Except.ok (h1, p) ∧
      h1.defs[p]? = some nd ∧ nd.Fields = exBase.Fields ∧
      ∀ k, h1.mapGet nd.Fields k = exHeap.mapGet exBase.Fields k) :=
  ⟨⟨rfl, by decide, by decide, by decide⟩,
   (merge_overrides_independent doubling exHeap 0 exBase (some 1) exNoArgs rfl (by decide)
      (by decide)).1 (by decide) rfl,
   (merge_overrides_independent doubling exHeap 0 exBase none exArgs rfl (by decide)
      (by decide)).2 (by decide) rfl⟩

/-! ## What `merge` leaves alone, also on ill-formed inputs -/

theorem setIndex_frame (h h1 : Heap V R S) (s : Slice) (i : Nat) (v : Value V)
    (hr : h.setIndex s i v = Except.ok h1) :
    h1.defs = h.defs ∧ h1.ctxs = h.ctxs ∧ h1.maps = h.maps := by
  unfold Heap.setIndex at hr
  split at hr
  · injection hr with hr
    subst hr
    exact ⟨rfl, rfl, rfl⟩
  · exact Except.noConfusion hr

theorem append_frame (slack : Nat → Nat → Nat) (h : Heap V R S) (s : Slice)
    (vs : List (Value V)) :
    (h.append slack s vs).1.defs = h.defs ∧ (h.append slack s vs).1.ctxs = h.ctxs ∧
      (h.append slack s vs).1.maps = h.maps := by
  unfold Heap.append
  split <;> exact ⟨rfl, rfl, rfl⟩

theorem argStep_frame (slack : Nat → Nat → Nat) (bd : Addr) (args : ConstructorArgs)
    (st st1 : Heap V R S × ConstructorArgs) (k : Nat)
    (hr : argStep slack bd args st k = Except.ok st1) :
    st1.1.defs = st.1.defs ∧ st1.1.ctxs = st.1.ctxs ∧ st1.1.maps = st.1.maps := by
  unfold argStep at hr
  simp only [] at hr
  split at hr
  · injection hr with hr
    subst hr
    exact ⟨rfl, rfl, rfl⟩
  · cases hd : st.1.deref bd with
    | error e =>
      rw [hd] at hr
      exact Except.noConfusion hr
    | ok b =>
      rw [hd] at hr
      simp only [bind, Except.bind] at hr
      split at hr
      · cases hs : st.1.setIndex st.2 k (st.1.elem args k) with
        | error e =>
          rw [hs] at hr
          exact Except.noConfusion hr
        | ok h1 =>
          rw [hs] at hr
          injection hr with hr
          subst hr
          exact setIndex_frame _ _ _ _ _ hs
      · injection hr with hr
        subst hr
        exact append_frame slack _ _ _

theorem argLoop_frame (slack : Nat → Nat → Nat) (bd : Addr) (args : ConstructorArgs)
    (ks : List Nat) :
    ∀ (st st1 : Heap V R S × ConstructorArgs),
      ks.foldlM (argStep slack bd args) st = Except.ok st1 →
      st1.1.defs = st.1.defs ∧ st1.1.ctxs = st.1.ctxs ∧ st1.1.maps = st.1.maps := by
  induction ks with
  | nil =>
    intro st st1 hr
    simp only [List.foldlM, pure, Except.pure] at hr
    injection hr with hr
    subst hr
    exact ⟨rfl, rfl, rfl⟩
  | cons k ks ih =>
    intro st st1 hr
    rw [List.foldlM_cons] at hr
    cases hs : argStep slack bd args st k with
    | error e =>
      rw [hs] at hr
      exact Except.noConfusion hr
    | ok st0 =>
      rw [hs] at hr
      obtain ⟨h1, h2, h3⟩ := argStep_frame slack bd args st st0 k hs
      obtain ⟨h4, h5, h6⟩ := ih st0 st1 hr
      exact ⟨h4.trans h1, h5.trans h2, h6.trans h3⟩

theorem setDef_ctxs (h : Heap V R S) (p : Addr) (g : BeanDefinition R S → BeanDefinition R S) :
    (h.setDef p g).ctxs = h.ctxs := by
  unfold Heap.setDef
  split <;> rfl

theorem setDef_defs (h : Heap V R S) (p : Addr) (g : BeanDefinition R S → BeanDefinition R S)
    (d : BeanDefinition R S) (hp : h.defs[p]? = some d) :
    (h.setDef p g).defs = h.defs.set p (g d) := by
  unfold Heap.setDef
  rw [hp]

theorem mergeArgs_frame (slack : Nat → Nat → Nat) (h1 h2 : Heap V R S) (bd nbd : Addr)
    (args : ConstructorArgs) (hr : mergeArgs slack h1 bd nbd args = Except.ok h2) :
    h2.ctxs = h1.ctxs ∧ ∀ nb, h1.defs[nbd]? = some nb →
      ∃ tmp, h2.defs = h1.defs.set nbd { nb with ConstructorArgs := tmp } := by
  unfold mergeArgs at hr
  cases hd : h1.deref bd with
  | error e =>
    rw [hd] at hr
    exact Except.noConfusion hr
  | ok b =>
    rw [hd] at hr
    simp only [bind, Except.bind] at hr
    cases hl : (List.range args.len).foldlM (argStep slack bd args)
        (h1.append slack Slice.empty (h1.contents b.ConstructorArgs)) with
    | error e =>
      rw [hl] at hr
      exact Except.noConfusion hr
    | ok st =>
      rw [hl] at hr
      injection hr with hr
      subst hr
      obtain ⟨hdefs, hctxs, -⟩ := argLoop_frame slack bd args _ _ _ hl
      obtain ⟨adefs, actxs, -⟩ := append_frame slack h1 Slice.empty
        (h1.contents b.ConstructorArgs)
      refine ⟨?_, ?_⟩
      · rw [setDef_ctxs, hctxs, actxs]
      · intro nb hnb
        have hnb2 : st.1.defs[nbd]? = some nb := by
          rw [hdefs, adefs]
          exact hnb
        exact ⟨st.2, by rw [setDef_defs _ _ _ nb hnb2, hdefs, adefs]⟩

theorem foldl_mapStore_frame (es : List (Sigma fun _ : String => Value V)) (m : Addr) :
    ∀ g : Heap V R S,
      (es.foldl (fun (g : Heap V R S) e => g.mapStore m e.1 e.2) g).defs = g.defs ∧
      (es.foldl (fun (g : Heap V R S) e => g.mapStore m e.1 e.2) g).ctxs = g.ctxs := by
  induction es with
  | nil => intro g; exact ⟨rfl, rfl⟩
  | cons e es ih =>
    intro g
    rw [List.foldl_cons]
    obtain ⟨h1, h2⟩ := ih (g.mapStore m e.1 e.2)
    exact ⟨h1, h2⟩

theorem mergeFields_frame (h h3 : Heap V R S) (bd nbd : Addr) (fields : Fields)
    (hr : mergeFields h bd nbd fields = Except.ok h3) :
    h3.ctxs = h.ctxs ∧ ∀ nb, h.defs[nbd]? = some nb →
      ∃ m, h3.defs = h.defs.set nbd { nb with Fields := m } := by
  unfold mergeFields Heap.makeMap at hr
  simp only [] at hr
  cases hd : Heap.deref ({ h with maps := h.maps ++ [∅] } : Heap V R S) bd with
  | error e =>
    rw [hd] at hr
    exact Except.noConfusion hr
  | ok b =>
    rw [hd] at hr
    simp only [bind, Except.bind] at hr
    injection hr with hr
    subst hr
    refine ⟨?_, ?_⟩
    · rw [setDef_ctxs, (foldl_mapStore_frame _ _ _).2, (foldl_mapStore_frame _ _ _).2]
    · intro nb hnb
      refine ⟨some h.maps.length, ?_⟩
      have hdefs : ∀ g : Heap V R S, g.defs = h.defs → g.defs[nbd]? = some nb := by
        intro g hg
        rw [hg]
        exact hnb
      rw [setDef_defs _ _ _ nb (hdefs _ (by
        rw [(foldl_mapStore_frame _ _ _).1, (foldl_mapStore_frame _ _ _).1])),
        (foldl_mapStore_frame _ _ _).1, (foldl_mapStore_frame _ _ _).1]

theorem merge_frame (slack : Nat → Nat → Nat) (h h3 : Heap V R S) (bd p : Addr)
    (fields : Fields) (args : ConstructorArgs)
    (hr : merge slack h bd fields args = Except.ok (h3, p)) :
    h3.ctxs = h.ctxs ∧ h.defs <+: h3.defs ∧
      ∀ nd, h3.defs[p]? = some nd →
        ∃ b, h.defs[bd]? = some b ∧ nd.Scope = b.Scope ∧ nd.Name = b.Name := by
  by_cases hne : 0 < h.mapLen fields ∨ 0 < args.len
  · cases hb : h.defs[bd]? with
    | none =>
      have hcond : (!(decide (h.mapLen fields > 0) || decide (args.len > 0))) = false := by
        cases hne with
        | inl h1 => simp [h1]
        | inr h1 => simp [h1]
      unfold merge at hr
      simp only [hcond, Heap.deref, hb, bind, Except.bind] at hr
      exact absurd hr (by simp)
    | some b =>
      obtain ⟨nb, hnbdef⟩ : ∃ nb : BeanDefinition R S, nb =
          { Name := b.Name, Scope := b.Scope, Reflect := b.Reflect,
            InitMethod := b.InitMethod, ConstructorArgs := b.ConstructorArgs,
            Fields := b.Fields, context := b.context } := ⟨_, rfl⟩
      obtain ⟨h1, hh1⟩ : ∃ h1 : Heap V R S, h1 = { h with defs := h.defs ++ [nb] } :=
        ⟨_, rfl⟩
      rw [merge_unfold slack h bd b fields args hb hne h1 (by rw [hh1, hnbdef])] at hr
      have h1ctxs : h1.ctxs = h.ctxs := by rw [hh1]
      have h1defs : h1.defs = h.defs ++ [nb] := by rw [hh1]
      have hnb1 : h1.defs[h.defs.length]? = some nb := by
        rw [h1defs]
        simp
      -- the argument block
      obtain ⟨h2, nb2, hrun2, h2ctxs, h2defs, hscope2, hname2⟩ :
          ∃ h2 nb2, (if 0 < args.len then mergeArgs slack h1 bd h.defs.length args
              else Except.ok h1) = Except.ok h2 ∧ h2.ctxs = h.ctxs ∧
            h2.defs = h.defs ++ [nb2] ∧ nb2.Scope = b.Scope ∧ nb2.Name = b.Name := by
        cases hx : (if 0 < args.len then mergeArgs slack h1 bd h.defs.length args
            else Except.ok h1) with
        | error e =>
          rw [hx] at hr
          exact Except.noConfusion hr
        | ok h2 =>
          by_cases ha : 0 < args.len
          · rw [if_pos ha] at hx
            obtain ⟨hc, hd⟩ := mergeArgs_frame slack h1 h2 bd h.defs.length args hx
            obtain ⟨tmp, hd2⟩ := hd nb hnb1
            refine ⟨h2, { nb with ConstructorArgs := tmp }, rfl, by rw [hc, h1ctxs], ?_, ?_, ?_⟩
            · rw [hd2, h1defs, set_length_snoc]
            · rw [hnbdef]
            · rw [hnbdef]
          · rw [if_neg ha] at hx
            injection hx with hx
            subst hx
            exact ⟨h1, nb, rfl, h1ctxs, h1defs, by rw [hnbdef], by rw [hnbdef]⟩
      rw [hrun2] at hr
      simp only [] at hr
      have hnb2 : h2.defs[h.defs.length]? = some nb2 := by
        rw [h2defs]
        simp
      cases hy : (if 0 < h.mapLen fields then mergeFields h2 bd h.defs.length fields
          else Except.ok h2) with
      | error e =>
        rw [hy] at hr
        exact Except.noConfusion hr
      | ok h4 =>
        rw [hy] at hr
        injection hr with hr
        injection hr with hr1 hr2
        subst hr1 hr2
        by_cases hf : 0 < h.mapLen fields
        · rw [if_pos hf] at hy
          obtain ⟨hc, hd⟩ := mergeFields_frame h2 h4 bd h.defs.length fields hy
          obtain ⟨m, hd2⟩ := hd nb2 hnb2
          have hdefs4 : h4.defs = h.defs ++ [{ nb2 with Fields := m }] := by
            rw [hd2, h2defs, set_length_snoc]
          refine ⟨by rw [hc, h2ctxs], ⟨_, hdefs4.symm⟩, ?_⟩
          intro nd hnd
          rw [hdefs4] at hnd
          simp at hnd
          rw [← hnd]
          exact ⟨b, rfl, hscope2, hname2⟩
        · rw [if_neg hf] at hy
          injection hy with hy
          subst hy
          refine ⟨h2ctxs, ⟨_, h2defs.symm⟩, ?_⟩
          intro nd hnd
          rw [h2defs] at hnd
          simp at hnd
          rw [← hnd]
          exact ⟨b, rfl, hscope2, hname2⟩
  · have hf : h.mapLen fields = 0 := by omega
    have ha : args.len = 0 := by omega
    rw [merge_identity slack h bd fields args hf ha] at hr
    injection hr with hr
    injection hr with hr1 hr2
    subst hr1 hr2
    refine ⟨rfl, List.prefix_refl _, ?_⟩
    intro nd hnd
    exact ⟨nd, hnd, rfl, rfl⟩

/-! ## The paths through `GetBean` -/

theorem deref_ok (h : Heap V R S) (p : Addr) (b : BeanDefinition R S)
    (hd : h.deref p = Except.ok b) : h.defs[p]? = some b := by
  unfold Heap.deref at hd
  cases hp : h.defs[p]? with
  | none =>
    rw [hp] at hd
    exact Except.noConfusion hd
  | some d =>
    rw [hp] at hd
    injection hd with hd
    rw [hd]

theorem getBean_cases [DecidableEq S]
    (construct : Heap V R S → Addr → Heap V R S × Except Panic (Value V))
    (slack : Nat → Nat → Nat) (SINGLETON : S) (w : World V R S) (t : Addr) (name : String)
    (fields : Fields) (args : ConstructorArgs) :
    (GetBean construct slack SINGLETON w t name fields args).1 = w ∨
    ∃ p h1 bd, GetBeanDefinition w.heap t name = Except.ok p ∧
      merge slack w.heap p fields args = Except.ok (h1, bd) ∧
      ((GetBean construct slack SINGLETON w t name fields args).1 = { w with heap := h1 } ∨
       (GetBean construct slack SINGLETON w t name fields args).1 =
          { heap := (construct h1 bd).1, built := w.built ++ [bd] } ∨
       ∃ b h2 val c2 h3, h1.defs[bd]? = some b ∧ b.Scope = SINGLETON ∧
          construct h1 bd = (h2, Except.ok val) ∧ h2.ctxs[t]? = some c2 ∧
          c2.instances.lookup name = none ∧
          h3 = h2.withCached t c2 name val ∧
          GetBean construct slack SINGLETON w t name fields args =
            ({ heap := h3, built := w.built ++ [bd] }, Except.ok val)) := by
  unfold GetBean
  cases hgd : GetBeanDefinition w.heap t name with
  | error e => exact Or.inl rfl
  | ok p =>
    simp only []
    cases hm : merge slack w.heap p fields args with
    | error e => exact Or.inl rfl
    | ok r =>
      obtain ⟨h1, bd⟩ := r
      refine Or.inr ⟨p, h1, bd, rfl, hm, ?_⟩
      simp only []
      cases hd : h1.deref bd with
      | error e => exact Or.inl rfl
      | ok b =>
        have hb := deref_ok h1 bd b hd
        simp only []
        by_cases hs : b.Scope = SINGLETON
        · simp only [hs, if_true]
          cases hl : h1.load t name with
          | error e => exact Or.inl rfl
          | ok o =>
            cases o with
            | some ins => exact Or.inl rfl
            | none =>
              simp only []
              cases hc : construct h1 bd with
              | mk h2 r =>
                cases r with
                | error e =>
                  refine Or.inr (Or.inl ?_)
                  simp only []
                | ok val =>
                  simp only []
                  unfold Heap.loadOrStore
                  cases hctx : h2.ctxs[t]? with
                  | none =>
                    refine Or.inr (Or.inl ?_)
                    simp only []
                  | some c2 =>
                    simp only []
                    cases hlk : c2.instances.lookup name with
                    | some ins =>
                      refine Or.inr (Or.inl ?_)
                      simp only []
                    | none =>
                      refine Or.inr (Or.inr ⟨b, h2, val, c2, _, hb, hs, rfl, hctx, hlk, rfl, ?_⟩)
                      simp only []
        · simp only [hs, if_false]
          exact Or.inr (Or.inl trivial)

/-! ## The instance cache across calls -/

theorem cached_congr (h g : Heap V R S) (t : Addr) (n : String) (he : g.ctxs = h.ctxs) :
    g.cached t n = h.cached t n := by
  unfold Heap.cached
  rw [he]

theorem cached_store (h : Heap V R S) (t : Addr) (c : ApplicationContext V R S)
    (name : String) (val : Value V) (hc : h.ctxs[t]? = some c) (n : String) :
    (h.withCached t c name val).cached t n = (c.instances.insert name val).lookup n := by
  have ht : t < h.ctxs.length := (List.getElem?_eq_some.mp hc).1
  unfold Heap.cached Heap.withCached
  simp [List.getElem?_set, ht]

theorem keepsCache_refl (t : Addr) (h : Heap V R S) : KeepsCache t h h :=
  fun _ _ hc => hc

theorem keepsCache_trans (t : Addr) (h1 h2 h3 : Heap V R S) (h12 : KeepsCache t h1 h2)
    (h23 : KeepsCache t h2 h3) : KeepsCache t h1 h3 :=
  fun n v hc => h23 n v (h12 n v hc)

theorem keepsCache_of_ctxs (t : Addr) (h g : Heap V R S) (he : g.ctxs = h.ctxs) :
    KeepsCache t h g := by
  intro n v hc
  rw [cached_congr h g t n he]
  exact hc

theorem keepsCache_store (h : Heap V R S) (t : Addr) (c : ApplicationContext V R S)
    (name : String) (val : Value V) (hc : h.ctxs[t]? = some c)
    (hfree : c.instances.lookup name = none) :
    KeepsCache t h (h.withCached t c name val) := by
  intro n v hn
  rw [cached_store h t c name val hc n]
  have hn2 : c.instances.lookup n = some v := by
    unfold Heap.cached at hn
    rw [hc] at hn
    exact hn
  have hne : n ≠ name := by
    intro heq
    rw [heq, hfree] at hn2
    exact Option.noConfusion hn2
  rw [AList.lookup_insert_ne hne]
  exact hn2

theorem getBean_keepsCache [DecidableEq S]
    (construct : Heap V R S → Addr → Heap V R S × Except Panic (Value V))
    (slack : Nat → Nat → Nat) (SINGLETON : S) (w : World V R S) (t : Addr) (name : String)
    (fields : Fields) (args : ConstructorArgs)
    (hcons : ∀ g p, KeepsCache t g (construct g p).1) :
    KeepsCache t w.heap (GetBean construct slack SINGLETON w t name fields args).1.heap := by
  rcases getBean_cases construct slack SINGLETON w t name fields args with
    h0 | ⟨p, h1, bd, -, hm, hcase⟩
  · rw [h0]
    exact keepsCache_refl t _
  · obtain ⟨hctxs, -, -⟩ := merge_frame slack w.heap h1 p bd fields args hm
    have hk1 : KeepsCache t w.heap h1 := keepsCache_of_ctxs t w.heap h1 hctxs
    rcases hcase with h0 | h0 | ⟨b, h2, val, c2, h3, -, -, hc, hctx, hfree, hh3, h0⟩
    · rw [h0]
      exact hk1
    · rw [h0]
      exact keepsCache_trans t _ _ _ hk1 (hcons h1 bd)
    · rw [h0]
      have hk2 : KeepsCache t h1 h2 := by
        have := hcons h1 bd
        rw [hc] at this
        exact this
      have hk3 : KeepsCache t h2 h3 := by
        rw [hh3]
        exact keepsCache_store h2 t c2 name val hctx hfree
      exact keepsCache_trans t _ _ _ hk1 (keepsCache_trans t _ _ _ hk2 hk3)

theorem exec_keepsCache [DecidableEq S]
    (construct : Heap V R S → Addr → Heap V R S × Except Panic (Value V))
    (slack : Nat → Nat → Nat) (SINGLETON : S) (t : Addr) (w : World V R S) (call : Call)
    (hcons : ∀ g p, KeepsCache t g (construct g p).1) :
    KeepsCache t w.heap (exec construct slack SINGLETON t w call).heap := by
  cases call with
  | getBean name fields args =>
    exact getBean_keepsCache construct slack SINGLETON w t name fields args hcons
  | get name =>
    unfold exec Get
    have h1 := getBean_keepsCache construct slack SINGLETON
      { w with heap := w.heap.makeMap.1 } t name (some w.heap.makeMap.2) Slice.empty hcons
    exact keepsCache_trans t _ _ _ (keepsCache_of_ctxs t w.heap w.heap.makeMap.1 rfl) h1
  | has name => exact keepsCache_refl t _

theorem grows_refl (t : Addr) (h : Heap V R S) : Grows t h h :=
  ⟨List.prefix_refl _, fun c hc => ⟨c, hc, rfl, fun _ _ hv => hv⟩⟩

theorem grows_trans (t : Addr) (h1 h2 h3 : Heap V R S) (h12 : Grows t h1 h2)
    (h23 : Grows t h2 h3) : Grows t h1 h3 := by
  refine ⟨List.IsPrefix.trans h12.1 h23.1, ?_⟩
  intro c hc
  obtain ⟨c2, hc2, ht2, hk2⟩ := h12.2 c hc
  obtain ⟨c3, hc3, ht3, hk3⟩ := h23.2 c2 hc2
  exact ⟨c3, hc3, ht3.trans ht2, fun n v hv => hk3 n v (hk2 n v hv)⟩

theorem grows_of_frame (t : Addr) (h g : Heap V R S) (he : g.ctxs = h.ctxs)
    (hd : h.defs <+: g.defs) : Grows t h g := by
  refine ⟨hd, ?_⟩
  intro c hc
  exact ⟨c, by rw [he]; exact hc, rfl, fun _ _ hv => hv⟩

theorem grows_store (h : Heap V R S) (t : Addr) (c : ApplicationContext V R S)
    (name : String) (val : Value V) (hc : h.ctxs[t]? = some c)
    (hfree : c.instances.lookup name = none) : Grows t h (h.withCached t c name val) := by
  have ht : t < h.ctxs.length := (List.getElem?_eq_some.mp hc).1
  refine ⟨List.prefix_refl _, ?_⟩
  intro c0 hc0
  rw [hc] at hc0
  injection hc0 with hc0
  subst hc0
  refine ⟨{ c with instances := c.instances.insert name val }, ?_, rfl, ?_⟩
  · unfold Heap.withCached
    simp [List.getElem?_set, ht]
  · intro n v hn
    have hne : n ≠ name := by
      intro heq
      rw [heq, hfree] at hn
      exact Option.noConfusion hn
    show (c.instances.insert name val).lookup n = some v
    rw [AList.lookup_insert_ne hne]
    exact hn

theorem grows_keepsCache (t : Addr) (h g : Heap V R S) (hg : Grows t h g) :
    KeepsCache t h g := by
  intro n v hn
  unfold Heap.cached at hn ⊢
  cases hc : h.ctxs[t]? with
  | none =>
    rw [hc] at hn
    exact Option.noConfusion hn
  | some c =>
    rw [hc] at hn
    obtain ⟨c2, hc2, -, hk⟩ := hg.2 c hc
    rw [hc2]
    exact hk n v hn

theorem grows_registered (t : Addr) (h g : Heap V R S) (hg : Grows t h g) (n : String)
    (d : BeanDefinition R S) (hr : h.registered t n = some d) :
    g.registered t n = some d := by
  unfold Heap.registered at hr ⊢
  cases hc : h.ctxs[t]? with
  | none =>
    rw [hc] at hr
    exact Option.noConfusion hr
  | some c =>
    rw [hc] at hr
    obtain ⟨c2, hc2, ht2, -⟩ := hg.2 c hc
    rw [hc2]
    simp only [] at hr ⊢
    rw [ht2]
    cases hl : c.tidyDefinitions.lookup n with
    | none =>
      rw [hl] at hr
      exact Option.noConfusion hr
    | some p =>
      rw [hl] at hr
      simp only [] at hr ⊢
      obtain ⟨e, he⟩ := hg.1
      have hp : p < h.defs.length := (List.getElem?_eq_some.mp hr).1
      rw [← he, List.getElem?_append_left hp]
      exact hr

theorem getBean_grows [DecidableEq S]
    (construct : Heap V R S → Addr → Heap V R S × Except Panic (Value V))
    (slack : Nat → Nat → Nat) (SINGLETON : S) (w : World V R S) (t : Addr) (name : String)
    (fields : Fields) (args : ConstructorArgs)
    (hcons : ∀ g p, Grows t g (construct g p).1) :
    Grows t w.heap (GetBean construct slack SINGLETON w t name fields args).1.heap := by
  rcases getBean_cases construct slack SINGLETON w t name fields args with
    h0 | ⟨p, h1, bd, -, hm, hcase⟩
  · rw [h0]
    exact grows_refl t _
  · obtain ⟨hctxs, hdefs, -⟩ := merge_frame slack w.heap h1 p bd fields args hm
    have hk1 : Grows t w.heap h1 := grows_of_frame t w.heap h1 hctxs hdefs
    rcases hcase with h0 | h0 | ⟨b, h2, val, c2, h3, -, -, hc, hctx, hfree, hh3, h0⟩
    · rw [h0]
      exact hk1
    · rw [h0]
      exact grows_trans t _ _ _ hk1 (hcons h1 bd)
    · rw [h0]
      have hk2 : Grows t h1 h2 := by
        have := hcons h1 bd
        rw [hc] at this
        exact this
      have hk3 : Grows t h2 h3 := by
        rw [hh3]
        exact grows_store h2 t c2 name val hctx hfree
      exact grows_trans t _ _ _ hk1 (grows_trans t _ _ _ hk2 hk3)

theorem exec_grows [DecidableEq S]
    (construct : Heap V R S → Addr → Heap V R S × Except Panic (Value V))
    (slack : Nat → Nat → Nat) (SINGLETON : S) (t : Addr) (w : World V R S) (call : Call)
    (hcons : ∀ g p, Grows t g (construct g p).1) :
    Grows t w.heap (exec construct slack SINGLETON t w call).heap := by
  cases call with
  | getBean name fields args =>
    exact getBean_grows construct slack SINGLETON w t name fields args hcons
  | get name =>
    unfold exec Get
    have h1 := getBean_grows construct slack SINGLETON
      { w with heap := w.heap.makeMap.1 } t name (some w.heap.makeMap.2) Slice.empty hcons
    exact grows_trans t _ _ _
      (grows_of_frame t w.heap w.heap.makeMap.1 rfl (List.prefix_refl _)) h1
  | has name => exact grows_refl t _

theorem run_grows [DecidableEq S]
    (construct : Heap V R S → Addr → Heap V R S × Except Panic (Value V))
    (slack : Nat → Nat → Nat) (SINGLETON : S) (t : Addr) (calls : List Call)
    (hcons : ∀ g p, Grows t g (construct g p).1) :
    ∀ w : World V R S,
      Grows t w.heap (calls.foldl (exec construct slack SINGLETON t) w).heap := by
  induction calls with
  | nil => intro w; exact grows_refl t _
  | cons call calls ih =>
    intro w
    rw [List.foldl_cons]
    exact grows_trans t _ _ _ (exec_grows construct slack SINGLETON t w call hcons) (ih _)

theorem getBeanDefinition_ok (h : Heap V R S) (t : Addr) (name : String) (p : Addr)
    (hr : GetBeanDefinition h t name = Except.ok p) :
    ∃ c, h.ctxs[t]? = some c ∧ c.tidyDefinitions.lookup name = some p := by
  cases hc : h.ctxs[t]? with
  | none =>
    unfold GetBeanDefinition Heap.derefCtx at hr
    rw [hc] at hr
    exact Except.noConfusion hr
  | some c =>
    rw [getBeanDefinition_of_lookup h t c name hc] at hr
    cases hl : c.tidyDefinitions.lookup name with
    | none =>
      rw [hl] at hr
      exact Except.noConfusion hr
    | some q =>
      rw [hl] at hr
      injection hr with hr
      exact ⟨c, rfl, by rw [hl, hr]⟩

theorem registered_of_lookup (h : Heap V R S) (t : Addr) (name : String) (p : Addr)
    (c : ApplicationContext V R S) (d : BeanDefinition R S) (hc : h.ctxs[t]? = some c)
    (hl : c.tidyDefinitions.lookup name = some p) (hd : h.defs[p]? = some d) :
    h.registered t name = some d := by
  unfold Heap.registered
  rw [hc]
  simp only []
  rw [hl]
  exact hd

theorem registered_elim (h : Heap V R S) (t : Addr) (name : String) (d : BeanDefinition R S)
    (hr : h.registered t name = some d) :
    ∃ c p, h.ctxs[t]? = some c ∧ c.tidyDefinitions.lookup name = some p ∧
      h.defs[p]? = some d := by
  unfold Heap.registered at hr
  cases hc : h.ctxs[t]? with
  | none =>
    rw [hc] at hr
    exact Option.noConfusion hr
  | some c =>
    rw [hc] at hr
    simp only [] at hr
    cases hl : c.tidyDefinitions.lookup name with
    | none =>
      rw [hl] at hr
      exact Option.noConfusion hr
    | some p =>
      rw [hl] at hr
      exact ⟨c, p, rfl, hl, hr⟩

theorem registered_withCached (h : Heap V R S) (t : Addr) (c : ApplicationContext V R S)
    (name : String) (val : Value V) (hc : h.ctxs[t]? = some c) (n : String) :
    (h.withCached t c name val).registered t n = h.registered t n := by
  have ht : t < h.ctxs.length := (List.getElem?_eq_some.mp hc).1
  unfold Heap.registered Heap.withCached
  simp [List.getElem?_set, ht, hc]

theorem cacheInv_of_grows (SINGLETON : S) (t : Addr) (h g : Heap V R S) (hg : Grows t h g)
    (hsame : ∀ n v, g.cached t n = some v → h.cached t n = some v)
    (hinv : CacheInv SINGLETON t h) : CacheInv SINGLETON t g := by
  intro n v hn
  obtain ⟨d, hd, hs⟩ := hinv n v (hsame n v hn)
  exact ⟨d, grows_registered t h g hg n d hd, hs⟩

theorem cacheInv_store (SINGLETON : S) (t : Addr) (h : Heap V R S)
    (c : ApplicationContext V R S) (name : String) (val : Value V)
    (d : BeanDefinition R S) (hc : h.ctxs[t]? = some c)
    (hreg : h.registered t name = some d) (hs : d.Scope = SINGLETON)
    (hinv : CacheInv SINGLETON t h) : CacheInv SINGLETON t (h.withCached t c name val) := by
  intro n v hn
  rw [registered_withCached h t c name val hc n]
  by_cases hne : n = name
  · rw [hne]
    exact ⟨d, hreg, hs⟩
  · rw [cached_store h t c name val hc n, AList.lookup_insert_ne hne] at hn
    apply hinv n v
    unfold Heap.cached
    rw [hc]
    exact hn

theorem getBean_cacheInv [DecidableEq S]
    (construct : Heap V R S → Addr → Heap V R S × Except Panic (Value V))
    (slack : Nat → Nat → Nat) (SINGLETON : S) (w : World V R S) (t : Addr) (name : String)
    (fields : Fields) (args : ConstructorArgs)
    (hcons : ∀ g p, Grows t g (construct g p).1 ∧
      (CacheInv SINGLETON t g → CacheInv SINGLETON t (construct g p).1))
    (hinv : CacheInv SINGLETON t w.heap) :
    CacheInv SINGLETON t (GetBean construct slack SINGLETON w t name fields args).1.heap := by
  rcases getBean_cases construct slack SINGLETON w t name fields args with
    h0 | ⟨p, h1, bd, hgd, hm, hcase⟩
  · rw [h0]
    exact hinv
  · obtain ⟨hctxs, hdefs, hscope⟩ := merge_frame slack w.heap h1 p bd fields args hm
    have hk1 : Grows t w.heap h1 := grows_of_frame t w.heap h1 hctxs hdefs
    have hinv1 : CacheInv SINGLETON t h1 :=
      cacheInv_of_grows SINGLETON t w.heap h1 hk1
        (fun n v hn => by rw [← cached_congr w.heap h1 t n hctxs]; exact hn) hinv
    rcases hcase with h0 | h0 | ⟨b, h2, val, c2, h3, hb, hs, hc, hctx, hfree, hh3, h0⟩
    · rw [h0]
      exact hinv1
    · rw [h0]
      exact (hcons h1 bd).2 hinv1
    · rw [h0]
      have hk2 : Grows t h1 h2 := by
        have := (hcons h1 bd).1
        rw [hc] at this
        exact this
      have hinv2 : CacheInv SINGLETON t h2 := by
        have := (hcons h1 bd).2 hinv1
        rw [hc] at this
        exact this
      obtain ⟨b0, hb0, hsc, -⟩ := hscope b hb
      obtain ⟨c, hc0, hl0⟩ := getBeanDefinition_ok w.heap t name p hgd
      have hreg0 : w.heap.registered t name = some b0 :=
        registered_of_lookup w.heap t name p c b0 hc0 hl0 hb0
      have hreg2 : h2.registered t name = some b0 :=
        grows_registered t h1 h2 hk2 name b0 (grows_registered t w.heap h1 hk1 name b0 hreg0)
      show CacheInv SINGLETON t h3
      rw [hh3]
      exact cacheInv_store SINGLETON t h2 c2 name val b0 hctx hreg2 (hsc.symm.trans hs) hinv2

theorem exec_cacheInv [DecidableEq S]
    (construct : Heap V R S → Addr → Heap V R S × Except Panic (Value V))
    (slack : Nat → Nat → Nat) (SINGLETON : S) (t : Addr) (w : World V R S) (call : Call)
    (hcons : ∀ g p, Grows t g (construct g p).1 ∧
      (CacheInv SINGLETON t g → CacheInv SINGLETON t (construct g p).1))
    (hinv : CacheInv SINGLETON t w.heap) :
    CacheInv SINGLETON t (exec construct slack SINGLETON t w call).heap := by
  cases call with
  | getBean name fields args =>
    exact getBean_cacheInv construct slack SINGLETON w t name fields args hcons hinv
  | get name =>
    unfold exec Get
    apply getBean_cacheInv construct slack SINGLETON
      { w with heap := w.heap.makeMap.1 } t name (some w.heap.makeMap.2) Slice.empty hcons
    exact cacheInv_of_grows SINGLETON t w.heap w.heap.makeMap.1
      (grows_of_frame t w.heap w.heap.makeMap.1 rfl (List.prefix_refl _))
      (fun n v hn => hn) hinv
  | has name => exact hinv

theorem run_cacheInv [DecidableEq S]
    (construct : Heap V R S → Addr → Heap V R S × Except Panic (Value V))
    (slack : Nat → Nat → Nat) (SINGLETON : S) (t : Addr) (calls : List Call)
    (hcons : ∀ g p, Grows t g (construct g p).1 ∧
      (CacheInv SINGLETON t g → CacheInv SINGLETON t (construct g p).1)) :
    ∀ w : World V R S, CacheInv SINGLETON t w.heap →
      CacheInv SINGLETON t (calls.foldl (exec construct slack SINGLETON t) w).heap := by
  induction calls with
  | nil => intro w hinv; exact hinv
  | cons call calls ih =>
    intro w hinv
    rw [List.foldl_cons]
    exact ih _ (exec_cacheInv construct slack SINGLETON t w call hcons hinv)

/-! ## What `GetBean` does for a registered name -/

theorem merge_ok (slack : Nat → Nat → Nat) (h : Heap V R S) (bd : Addr)
    (b : BeanDefinition R S) (fields : Fields) (args : ConstructorArgs)
    (hb : h.defs[bd]? = some b) (hvb : b.ConstructorArgs.Valid h) (hva : args.Valid h) :
    ∃ h1 p nd, merge slack h bd fields args = Except.ok (h1, p) ∧ h1.defs[p]? = some nd ∧
      nd.Scope = b.Scope ∧ h1.ctxs = h.ctxs := by
  by_cases hne : 0 < h.mapLen fields ∨ 0 < args.len
  · obtain ⟨h3, nd, hrun, hdefs, -, -, hctx, -, hscope, -⟩ :=
      merge_spec slack h bd b fields args hb hvb hva hne
    exact ⟨h3, h.defs.length, nd, hrun, by simp [hdefs], hscope, hctx⟩
  · have hf : h.mapLen fields = 0 := by omega
    have ha : args.len = 0 := by omega
    exact ⟨h, bd, b, merge_identity slack h bd fields args hf ha, hb, rfl, rfl⟩

theorem getBean_eq [DecidableEq S]
    (construct : Heap V R S → Addr → Heap V R S × Except Panic (Value V))
    (slack : Nat → Nat → Nat) (SINGLETON : S) (w : World V R S) (t : Addr) (name : String)
    (fields : Fields) (args : ConstructorArgs) (c : ApplicationContext V R S) (p : Addr)
    (d : BeanDefinition R S) (hc : w.heap.ctxs[t]? = some c)
    (hl : c.tidyDefinitions.lookup name = some p) (hd : w.heap.defs[p]? = some d)
    (hvb : d.ConstructorArgs.Valid w.heap) (hva : args.Valid w.heap) :
    ∃ h1 bd, GetBeanDefinition w.heap t name = Except.ok p ∧
      merge slack w.heap p fields args = Except.ok (h1, bd) ∧ h1.ctxs = w.heap.ctxs ∧
      GetBean construct slack SINGLETON w t name fields args =
        if d.Scope = SINGLETON then
          match c.instances.lookup name with
          | some ins => ({ w with heap := h1 }, Except.ok ins)
          | none =>
            match construct h1 bd with
            | (h2, Except.error e) =>
              ({ heap := h2, built := w.built ++ [bd] }, Except.error e)
            | (h2, Except.ok val) =>
              match h2.loadOrStore t name val with
              | Except.error e => ({ heap := h2, built := w.built ++ [bd] }, Except.error e)
              | Except.ok (h3, ins) =>
                ({ heap := h3, built := w.built ++ [bd] }, Except.ok ins)
        else
          ({ heap := (construct h1 bd).1, built := w.built ++ [bd] }, (construct h1 bd).2) := by
  obtain ⟨h1, bd, nd, hm, hnd, hscope, hctxs⟩ :=
    merge_ok slack w.heap p d fields args hd hvb hva
  have hgd : GetBeanDefinition w.heap t name = Except.ok p := by
    rw [getBeanDefinition_of_lookup w.heap t c name hc, hl]
  refine ⟨h1, bd, hgd, hm, hctxs, ?_⟩
  have hderef : h1.deref bd = Except.ok nd := deref_of_get h1 bd nd hnd
  have hload : h1.load t name = Except.ok (c.instances.lookup name) := by
    unfold Heap.load
    rw [hctxs, hc]
  unfold GetBean
  rw [hgd]
  simp only []
  rw [hm]
  simp only []
  rw [hderef]
  simp only []
  rw [hscope, hload]
  by_cases hs : d.Scope = SINGLETON
  · simp only [hs, if_true]
    cases c.instances.lookup name with
    | some ins => rfl
    | none => rfl
  · simp only [hs, if_false]

theorem exConstruct_grows (t : Addr) (g : Heap Nat Unit String) (p : Addr) :
    Grows t g (exConstruct g p).1 :=
  grows_of_frame t g (exConstruct g p).1 rfl (List.prefix_refl _)

theorem exConstruct_cacheInv (t : Addr) (g : Heap Nat Unit String) (p : Addr)
    (hinv : CacheInv "singleton" t g) : CacheInv "singleton" t (exConstruct g p).1 :=
  cacheInv_of_grows "singleton" t g (exConstruct g p).1 (exConstruct_grows t g p)
    (fun _ _ hn => hn) hinv

/-! ## Claims about `GetBean` -/

/-- C11: for every context, every name without an entry in its registry and every pair
of override sets, `GetBean` panics with `Bean not found: <name>` and ends in the world it
started in: the instance cache is as before and no construction has been invoked (the
record `built` is as before, for every construction function). -/
theorem getBean_unregistered_not_found [DecidableEq S]
    (construct : Heap V R S → Addr → Heap V R S × Except Panic (Value V))
    (slack : Nat → Nat → Nat) (SINGLETON : S) (w : World V R S) (t : Addr) (name : String)
    (fields : Fields) (args : ConstructorArgs) (c : ApplicationContext V R S)
    (hc : w.heap.ctxs[t]? = some c) (hmiss : c.tidyDefinitions.lookup name = none) :
    GetBean construct slack SINGLETON w t name fields args =
      (w, Except.error (Panic.message ("Bean not found: " ++ name))) := by
  have hgd : GetBeanDefinition w.heap t name =
      Except.error (Panic.message ("Bean not found: " ++ name)) := by
    rw [getBeanDefinition_of_lookup w.heap t c name hc, hmiss]
  unfold GetBean
  rw [hgd]

/-- Witness of C11: the name `missing` in `exWorld`, with overrides. -/
theorem getBean_unregistered_not_found_witness :
    (∃ c, exWorld.heap.ctxs[0]? = some c ∧ c.tidyDefinitions.lookup "missing" = none) ∧
    GetBean exConstruct doubling "singleton" exWorld 0 "missing" (some 1) exArgs =
      (exWorld, Except.error (Panic.message ("Bean not found: " ++ "missing"))) :=
  ⟨⟨_, rfl, rfl⟩,
   getBean_unregistered_not_found exConstruct doubling "singleton" exWorld 0 "missing"
     (some 1) exArgs _ rfl rfl⟩

/-- C14: for every name registered with scope `PROTOTYPE` (a scope constant other than
`SINGLETON`) and every pair of override sets, `GetBean` invokes construction exactly
once, on the definition `merge` returns for the registered definition and the overrides,
and returns that construction's outcome; the world it leaves is the one construction
left, whatever the instance cache holds, so the cache is neither consulted nor written. -/
theorem getBean_prototype_constructs [DecidableEq S]
    (construct : Heap V R S → Addr → Heap V R S × Except Panic (Value V))
    (slack : Nat → Nat → Nat) (SINGLETON PROTOTYPE : S) (w : World V R S) (t : Addr)
    (n : String) (fields : Fields) (args : ConstructorArgs) (d : BeanDefinition R S)
    (hdist : PROTOTYPE ≠ SINGLETON) (hreg : w.heap.registered t n = some d)
    (hs : d.Scope = PROTOTYPE) (hvb : d.ConstructorArgs.Valid w.heap)
    (hva : args.Valid w.heap) :
    ∃ p h1 bd, GetBeanDefinition w.heap t n = Except.ok p ∧
      merge slack w.heap p fields args = Except.ok (h1, bd) ∧
      GetBean construct slack SINGLETON w t n fields args =
        ({ heap := (construct h1 bd).1, built := w.built ++ [bd] }, (construct h1 bd).2) := by
  obtain ⟨c, p, hc, hl, hd⟩ := registered_elim w.heap t n d hreg
  obtain ⟨h1, bd, hgd, hm, -, heq⟩ :=
    getBean_eq construct slack SINGLETON w t n fields args c p d hc hl hd hvb hva
  have hne : ¬ d.Scope = SINGLETON := by
    rw [hs]
    exact hdist
  rw [if_neg hne] at heq
  exact ⟨p, h1, bd, hgd, hm, heq⟩

/-- Witness of C14: two resolutions of the prototype `log` in `exWorld` run two
constructions and return two instances. -/
theorem getBean_prototype_constructs_witness :
    ("prototype" ≠ "singleton" ∧ exWorld.heap.registered 0 "log" = some exLogCopy ∧
      exLogCopy.Scope = "prototype" ∧ exLogCopy.ConstructorArgs.Valid exWorld.heap ∧
      exNoArgs.Valid exWorld.heap) ∧
    (∃ p h1 bd, GetBeanDefinition exWorld.heap 0 "log" = Except.ok p ∧
      merge doubling exWorld.heap p none exNoArgs = Except.ok (h1, bd) ∧
      GetBean exConstruct doubling "singleton" exWorld 0 "log" none exNoArgs =
        ({ heap := (exConstruct h1 bd).1, built := exWorld.built ++ [bd] },
          (exConstruct h1 bd).2)) ∧
    (GetBean exConstruct doubling "singleton" exWorld 0 "log" none exNoArgs).2 =
      Except.ok (Value.val 3) ∧
    (GetBean exConstruct doubling "singleton"
      (GetBean exConstruct doubling "singleton" exWorld 0 "log" none exNoArgs).1
      0 "log" none exNoArgs).2 = Except.ok (Value.val 4) ∧
    (GetBean exConstruct doubling "singleton"
      (GetBean exConstruct doubling "singleton" exWorld 0 "log" none exNoArgs).1
      0 "log" none exNoArgs).1.built = [2, 2] :=
  ⟨⟨by decide, rfl, rfl, by decide, by decide⟩,
   getBean_prototype_constructs exConstruct doubling "singleton" "prototype" exWorld 0 "log"
     none exNoArgs exLogCopy (by decide) rfl rfl (by decide) (by decide),
   rfl, rfl, rfl⟩

/-- C15: for every name registered with scope `SINGLETON` that has no cached instance and
every pair of override sets, `GetBean` invokes construction exactly once, on the
definition `merge` returns for the registered definition and the overrides; when that
construction returns `val` and has itself cached nothing under the name, `GetBean`
returns `val` and leaves `val` cached under the name. -/
theorem getBean_singleton_first [DecidableEq S]
    (construct : Heap V R S → Addr → Heap V R S × Except Panic (Value V))
    (slack : Nat → Nat → Nat) (SINGLETON : S) (w : World V R S) (t : Addr)
    (n : String) (fields : Fields) (args : ConstructorArgs) (d : BeanDefinition R S)
    (hreg : w.heap.registered t n = some d) (hs : d.Scope = SINGLETON)
    (hmiss : w.heap.cached t n = none) (hvb : d.ConstructorArgs.Valid w.heap)
    (hva : args.Valid w.heap) :
    ∃ p h1 bd, GetBeanDefinition w.heap t n = Except.ok p ∧
      merge slack w.heap p fields args = Except.ok (h1, bd) ∧
      ∀ h2 val c2, construct h1 bd = (h2, Except.ok val) → h2.ctxs[t]? = some c2 →
        c2.instances.lookup n = none →
        GetBean construct slack SINGLETON w t n fields args =
          ({ heap := h2.withCached t c2 n val, built := w.built ++ [bd] }, Except.ok val) ∧
        (h2.withCached t c2 n val).cached t n = some val := by
  obtain ⟨c, p, hc, hl, hd⟩ := registered_elim w.heap t n d hreg
  obtain ⟨h1, bd, hgd, hm, -, heq⟩ :=
    getBean_eq construct slack SINGLETON w t n fields args c p d hc hl hd hvb hva
  have hmiss2 : c.instances.lookup n = none := by
    unfold Heap.cached at hmiss
    rw [hc] at hmiss
    exact hmiss
  rw [if_pos hs, hmiss2] at heq
  refine ⟨p, h1, bd, hgd, hm, ?_⟩
  intro h2 val c2 hcon hc2 hfree
  refine ⟨?_, ?_⟩
  · rw [heq]
    simp only []
    rw [hcon]
    simp only []
    unfold Heap.loadOrStore
    rw [hc2]
    simp only []
    rw [hfree]
  · rw [cached_store h2 t c2 n val hc2 n]
    exact AList.lookup_insert _

/-- Witness of C15: the first resolution of the singleton `db` in `exWorld` returns the
new instance 3 and caches it. -/
theorem getBean_singleton_first_witness :
    (exWorld.heap.registered 0 "db" = some exDb ∧ exDb.Scope = "singleton" ∧
      exWorld.heap.cached 0 "db" = none ∧ exDb.ConstructorArgs.Valid exWorld.heap ∧
      exNoArgs.Valid exWorld.heap) ∧
    (∃ p h1 bd, GetBeanDefinition exWorld.heap 0 "db" = Except.ok p ∧
      merge doubling exWorld.heap p none exNoArgs = Except.ok (h1, bd) ∧
      ∀ h2 val c2, exConstruct h1 bd = (h2, Except.ok val) → h2.ctxs[0]? = some c2 →
        c2.instances.lookup "db" = none →
        GetBean exConstruct doubling "singleton" exWorld 0 "db" none exNoArgs =
          ({ heap := h2.withCached 0 c2 "db" val, built := exWorld.built ++ [bd] },
            Except.ok val) ∧
        (h2.withCached 0 c2 "db" val).cached 0 "db" = some val) ∧
    (GetBean exConstruct doubling "singleton" exWorld 0 "db" none exNoArgs).2 =
      Except.ok (Value.val 3) ∧
    exWorldDb.heap.cached 0 "db" = some (Value.val 3) ∧ exWorldDb.built = [1] :=
  ⟨⟨rfl, rfl, rfl, by decide, by decide⟩,
   getBean_singleton_first exConstruct doubling "singleton" exWorld 0 "db" none exNoArgs
     exDb rfl rfl rfl (by decide) (by decide),
   rfl, rfl, rfl⟩

theorem getBean_singleton_cached [DecidableEq S]
    (construct : Heap V R S → Addr → Heap V R S × Except Panic (Value V))
    (slack : Nat → Nat → Nat) (SINGLETON : S) (w w1 : World V R S) (t : Addr)
    (n : String) (fields : Fields) (args : ConstructorArgs) (d : BeanDefinition R S)
    (i : Value V) (hreg : w.heap.registered t n = some d) (hs : d.Scope = SINGLETON)
    (hres : GetBean construct slack SINGLETON w t n fields args = (w1, Except.ok i)) :
    w1.heap.cached t n = some i := by
  obtain ⟨c, p, hc, hl, hd⟩ := registered_elim w.heap t n d hreg
  have hgd : GetBeanDefinition w.heap t n = Except.ok p := by
    rw [getBeanDefinition_of_lookup w.heap t c n hc, hl]
  unfold GetBean at hres
  rw [hgd] at hres
  simp only [] at hres
  cases hm : merge slack w.heap p fields args with
  | error e =>
    rw [hm] at hres
    simp at hres
  | ok r =>
    obtain ⟨h1, bd⟩ := r
    rw [hm] at hres
    simp only [] at hres
    obtain ⟨hctxs, -, hscope⟩ := merge_frame slack w.heap h1 p bd fields args hm
    cases hdr : h1.deref bd with
    | error e =>
      rw [hdr] at hres
      simp at hres
    | ok b =>
      rw [hdr] at hres
      simp only [] at hres
      obtain ⟨b0, hb0, hsc, -⟩ := hscope b (deref_ok h1 bd b hdr)
      have hbs : b.Scope = SINGLETON := by
        rw [hd] at hb0
        injection hb0 with hb0
        rw [hsc, ← hb0]
        exact hs
      have hload : h1.load t n = Except.ok (c.instances.lookup n) := by
        unfold Heap.load
        rw [hctxs, hc]
      rw [if_pos hbs, hload] at hres
      cases hlk : c.instances.lookup n with
      | some ins =>
        rw [hlk] at hres
        simp only [Prod.mk.injEq, Except.ok.injEq] at hres
        obtain ⟨hw, hi⟩ := hres
        rw [← hw, ← hi]
        show h1.cached t n = some ins
        rw [cached_congr w.heap h1 t n hctxs]
        unfold Heap.cached
        rw [hc]
        exact hlk
      | none =>
        rw [hlk] at hres
        simp only [] at hres
        cases hcon : construct h1 bd with
        | mk h2 r =>
          rw [hcon] at hres
          cases r with
          | error e => simp at hres
          | ok val =>
            simp only [] at hres
            unfold Heap.loadOrStore at hres
            cases hc2 : h2.ctxs[t]? with
            | none =>
              rw [hc2] at hres
              simp at hres
            | some c2 =>
              rw [hc2] at hres
              simp only [] at hres
              cases hl2 : c2.instances.lookup n with
              | some ins =>
                rw [hl2] at hres
                simp only [Prod.mk.injEq, Except.ok.injEq] at hres
                obtain ⟨hw, hi⟩ := hres
                rw [← hw, ← hi]
                show h2.cached t n = some ins
                unfold Heap.cached
                rw [hc2]
                exact hl2
              | none =>
                rw [hl2] at hres
                simp only [Prod.mk.injEq, Except.ok.injEq] at hres
                obtain ⟨hw, hi⟩ := hres
                rw [← hw, ← hi]
                show (h2.withCached t c2 n val).cached t n = some val
                rw [cached_store h2 t c2 n val hc2 n]
                exact AList.lookup_insert _

/-- C12: for every name registered with scope `SINGLETON`, once a `GetBean` call for it
has returned the instance `i`, every later `GetBean` for that name on the same context,
after any sequence of calls and with any field and argument overrides, returns `i` again
and invokes no construction (the record `built` is as before the call).  Construction is
assumed to keep the definitions, the registry and the cached instances of the context. -/
theorem getBean_singleton_same_instance [DecidableEq S]
    (construct : Heap V R S → Addr → Heap V R S × Except Panic (Value V))
    (slack : Nat → Nat → Nat) (SINGLETON : S) (w0 w1 : World V R S) (t : Addr)
    (n : String) (fields0 : Fields) (args0 : ConstructorArgs) (d : BeanDefinition R S)
    (i : Value V) (calls : List Call) (fields : Fields) (args : ConstructorArgs)
    (hcons : ∀ g p, Grows t g (construct g p).1)
    (hreg : w0.heap.registered t n = some d) (hs : d.Scope = SINGLETON)
    (hfirst : GetBean construct slack SINGLETON w0 t n fields0 args0 = (w1, Except.ok i))
    (hvb : d.ConstructorArgs.Valid (calls.foldl (exec construct slack SINGLETON t) w1).heap)
    (hva : args.Valid (calls.foldl (exec construct slack SINGLETON t) w1).heap) :
    ∃ w3, GetBean construct slack SINGLETON
        (calls.foldl (exec construct slack SINGLETON t) w1) t n fields args =
          (w3, Except.ok i) ∧
      w3.built = (calls.foldl (exec construct slack SINGLETON t) w1).built := by
  have hcached1 : w1.heap.cached t n = some i :=
    getBean_singleton_cached construct slack SINGLETON w0 w1 t n fields0 args0 d i hreg hs
      hfirst
  have hg01 : Grows t w0.heap w1.heap := by
    have := getBean_grows construct slack SINGLETON w0 t n fields0 args0 hcons
    rw [hfirst] at this
    exact this
  have hg12 := run_grows construct slack SINGLETON t calls hcons w1
  generalize calls.foldl (exec construct slack SINGLETON t) w1 = w2 at hvb hva hg12 ⊢
  have hreg2 : w2.heap.registered t n = some d :=
    grows_registered t w1.heap w2.heap hg12 n d
      (grows_registered t w0.heap w1.heap hg01 n d hreg)
  have hcached2 : w2.heap.cached t n = some i :=
    grows_keepsCache t w1.heap w2.heap hg12 n i hcached1
  obtain ⟨c, p, hc, hl, hd⟩ := registered_elim w2.heap t n d hreg2
  obtain ⟨h1, bd, -, -, -, heq⟩ :=
    getBean_eq construct slack SINGLETON w2 t n fields args c p d hc hl hd hvb hva
  have hlk : c.instances.lookup n = some i := by
    unfold Heap.cached at hcached2
    rw [hc] at hcached2
    exact hcached2
  rw [if_pos hs, hlk] at heq
  exact ⟨{ w2 with heap := h1 }, heq, rfl⟩

/-- Witness of C12: `db` was resolved in `exWorld` with instance 3; after `Get("log")`
and `Has("db")`, resolving `db` with field and argument overrides returns 3 again. -/
theorem getBean_singleton_same_instance_witness :
    (exWorld.heap.registered 0 "db" = some exDb ∧ exDb.Scope = "singleton" ∧
      GetBean exConstruct doubling "singleton" exWorld 0 "db" none exNoArgs =
        (exWorldDb, Except.ok (Value.val 3))) ∧
    ∃ w3, GetBean exConstruct doubling "singleton"
        ([Call.get "log", Call.has "db"].foldl (exec exConstruct doubling "singleton" 0)
          exWorldDb) 0 "db" (some 1) exArgs = (w3, Except.ok (Value.val 3)) ∧
      w3.built = ([Call.get "log", Call.has "db"].foldl
        (exec exConstruct doubling "singleton" 0) exWorldDb).built :=
  ⟨⟨rfl, rfl, rfl⟩,
   getBean_singleton_same_instance exConstruct doubling "singleton" exWorld exWorldDb 0 "db"
     none exNoArgs exDb (Value.val 3) [Call.get "log", Call.has "db"] (some 1) exArgs
     (exConstruct_grows 0) rfl rfl rfl (by decide) (by decide)⟩

/-- C16: in every state reached from a freshly constructed context, whose instance cache
is empty, by any sequence of `GetBean`, `Get` and `Has` calls, every name with a cached
instance is registered with a definition of scope `SINGLETON`.  Construction is assumed
to keep the definitions, the registry and the cached instances of the context and to
cache, if anything, only instances of registered singletons. -/
theorem cache_only_registered_singletons [DecidableEq S]
    (construct : Heap V R S → Addr → Heap V R S × Except Panic (Value V))
    (slack : Nat → Nat → Nat) (SINGLETON : S) (h : Heap V R S)
    (definitions : List (BeanDefinition R S)) (calls : List Call)
    (hcons : ∀ t g p, Grows t g (construct g p).1 ∧
      (CacheInv SINGLETON t g → CacheInv SINGLETON t (construct g p).1)) :
    ∃ h0 t, NewApplicationContext h definitions = Except.ok (h0, t) ∧
      (∀ n, h0.cached t n = none) ∧
      ∀ n v,
        (calls.foldl (exec construct slack SINGLETON t) { heap := h0, built := [] }).heap.cached
          t n = some v →
        ∃ d, (calls.foldl (exec construct slack SINGLETON t)
            { heap := h0, built := [] }).heap.registered t n = some d ∧
          d.Scope = SINGLETON := by
  obtain ⟨h0, c1, hrun, hc1, -, -, -, hinst, -⟩ := newContext_spec h definitions
  have hempty : ∀ n, h0.cached h.ctxs.length n = none := by
    intro n
    unfold Heap.cached
    rw [hc1]
    simp only []
    rw [hinst]
    rfl
  have hinv0 : CacheInv SINGLETON h.ctxs.length h0 := by
    intro n v hn
    rw [hempty n] at hn
    exact Option.noConfusion hn
  exact ⟨h0, h.ctxs.length, hrun, hempty,
    run_cacheInv construct slack SINGLETON h.ctxs.length calls (hcons h.ctxs.length)
      { heap := h0, built := [] } hinv0⟩

/-- Witness of C16: calls on the context built from `[exFirst, exLog]`. -/
theorem cache_only_registered_singletons_witness :
    ∃ h0 t, NewApplicationContext exHeap [exFirst, exLog] = Except.ok (h0, t) ∧
      (∀ n, h0.cached t n = none) ∧
      ∀ n v,
        ([Call.get "db", Call.get "log", Call.has "db"].foldl
          (exec exConstruct doubling "singleton" t)
          { heap := h0, built := [] }).heap.cached t n = some v →
        ∃ d, ([Call.get "db", Call.get "log", Call.has "db"].foldl
            (exec exConstruct doubling "singleton" t)
            { heap := h0, built := [] }).heap.registered t n = some d ∧
          d.Scope = "singleton" :=
  cache_only_registered_singletons exConstruct doubling "singleton" exHeap [exFirst, exLog]
    [Call.get "db", Call.get "log", Call.has "db"]
    (fun t g p => ⟨exConstruct_grows t g p, exConstruct_cacheInv t g p⟩)

/-- C17: cached instances are never evicted or overwritten: for every `GetBean`, `Get` or
`Has` call on a context, with any name and any overrides, whether the call returns or
panics, every name with a cached instance before the call has the same instance cached
after it.  Construction is assumed not to evict or overwrite a cached instance itself. -/
theorem cached_instances_persist [DecidableEq S]
    (construct : Heap V R S → Addr → Heap V R S × Except Panic (Value V))
    (slack : Nat → Nat → Nat) (SINGLETON : S) (t : Addr) (w : World V R S) (call : Call)
    (hcons : ∀ g p n v, g.cached t n = some v → (construct g p).1.cached t n = some v)
    (n : String) (v : Value V) (hn : w.heap.cached t n = some v) :
    (exec construct slack SINGLETON t w call).heap.cached t n = some v :=
  exec_keepsCache construct slack SINGLETON t w call hcons n v hn

/-- Witness of C17: the instance 3 cached under `db` survives a `GetBean` for `db` with
overrides. -/
theorem cached_instances_persist_witness :
    exWorldDb.heap.cached 0 "db" = some (Value.val 3) ∧
    (exec exConstruct doubling "singleton" 0 exWorldDb
      (Call.getBean "db" (some 1) exArgs)).heap.cached 0 "db" = some (Value.val 3) :=
  ⟨rfl,
   cached_instances_persist exConstruct doubling "singleton" 0 exWorldDb
     (Call.getBean "db" (some 1) exArgs) (fun _ _ _ _ hc => hc) "db" (Value.val 3) rfl⟩

/-! ## Concurrent callers of `GetBean` -/

theorem loadOrStore_spec (h h3 : Heap V R S) (t : Addr) (name : String) (val ins : Value V)
    (hr : h.loadOrStore t name val = Except.ok (h3, ins)) :
    Grows t h h3 ∧ h3.cached t name = some ins := by
  unfold Heap.loadOrStore at hr
  cases hc : h.ctxs[t]? with
  | none =>
    rw [hc] at hr
    exact Except.noConfusion hr
  | some c =>
    rw [hc] at hr
    simp only [] at hr
    cases hl : c.instances.lookup name with
    | some i0 =>
      rw [hl] at hr
      simp only [Except.ok.injEq, Prod.mk.injEq] at hr
      obtain ⟨hh, hi⟩ := hr
      subst hh hi
      refine ⟨grows_refl t _, ?_⟩
      unfold Heap.cached
      rw [hc]
      exact hl
    | none =>
      rw [hl] at hr
      simp only [Except.ok.injEq, Prod.mk.injEq] at hr
      obtain ⟨hh, hi⟩ := hr
      subst hh hi
      refine ⟨grows_store h t c name val hc hl, ?_⟩
      rw [cached_store h t c name val hc name]
      exact AList.lookup_insert _

theorem callerStep_grows [DecidableEq S]
    (construct : Heap V R S → Addr → Heap V R S × Except Panic (Value V))
    (slack : Nat → Nat → Nat) (SINGLETON : S) (t : Addr) (w : World V R S) (c : Caller V)
    (hcons : ∀ g p, Grows t g (construct g p).1) :
    Grows t w.heap (callerStep construct slack SINGLETON t w c).1.heap := by
  cases c with
  | start name fields args =>
    unfold callerStep
    simp only []
    cases hgd : GetBeanDefinition w.heap t name with
    | error e => exact grows_refl t _
    | ok p =>
      simp only []
      cases hm : merge slack w.heap p fields args with
      | error e => exact grows_refl t _
      | ok r =>
        obtain ⟨h1, bd⟩ := r
        obtain ⟨hctxs, hdefs, -⟩ := merge_frame slack w.heap h1 p bd fields args hm
        have hg : Grows t w.heap h1 := grows_of_frame t w.heap h1 hctxs hdefs
        simp only []
        cases h1.deref bd with
        | error e => exact hg
        | ok b =>
          simp only []
          split <;> exact hg
  | probe name bd =>
    unfold callerStep
    simp only []
    cases w.heap.load t name with
    | error e => exact grows_refl t _
    | ok o =>
      cases o with
      | none => exact grows_refl t _
      | some ins => exact grows_refl t _
  | build name bd =>
    unfold callerStep
    simp only []
    have hg := hcons w.heap bd
    cases hc : construct w.heap bd with
    | mk h2 r =>
      rw [hc] at hg
      cases r with
      | error e => exact hg
      | ok val => exact hg
  | commit name val =>
    unfold callerStep
    simp only []
    cases hl : w.heap.loadOrStore t name val with
    | error e => exact grows_refl t _
    | ok r =>
      obtain ⟨h3, ins⟩ := r
      exact (loadOrStore_spec w.heap h3 t name val ins hl).1
  | buildOnly bd =>
    unfold callerStep
    simp only []
    exact hcons w.heap bd
  | done r => exact grows_refl t _

theorem callerOk_mono (n : String) (t : Addr) (h g : Heap V R S) (c : Caller V)
    (hg : Grows t h g) (hok : CallerOk n t h c) : CallerOk n t g c := by
  cases c with
  | start name fields args => exact hok
  | probe name bd => exact hok
  | build name bd => exact hok
  | commit name val => exact hok
  | buildOnly bd => exact hok
  | done r =>
    cases r with
    | error e => exact hok
    | ok ins => exact grows_keepsCache t h g hg n ins hok

theorem callerStep_ok [DecidableEq S]
    (construct : Heap V R S → Addr → Heap V R S × Except Panic (Value V))
    (slack : Nat → Nat → Nat) (SINGLETON : S) (t : Addr) (w : World V R S) (c : Caller V)
    (n : String) (d : BeanDefinition R S) (hreg : w.heap.registered t n = some d)
    (hs : d.Scope = SINGLETON) (hok : CallerOk n t w.heap c) :
    CallerOk n t (callerStep construct slack SINGLETON t w c).1.heap
      (callerStep construct slack SINGLETON t w c).2 := by
  cases c with
  | start name fields args =>
    have hname : name = n := hok
    subst hname
    obtain ⟨c0, p, hc0, hl0, hd0⟩ := registered_elim w.heap t name d hreg
    have hgd : GetBeanDefinition w.heap t name = Except.ok p := by
      rw [getBeanDefinition_of_lookup w.heap t c0 name hc0, hl0]
    unfold callerStep
    simp only []
    rw [hgd]
    simp only []
    cases hm : merge slack w.heap p fields args with
    | error e => exact trivial
    | ok r =>
      obtain ⟨h1, bd⟩ := r
      obtain ⟨-, -, hscope⟩ := merge_frame slack w.heap h1 p bd fields args hm
      simp only []
      cases hdr : h1.deref bd with
      | error e => exact trivial
      | ok b =>
        obtain ⟨b0, hb0, hsc, -⟩ := hscope b (deref_ok h1 bd b hdr)
        have hbs : b.Scope = SINGLETON := by
          rw [hd0] at hb0
          injection hb0 with hb0
          rw [hsc, ← hb0]
          exact hs
        simp only [hbs, if_true]
        exact rfl
  | probe name bd =>
    have hname : name = n := hok
    subst hname
    unfold callerStep
    simp only []
    cases hl : w.heap.load t name with
    | error e => exact trivial
    | ok o =>
      cases o with
      | none => exact rfl
      | some ins =>
        show w.heap.cached t name = some ins
        unfold Heap.load at hl
        unfold Heap.cached
        cases hc : w.heap.ctxs[t]? with
        | none =>
          rw [hc] at hl
          exact Except.noConfusion hl
        | some c1 =>
          rw [hc] at hl
          simp only [Except.ok.injEq] at hl ⊢
          exact hl
  | build name bd =>
    have hname : name = n := hok
    subst hname
    unfold callerStep
    simp only []
    cases hc : construct w.heap bd with
    | mk h2 r =>
      cases r with
      | error e => exact trivial
      | ok val => exact rfl
  | commit name val =>
    have hname : name = n := hok
    subst hname
    unfold callerStep
    simp only []
    cases hl : w.heap.loadOrStore t name val with
    | error e => exact trivial
    | ok r =>
      obtain ⟨h3, ins⟩ := r
      exact (loadOrStore_spec w.heap h3 t name val ins hl).2
  | buildOnly bd => exact absurd hok (fun hf => hf)
  | done r => exact hok

theorem sysStep_ok [DecidableEq S]
    (construct : Heap V R S → Addr → Heap V R S × Except Panic (Value V))
    (slack : Nat → Nat → Nat) (SINGLETON : S) (t : Addr)
    (s : World V R S × List (Caller V)) (i : Nat) (n : String) (d : BeanDefinition R S)
    (hcons : ∀ g p, Grows t g (construct g p).1) (hs : d.Scope = SINGLETON)
    (hinv : s.1.heap.registered t n = some d ∧ ∀ c ∈ s.2, CallerOk n t s.1.heap c) :
    (sysStep construct slack SINGLETON t s i).1.heap.registered t n = some d ∧
      ∀ c ∈ (sysStep construct slack SINGLETON t s i).2,
        CallerOk n t (sysStep construct slack SINGLETON t s i).1.heap c := by
  unfold sysStep
  cases hi : s.2[i]? with
  | none => exact hinv
  | some c0 =>
    simp only []
    have hmem : c0 ∈ s.2 := List.getElem?_mem hi
    have hg := callerStep_grows construct slack SINGLETON t s.1 c0 hcons
    refine ⟨grows_registered t _ _ hg n d hinv.1, ?_⟩
    intro c hc
    rcases List.mem_or_eq_of_mem_set hc with hin | heq
    · exact callerOk_mono n t _ _ c hg (hinv.2 c hin)
    · rw [heq]
      exact callerStep_ok construct slack SINGLETON t s.1 c0 n d hinv.1 hs (hinv.2 c0 hmem)

theorem runSchedule_ok [DecidableEq S]
    (construct : Heap V R S → Addr → Heap V R S × Except Panic (Value V))
    (slack : Nat → Nat → Nat) (SINGLETON : S) (t : Addr) (schedule : List Nat)
    (n : String) (d : BeanDefinition R S)
    (hcons : ∀ g p, Grows t g (construct g p).1) (hs : d.Scope = SINGLETON) :
    ∀ s : World V R S × List (Caller V),
      (s.1.heap.registered t n = some d ∧ ∀ c ∈ s.2, CallerOk n t s.1.heap c) →
      ∀ c ∈ (runSchedule construct slack SINGLETON t s schedule).2,
        CallerOk n t (runSchedule construct slack SINGLETON t s schedule).1.heap c := by
  induction schedule with
  | nil => intro s hinv; exact hinv.2
  | cons i schedule ih =>
    intro s hinv
    unfold runSchedule
    rw [List.foldl_cons]
    exact ih _ (sysStep_ok construct slack SINGLETON t s i n d hcons hs hinv)

theorem runSchedule_alone [DecidableEq S]
    (construct : Heap V R S → Addr → Heap V R S × Except Panic (Value V))
    (slack : Nat → Nat → Nat) (SINGLETON : S) (t : Addr) (w : World V R S) (name : String)
    (fields : Fields) (args : ConstructorArgs) :
    runSchedule construct slack SINGLETON t (w, [Caller.start name fields args])
        [0, 0, 0, 0] =
      ((GetBean construct slack SINGLETON w t name fields args).1,
       [Caller.done (GetBean construct slack SINGLETON w t name fields args).2]) := by
  unfold GetBean
  simp only [runSchedule, List.foldl_cons, List.foldl_nil, sysStep, List.getElem?_cons_zero,
    List.set_cons_zero]
  cases hgd : GetBeanDefinition w.heap t name with
  | error e => simp [callerStep, hgd]
  | ok p =>
    cases hm : merge slack w.heap p fields args with
    | error e => simp [callerStep, hgd, hm]
    | ok r =>
      obtain ⟨h1, bd⟩ := r
      cases hd : h1.deref bd with
      | error e => simp [callerStep, hgd, hm, hd]
      | ok b =>
        by_cases hs : b.Scope = SINGLETON
        · cases hl : h1.load t name with
          | error e => simp [callerStep, hgd, hm, hd, hs, hl]
          | ok o =>
            cases o with
            | some ins => simp [callerStep, hgd, hm, hd, hs, hl]
            | none =>
              cases hc : construct h1 bd with
              | mk h2 r =>
                cases r with
                | error e => simp [callerStep, hgd, hm, hd, hs, hl, hc]
                | ok val =>
                  cases hls : h2.loadOrStore t name val with
                  | error e => simp [callerStep, hgd, hm, hd, hs, hl, hc, hls]
                  | ok r2 =>
                    obtain ⟨h3, ins⟩ := r2
                    simp [callerStep, hgd, hm, hd, hs, hl, hc, hls]
        · cases hc : construct h1 bd with
          | mk h2 r => simp [callerStep, hgd, hm, hd, hs, hc]

/-! ## Progress of concurrent callers -/

theorem callerStep_rank [DecidableEq S]
    (construct : Heap V R S → Addr → Heap V R S × Except Panic (Value V))
    (slack : Nat → Nat → Nat) (SINGLETON : S) (t : Addr) (w : World V R S) (c : Caller V) :
    (callerStep construct slack SINGLETON t w c).2.rank ≤ c.rank - 1 := by
  cases c with
  | start name fields args =>
    unfold callerStep
    simp only []
    cases GetBeanDefinition w.heap t name with
    | error e => exact Nat.zero_le _
    | ok p =>
      simp only []
      cases merge slack w.heap p fields args with
      | error e => exact Nat.zero_le _
      | ok r =>
        obtain ⟨h1, bd⟩ := r
        simp only []
        cases h1.deref bd with
        | error e => exact Nat.zero_le _
        | ok b =>
          simp only []
          split
          · exact Nat.le_refl 3
          · show 1 ≤ 3
            omega
  | probe name bd =>
    unfold callerStep
    simp only []
    cases w.heap.load t name with
    | error e => exact Nat.zero_le _
    | ok o =>
      cases o with
      | none => exact Nat.le_refl 2
      | some ins => exact Nat.zero_le _
  | build name bd =>
    unfold callerStep
    simp only []
    cases construct w.heap bd with
    | mk h2 r =>
      cases r with
      | error e => exact Nat.zero_le _
      | ok val => exact Nat.le_refl 1
  | commit name val =>
    unfold callerStep
    simp only []
    cases w.heap.loadOrStore t name val with
    | error e => exact Nat.zero_le _
    | ok r => exact Nat.zero_le _
  | buildOnly bd =>
    unfold callerStep
    exact Nat.zero_le _
  | done r => exact Nat.zero_le _

theorem rank_zero_done (c : Caller V) (h : c.rank = 0) : ∃ r, c = Caller.done r := by
  cases c with
  | start name fields args => exact absurd h (by simp [Caller.rank])
  | probe name bd => exact absurd h (by simp [Caller.rank])
  | build name bd => exact absurd h (by simp [Caller.rank])
  | commit name val => exact absurd h (by simp [Caller.rank])
  | buildOnly bd => exact absurd h (by simp [Caller.rank])
  | done r => exact ⟨r, rfl⟩

theorem rank_le_four (c : Caller V) : c.rank ≤ 4 := by
  cases c <;> simp [Caller.rank]

theorem sysStep_rank [DecidableEq S]
    (construct : Heap V R S → Addr → Heap V R S × Except Panic (Value V))
    (slack : Nat → Nat → Nat) (SINGLETON : S) (t : Addr)
    (s : World V R S × List (Caller V)) (j i : Nat) (c : Caller V)
    (hi : s.2[i]? = some c) :
    ∃ c1, (sysStep construct slack SINGLETON t s j).2[i]? = some c1 ∧
      c1.rank ≤ c.rank - (if j = i then 1 else 0) := by
  have hlt : i < s.2.length := (List.getElem?_eq_some.mp hi).1
  unfold sysStep
  cases hj : s.2[j]? with
  | none =>
    refine ⟨c, hi, ?_⟩
    have hne : ¬ j = i := by
      intro heq
      rw [heq, hi] at hj
      exact Option.noConfusion hj
    simp [hne]
  | some cj =>
    simp only []
    by_cases hji : j = i
    · subst hji
      rw [hi] at hj
      injection hj with hj
      subst hj
      refine ⟨(callerStep construct slack SINGLETON t s.1 c).2,
        by simp [List.getElem?_set, hlt], ?_⟩
      simp only [if_true]
      exact callerStep_rank construct slack SINGLETON t s.1 c
    · refine ⟨c, by rw [List.getElem?_set_ne hji]; exact hi, ?_⟩
      simp [hji]

theorem runSchedule_rank [DecidableEq S]
    (construct : Heap V R S → Addr → Heap V R S × Except Panic (Value V))
    (slack : Nat → Nat → Nat) (SINGLETON : S) (t : Addr) (schedule : List Nat) (i : Nat) :
    ∀ (s : World V R S × List (Caller V)) (c : Caller V), s.2[i]? = some c →
      ∃ c1, (runSchedule construct slack SINGLETON t s schedule).2[i]? = some c1 ∧
        c1.rank ≤ c.rank - schedule.count i := by
  induction schedule with
  | nil =>
    intro s c hi
    exact ⟨c, hi, by simp⟩
  | cons j schedule ih =>
    intro s c hi
    obtain ⟨c0, hc0, hr0⟩ := sysStep_rank construct slack SINGLETON t s j i c hi
    obtain ⟨c1, hc1, hr1⟩ := ih (sysStep construct slack SINGLETON t s j) c0 hc0
    refine ⟨c1, ?_, ?_⟩
    · unfold runSchedule at hc1 ⊢
      rw [List.foldl_cons]
      exact hc1
    · rw [List.count_cons]
      by_cases hji : j = i
      · simp only [hji, if_true] at hr0
        simp only [hji, beq_self_eq_true, if_true]
        omega
      · simp only [hji, if_false] at hr0
        have hb : (j == i) = false := by simpa using hji
        simp only [hb]
        simp only [Bool.false_eq_true, if_false]
        omega

theorem runSchedule_ended [DecidableEq S]
    (construct : Heap V R S → Addr → Heap V R S × Except Panic (Value V))
    (slack : Nat → Nat → Nat) (SINGLETON : S) (t : Addr) (schedule : List Nat)
    (s : World V R S × List (Caller V)) (i : Nat) (hi : i < s.2.length)
    (hfair : 4 ≤ schedule.count i) :
    ∃ r, (runSchedule construct slack SINGLETON t s schedule).2[i]? =
      some (Caller.done r) := by
  obtain ⟨c1, hc1, hr1⟩ := runSchedule_rank construct slack SINGLETON t schedule i s
    s.2[i] (List.getElem?_eq_getElem hi)
  have h4 := rank_le_four s.2[i]
  obtain ⟨r, hr⟩ := rank_zero_done c1 (by omega)
  exact ⟨r, by rw [hc1, hr]⟩

theorem valid_of_prefix (h g : Heap V R S) (s : Slice) (hp : h.arrays <+: g.arrays)
    (hv : s.Valid h) : s.Valid g := by
  obtain ⟨e, he⟩ := hp
  by_cases hc : 0 < s.cap
  · have hlt := valid_arr_lt h s hv hc
    unfold Slice.Valid at hv ⊢
    rw [← he, getD_append_lt _ _ _ _ hlt]
    exact hv
  · unfold Slice.Valid at hv ⊢
    have h0 : s.cap = 0 := by omega
    have hlen : (h.arrays.getD s.arr []).length ≤ (g.arrays.getD s.arr []).length := by
      by_cases hlt : s.arr < h.arrays.length
      · rw [← he, getD_append_lt _ _ _ _ hlt]
      · have hge : h.arrays.length ≤ s.arr := Nat.le_of_not_lt hlt
        have hnil : h.arrays.getD s.arr [] = [] := by
          simp [List.getD_eq_getElem?_getD, List.getElem?_eq_none hge]
        rw [hnil]
        exact Nat.zero_le _
    omega

theorem merge_ok_arrays (slack : Nat → Nat → Nat) (h : Heap V R S) (bd : Addr)
    (b : BeanDefinition R S) (fields : Fields) (args : ConstructorArgs)
    (hb : h.defs[bd]? = some b) (hvb : b.ConstructorArgs.Valid h) (hva : args.Valid h) :
    ∃ h1 p nd, merge slack h bd fields args = Except.ok (h1, p) ∧ h1.defs[p]? = some nd ∧
      nd.Scope = b.Scope ∧ h.arrays <+: h1.arrays := by
  by_cases hne : 0 < h.mapLen fields ∨ 0 < args.len
  · obtain ⟨h3, nd, hrun, hdefs, ⟨e, harr⟩, -, -, -, hscope, -⟩ :=
      merge_spec slack h bd b fields args hb hvb hva hne
    exact ⟨h3, h.defs.length, nd, hrun, by simp [hdefs], hscope, ⟨e, harr.symm⟩⟩
  · have hf : h.mapLen fields = 0 := by omega
    have ha : args.len = 0 := by omega
    exact ⟨h, bd, b, merge_identity slack h bd fields args hf ha, hb, rfl,
      List.prefix_refl _⟩

theorem loadOrStore_arrays (h h3 : Heap V R S) (t : Addr) (name : String)
    (val ins : Value V) (hr : h.loadOrStore t name val = Except.ok (h3, ins)) :
    h3.arrays = h.arrays := by
  unfold Heap.loadOrStore at hr
  cases hc : h.ctxs[t]? with
  | none =>
    rw [hc] at hr
    exact Except.noConfusion hr
  | some c =>
    rw [hc] at hr
    simp only [] at hr
    cases hl : c.instances.lookup name with
    | some i0 =>
      rw [hl] at hr
      simp only [Except.ok.injEq, Prod.mk.injEq] at hr
      rw [← hr.1]
    | none =>
      rw [hl] at hr
      simp only [Except.ok.injEq, Prod.mk.injEq] at hr
      rw [← hr.1]
      rfl

theorem callerGood_mono (n : String) (t : Addr) (h g : Heap V R S) (c : Caller V)
    (hg : Grows t h g) (hp : h.arrays <+: g.arrays) (hok : CallerGood n t h c) :
    CallerGood n t g c := by
  cases c with
  | start name fields args => exact ⟨hok.1, valid_of_prefix h g args hp hok.2⟩
  | probe name bd => exact hok
  | build name bd => exact hok
  | commit name val => exact hok
  | buildOnly bd => exact hok
  | done r =>
    cases r with
    | error e => exact hok
    | ok ins => exact grows_keepsCache t h g hg n ins hok

theorem callerStep_good [DecidableEq S]
    (construct : Heap V R S → Addr → Heap V R S × Except Panic (Value V))
    (slack : Nat → Nat → Nat) (SINGLETON : S) (t : Addr) (w : World V R S) (c : Caller V)
    (n : String) (d : BeanDefinition R S)
    (hret : ∀ g p, ∃ val, (construct g p).2 = Except.ok val)
    (harr : ∀ g p, g.arrays <+: (construct g p).1.arrays)
    (hreg : w.heap.registered t n = some d) (hs : d.Scope = SINGLETON)
    (hvd : d.ConstructorArgs.Valid w.heap) (hok : CallerGood n t w.heap c) :
    CallerGood n t (callerStep construct slack SINGLETON t w c).1.heap
      (callerStep construct slack SINGLETON t w c).2 ∧
    w.heap.arrays <+: (callerStep construct slack SINGLETON t w c).1.heap.arrays := by
  obtain ⟨c0, p, hc0, hl0, hd0⟩ := registered_elim w.heap t n d hreg
  cases c with
  | start name fields args =>
    obtain ⟨hname, hva⟩ := hok
    subst hname
    have hgd : GetBeanDefinition w.heap t name = Except.ok p := by
      rw [getBeanDefinition_of_lookup w.heap t c0 name hc0, hl0]
    obtain ⟨h1, bd, nd, hm, hnd, hscope, hpre⟩ :=
      merge_ok_arrays slack w.heap p d fields args hd0 hvd hva
    have hderef : h1.deref bd = Except.ok nd := deref_of_get h1 bd nd hnd
    have hnds : nd.Scope = SINGLETON := hscope.trans hs
    unfold callerStep
    simp only []
    rw [hgd]
    simp only []
    rw [hm]
    simp only []
    rw [hderef]
    simp only [hnds, if_true]
    exact ⟨rfl, hpre⟩
  | probe name bd =>
    have hname : name = n := hok
    subst hname
    have hload : w.heap.load t name = Except.ok (c0.instances.lookup name) := by
      unfold Heap.load
      rw [hc0]
    unfold callerStep
    simp only []
    rw [hload]
    cases hlk : c0.instances.lookup name with
    | none => exact ⟨rfl, List.prefix_refl _⟩
    | some ins =>
      refine ⟨?_, List.prefix_refl _⟩
      show w.heap.cached t name = some ins
      unfold Heap.cached
      rw [hc0]
      exact hlk
  | build name bd =>
    have hname : name = n := hok
    subst hname
    obtain ⟨val, hval⟩ := hret w.heap bd
    have hpre := harr w.heap bd
    unfold callerStep
    simp only []
    cases hc : construct w.heap bd with
    | mk h2 r =>
      rw [hc] at hval hpre
      simp only [] at hval
      subst hval
      exact ⟨rfl, hpre⟩
  | commit name val =>
    have hname : name = n := hok
    subst hname
    unfold callerStep
    simp only []
    cases hl : w.heap.loadOrStore t name val with
    | error e =>
      unfold Heap.loadOrStore at hl
      rw [hc0] at hl
      simp only [] at hl
      cases hlk : c0.instances.lookup name with
      | none =>
        rw [hlk] at hl
        exact Except.noConfusion hl
      | some ins =>
        rw [hlk] at hl
        exact Except.noConfusion hl
    | ok r =>
      obtain ⟨h3, ins⟩ := r
      refine ⟨(loadOrStore_spec w.heap h3 t name val ins hl).2, ?_⟩
      show w.heap.arrays <+: h3.arrays
      rw [loadOrStore_arrays w.heap h3 t name val ins hl]
  | buildOnly bd => exact absurd hok (fun hf => hf)
  | done r => exact ⟨hok, List.prefix_refl _⟩

theorem sysStep_good [DecidableEq S]
    (construct : Heap V R S → Addr → Heap V R S × Except Panic (Value V))
    (slack : Nat → Nat → Nat) (SINGLETON : S) (t : Addr)
    (s : World V R S × List (Caller V)) (i : Nat) (n : String) (d : BeanDefinition R S)
    (hcons : ∀ g p, Grows t g (construct g p).1)
    (hret : ∀ g p, ∃ val, (construct g p).2 = Except.ok val)
    (harr : ∀ g p, g.arrays <+: (construct g p).1.arrays) (hs : d.Scope = SINGLETON)
    (hinv : s.1.heap.registered t n = some d ∧ d.ConstructorArgs.Valid s.1.heap ∧
      ∀ c ∈ s.2, CallerGood n t s.1.heap c) :
    (sysStep construct slack SINGLETON t s i).1.heap.registered t n = some d ∧
      d.ConstructorArgs.Valid (sysStep construct slack SINGLETON t s i).1.heap ∧
      ∀ c ∈ (sysStep construct slack SINGLETON t s i).2,
        CallerGood n t (sysStep construct slack SINGLETON t s i).1.heap c := by
  unfold sysStep
  cases hi : s.2[i]? with
  | none => exact hinv
  | some c0 =>
    simp only []
    have hmem : c0 ∈ s.2 := List.getElem?_mem hi
    have hg := callerStep_grows construct slack SINGLETON t s.1 c0 hcons
    obtain ⟨hgood, hpre⟩ := callerStep_good construct slack SINGLETON t s.1 c0 n d hret harr
      hinv.1 hs hinv.2.1 (hinv.2.2 c0 hmem)
    refine ⟨grows_registered t _ _ hg n d hinv.1, valid_of_prefix _ _ _ hpre hinv.2.1, ?_⟩
    intro c hc
    rcases List.mem_or_eq_of_mem_set hc with hin | heq
    · exact callerGood_mono n t _ _ c hg hpre (hinv.2.2 c hin)
    · rw [heq]
      exact hgood

theorem runSchedule_good [DecidableEq S]
    (construct : Heap V R S → Addr → Heap V R S × Except Panic (Value V))
    (slack : Nat → Nat → Nat) (SINGLETON : S) (t : Addr) (schedule : List Nat)
    (n : String) (d : BeanDefinition R S)
    (hcons : ∀ g p, Grows t g (construct g p).1)
    (hret : ∀ g p, ∃ val, (construct g p).2 = Except.ok val)
    (harr : ∀ g p, g.arrays <+: (construct g p).1.arrays) (hs : d.Scope = SINGLETON) :
    ∀ s : World V R S × List (Caller V),
      (s.1.heap.registered t n = some d ∧ d.ConstructorArgs.Valid s.1.heap ∧
        ∀ c ∈ s.2, CallerGood n t s.1.heap c) →
      ∀ c ∈ (runSchedule construct slack SINGLETON t s schedule).2,
        CallerGood n t (runSchedule construct slack SINGLETON t s schedule).1.heap c := by
  induction schedule with
  | nil => intro s hinv; exact hinv.2.2
  | cons i schedule ih =>
    intro s hinv
    unfold runSchedule
    rw [List.foldl_cons]
    exact ih _ (sysStep_good construct slack SINGLETON t s i n d hcons hret harr hs hinv)

/-- C13, for callers interleaved at the operations of `GetBean`: for every name
registered with scope `SINGLETON`, any number of callers that all start `GetBean` for
that name, with any overrides, and every schedule: (1) all callers that have returned
have returned the same instance, the one cached under the name; (2) a caller that
probes the cache when an instance is cached returns that instance, and a caller that
reaches `LoadOrStore` with its candidate `val` when an instance is already cached
returns the cached instance and leaves the cache as it is; (3) every caller that the
schedule picks at least four times has ended, by return or by panic; (4) when
construction never panics and the override slices are valid, every such caller has
returned, and all of them the instance cached under the name.  Construction is assumed
to keep the definitions, the registry and the cached instances of the context, and for
(4) also the arrays of the heap. -/
theorem concurrent_callers_same_instance [DecidableEq S]
    (construct : Heap V R S → Addr → Heap V R S × Except Panic (Value V))
    (slack : Nat → Nat → Nat) (SINGLETON : S) (t : Addr) (w : World V R S)
    (callers : List (Caller V)) (schedule : List Nat) (n : String)
    (d : BeanDefinition R S) (hcons : ∀ g p, Grows t g (construct g p).1)
    (hreg : w.heap.registered t n = some d) (hs : d.Scope = SINGLETON)
    (hstart : ∀ c ∈ callers, ∃ fields args, c = Caller.start n fields args) :
    (∀ (i j : Nat) r1 r2,
      (runSchedule construct slack SINGLETON t (w, callers) schedule).2[i]? =
          some (Caller.done (Except.ok r1)) →
      (runSchedule construct slack SINGLETON t (w, callers) schedule).2[j]? =
          some (Caller.done (Except.ok r2)) →
      r1 = r2 ∧
      (runSchedule construct slack SINGLETON t (w, callers) schedule).1.heap.cached t n =
        some r1) ∧
    (∀ (w1 : World V R S) (bd : Addr) (ins : Value V), w1.heap.cached t n = some ins →
      callerStep construct slack SINGLETON t w1 (Caller.probe n bd) =
        (w1, Caller.done (Except.ok ins))) ∧
    (∀ (w1 : World V R S) (val ins : Value V), w1.heap.cached t n = some ins →
      callerStep construct slack SINGLETON t w1 (Caller.commit n val) =
        (w1, Caller.done (Except.ok ins))) ∧
    ((∀ i, i < callers.length → 4 ≤ schedule.count i) →
      ∀ i, i < callers.length →
        ∃ r, (runSchedule construct slack SINGLETON t (w, callers) schedule).2[i]? =
          some (Caller.done r)) ∧
    ((∀ g p, ∃ val, (construct g p).2 = Except.ok val) →
      (∀ g p, g.arrays <+: (construct g p).1.arrays) →
      d.ConstructorArgs.Valid w.heap →
      (∀ name fields args, Caller.start name fields args ∈ callers → args.Valid w.heap) →
      (∀ i, i < callers.length → 4 ≤ schedule.count i) →
      ∀ i, i < callers.length →
        ∃ ins, (runSchedule construct slack SINGLETON t (w, callers) schedule).2[i]? =
            some (Caller.done (Except.ok ins)) ∧
          (runSchedule construct slack SINGLETON t (w, callers) schedule).1.heap.cached
            t n = some ins) := by
  refine ⟨?_, ?_, ?_, ?_, ?_⟩
  · have hinv0 : w.heap.registered t n = some d ∧ ∀ c ∈ callers, CallerOk n t w.heap c := by
      refine ⟨hreg, ?_⟩
      intro c hc
      obtain ⟨fields, args, heq⟩ := hstart c hc
      rw [heq]
      exact rfl
    have hall := runSchedule_ok construct slack SINGLETON t schedule n d hcons hs
      (w, callers) hinv0
    intro i j r1 r2 hi hj
    have h1 : (runSchedule construct slack SINGLETON t (w, callers) schedule).1.heap.cached
        t n = some r1 := hall _ (List.getElem?_mem hi)
    have h2 : (runSchedule construct slack SINGLETON t (w, callers) schedule).1.heap.cached
        t n = some r2 := hall _ (List.getElem?_mem hj)
    refine ⟨?_, h1⟩
    rw [h1] at h2
    exact Option.some.inj h2
  · intro w1 bd ins hcached
    unfold Heap.cached at hcached
    unfold callerStep Heap.load
    cases hc : w1.heap.ctxs[t]? with
    | none =>
      rw [hc] at hcached
      exact Option.noConfusion hcached
    | some c =>
      rw [hc] at hcached
      simp only [] at hcached ⊢
      rw [hcached]
  · intro w1 val ins hcached
    unfold Heap.cached at hcached
    unfold callerStep Heap.loadOrStore
    cases hc : w1.heap.ctxs[t]? with
    | none =>
      rw [hc] at hcached
      exact Option.noConfusion hcached
    | some c =>
      rw [hc] at hcached
      simp only [] at hcached ⊢
      rw [hcached]
  · intro hfair i hi
    exact runSchedule_ended construct slack SINGLETON t schedule (w, callers) i hi
      (hfair i hi)
  · intro hret harr hvd hvargs hfair i hi
    have hinv0 : w.heap.registered t n = some d ∧ d.ConstructorArgs.Valid w.heap ∧
        ∀ c ∈ callers, CallerGood n t w.heap c := by
      refine ⟨hreg, hvd, ?_⟩
      intro c hc
      obtain ⟨fields, args, heq⟩ := hstart c hc
      rw [heq] at hc ⊢
      exact ⟨rfl, hvargs n fields args hc⟩
    have hall := runSchedule_good construct slack SINGLETON t schedule n d hcons hret harr hs
      (w, callers) hinv0
    obtain ⟨r, hr⟩ := runSchedule_ended construct slack SINGLETON t schedule (w, callers) i
      hi (hfair i hi)
    have hgood := hall _ (List.getElem?_mem hr)
    cases r with
    | error e => exact absurd hgood (fun hf => hf)
    | ok ins => exact ⟨ins, hr, hgood⟩

/-- Witness of C13: two callers resolve `db` in `exWorld`, the second with overrides;
under `exSchedule`, which picks each caller four times, both miss the probe and both
construct (`built` gets two entries), the first commits, and both return the first
one's instance. -/
theorem concurrent_callers_same_instance_witness :
    (exWorld.heap.registered 0 "db" = some exDb ∧ exDb.Scope = "singleton" ∧
      exDb.ConstructorArgs.Valid exWorld.heap ∧ exNoArgs.Valid exWorld.heap ∧
      exArgs.Valid exWorld.heap ∧ ∀ i, i < 2 → 4 ≤ exSchedule.count i) ∧
    (∀ i, i < 2 →
      ∃ ins, (runSchedule exConstruct doubling "singleton" 0
        (exWorld, [Caller.start "db" none exNoArgs, Caller.start "db" (some 1) exArgs])
        exSchedule).2[i]? = some (Caller.done (Except.ok ins)) ∧
      (runSchedule exConstruct doubling "singleton" 0
        (exWorld, [Caller.start "db" none exNoArgs, Caller.start "db" (some 1) exArgs])
        exSchedule).1.heap.cached 0 "db" = some ins) ∧
    (runSchedule exConstruct doubling "singleton" 0
      (exWorld, [Caller.start "db" none exNoArgs, Caller.start "db" (some 1) exArgs])
      exSchedule).2 =
        [Caller.done (Except.ok (Value.val 4)), Caller.done (Except.ok (Value.val 4))] ∧
    (runSchedule exConstruct doubling "singleton" 0
      (exWorld, [Caller.start "db" none exNoArgs, Caller.start "db" (some 1) exArgs])
      exSchedule).1.built = [1, 3] :=
  ⟨⟨rfl, rfl, by decide, by decide, by decide, by decide⟩,
   (concurrent_callers_same_instance exConstruct doubling "singleton" 0 exWorld
     [Caller.start "db" none exNoArgs, Caller.start "db" (some 1) exArgs] exSchedule "db"
     exDb (exConstruct_grows 0) rfl rfl
     (fun c hc => by
       rcases List.mem_cons.mp hc with h1 | h1
       · exact ⟨_, _, h1⟩
       · exact ⟨_, _, List.mem_singleton.mp h1⟩)).2.2.2.2
     (fun _ _ => ⟨_, rfl⟩) (fun _ _ => ⟨[[]], rfl⟩) (by decide)
     (fun name fields args hc => by
       rcases List.mem_cons.mp hc with h1 | h1
       · injection h1 with _ _ ha
         rw [ha]
         decide
       · injection (List.mem_singleton.mp h1) with _ _ ha
         rw [ha]
         decide)
     (by decide),
   rfl, rfl⟩

end Bean
